import Mathlib

/-!
# Student record store: radix sort and the optimized group index

A shallow embedding of `src/standart/hash/student_manager.h`,
`src/standart/vector/student_manager.h` and `src/optimized/student_manager_o.h`.

* `std::vector<T>` is a `List T`; an access outside the vector is undefined behaviour in
  C++ and is `none` here.
* `int` fields are `Int`.  Signed overflow of a counter needs more than `2^31` records and
  is not modelled.
* `double` scores are exact rationals (`ℚ`).
* `std::unordered_map<string, V>` is an association list with at most one entry per key.
  The scan order of the C++ container is unspecified; the list order is one possible scan
  order, and the lemmas about scans below are proved for every list.
-/

namespace StudentManager

/-- The record `struct Student`. -/
structure Student where
  m_name : String
  m_surname : String
  m_email : String
  m_birth_year : Int
  m_birth_month : Int
  m_birth_day : Int
  m_group : String
  m_rating : ℚ
  m_phone_number : String
deriving DecidableEq

/-! ## Radix sort (`radixSort`, `radixSortByBirthday`) -/

/-- The statement `buckets[key].push_back(student)`: `none` when `key` is not an index of
the bucket vector. -/
def pushBucket (buckets : List (List Student)) (key : Int) (s : Student) :
    Option (List (List Student)) :=
  if 0 ≤ key ∧ key < (buckets.length : Int) then
    some (buckets.set key.toNat (buckets.getD key.toNat [] ++ [s]))
  else none

/-- The loop `for (const auto& student : students) buckets[key(student)].push_back(student);` -/
def fillBuckets (key : Student → Int) :
    List (List Student) → List Student → Option (List (List Student))
  | buckets, [] => some buckets
  | buckets, s :: rest =>
    match pushBucket buckets (key s) s with
    | none => none
    | some b => fillBuckets key b rest

/-- The inner loop `for (const auto& student : buckets[i]) students[index++] = student;`
over one bucket: `none` when a write falls outside `students`. -/
def writeBucket : List Student → Nat → List Student → Option (List Student × Nat)
  | students, index, [] => some (students, index)
  | students, index, s :: rest =>
    if index < students.length then writeBucket (students.set index s) (index + 1) rest
    else none

/-- The outer loop `for (int i = lo; i <= hi; i++)` of the write-back, started at bucket `i`
with `cnt` buckets still to visit. -/
def writeBuckets (buckets : List (List Student)) :
    Nat → Nat → List Student → Nat → Option (List Student × Nat)
  | _, 0, students, index => some (students, index)
  | i, cnt + 1, students, index =>
    match buckets[i]? with
    | none => none
    | some b =>
      match writeBucket students index b with
      | none => none
      | some (st, idx) => writeBuckets buckets (i + 1) cnt st idx

/-- One block of the sort: `nb` empty buckets, distribute by `key`, then write buckets
`1 .. nb - 1` back into `students` from index 0 (bucket 0 is never read back). -/
def radixPass (key : Student → Int) (nb : Nat) (students : List Student) :
    Option (List Student) :=
  match fillBuckets key (List.replicate nb []) students with
  | none => none
  | some buckets =>
    match writeBuckets buckets 1 (nb - 1) students 0 with
    | none => none
    | some (st, _) => some st

/-- The function `radixSort` of the hash variant (the scratch vector `temp` is never used). -/
def radixSort (students : List Student) : Option (List Student) :=
  if students.length = 0 then some students
  else
    match radixPass (fun s => s.m_birth_day) 32 students with
    | none => none
    | some byDay => radixPass (fun s => s.m_birth_month) 13 byDay

/-- The function `radixSortByBirthday` of the vector variant. -/
def radixSortByBirthday (students : List Student) : Option (List Student) :=
  if students.length = 0 then some students
  else
    match radixPass (fun s => s.m_birth_day) 32 students with
    | none => none
    | some byDay => radixPass (fun s => s.m_birth_month) 13 byDay

/-- The precondition of the sorter: days in `[1, 31]`, months in `[1, 12]`. -/
def InRange (students : List Student) : Prop :=
  ∀ s ∈ students, (1 ≤ s.m_birth_day ∧ s.m_birth_day ≤ 31) ∧
    (1 ≤ s.m_birth_month ∧ s.m_birth_month ≤ 12)

instance (students : List Student) : Decidable (InRange students) := by
  unfold InRange; infer_instance

/-- Ascending order of the pair `(m_birth_month, m_birth_day)`. -/
def BirthdayLE (a b : Student) : Prop :=
  a.m_birth_month < b.m_birth_month ∨
    (a.m_birth_month = b.m_birth_month ∧ a.m_birth_day ≤ b.m_birth_day)

instance (a b : Student) : Decidable (BirthdayLE a b) := by
  unfold BirthdayLE; infer_instance

/-- The records of `l` whose `key` is `k`, in their order in `l`. -/
def withKey (key : Student → Int) (l : List Student) (k : Nat) : List Student :=
  l.filter (fun s => decide (key s = (k : Int)))

/-- Buckets `lo, lo+1, .., lo+cnt-1` of a stable distribution of `l`, concatenated. -/
def gather (key : Student → Int) (l : List Student) (lo cnt : Nat) : List Student :=
  (List.range' lo cnt).flatMap (withKey key l)

/-- Membership in the band of keys `lo ≤ key < lo + cnt`. -/
def inBand (key : Student → Int) (lo cnt : Nat) (s : Student) : Bool :=
  decide ((lo : Int) ≤ key s ∧ key s < (lo : Int) + (cnt : Int))

/-- A record with only the fields the scenarios need. -/
def mkStudent (email : String) (month day : Int) (group : String) (rating : ℚ) : Student :=
  { m_name := "", m_surname := "", m_email := email, m_birth_year := 2000,
    m_birth_month := month, m_birth_day := day, m_group := group, m_rating := rating,
    m_phone_number := "" }

/-- The sorting scenario: keys (3,15), (1,20), (3,2), (1,20), told apart by their e-mail. -/
def sortScenario : List Student :=
  [mkStudent "first" 3 15 "G1" 8, mkStudent "second" 1 20 "G1" 4,
   mkStudent "third" 3 2 "G2" 9, mkStudent "fourth" 1 20 "G2" 7]

/-- The order the scenario must come out in. -/
def sortScenarioSorted : List Student :=
  [mkStudent "second" 1 20 "G1" 4, mkStudent "fourth" 1 20 "G2" 7,
   mkStudent "third" 3 2 "G2" 9, mkStudent "first" 3 15 "G1" 8]

/-- The records with birthday `(m, d)`. -/
def hasBirthday (m d : Int) (s : Student) : Bool :=
  decide (s.m_birth_month = m ∧ s.m_birth_day = d)

/-! ## Hash containers (`std::unordered_map<string, V>`) -/

namespace UMap

/-- The lookup `m.find(k)`: the value stored under `k`, if any. -/
def find {V : Type} : List (String × V) → String → Option V
  | [], _ => none
  | (k', v) :: rest, k => if k' = k then some v else find rest k

/-- The access `m[k]` followed by an in-place change `f` of the referenced value: a missing
entry is first created holding the default value `dflt`. -/
def update {V : Type} (dflt : V) (f : V → V) : List (String × V) → String → List (String × V)
  | [], k => [(k, f dflt)]
  | (k', v) :: rest, k =>
    if k' = k then (k', f v) :: rest else (k', v) :: update dflt f rest k

/-- The call `m.erase(k)`. -/
def erase {V : Type} : List (String × V) → String → List (String × V)
  | [], _ => []
  | (k', v) :: rest, k => if k' = k then erase rest k else (k', v) :: erase rest k

/-- The keys of the container, in scan order. -/
def keys {V : Type} (m : List (String × V)) : List String := m.map Prod.fst

end UMap

/-! ## The optimized store (`OptimizedStudentDB`) -/

/-- The aggregate `struct GroupStats`. -/
structure GroupStats where
  studentCount : Int := 0
  totalRating : ℚ := 0
deriving DecidableEq

/-- The method `GroupStats::getAverageRating`. -/
def GroupStats.getAverageRating (g : GroupStats) : ℚ :=
  if g.studentCount > 0 then g.totalRating / (g.studentCount : ℚ) else 0

/-- The fields of `class OptimizedStudentDB`, with their in-class initialisers. -/
structure OptimizedStudentDB where
  studentsByEmail : List (String × Student) := []
  groupStats : List (String × GroupStats) := []
  cachedMaxCountGroup : String := ""
  cachedMaxCount : Int := 0
  cachedMaxRatingGroup : String := ""
  cachedMaxRating : ℚ := 0
  cacheValid : Bool := false
deriving DecidableEq

namespace OptimizedStudentDB

/-- A freshly constructed store. -/
def empty : OptimizedStudentDB := {}

/-- The statement `groupStats[g].studentCount++`. -/
def incCount (gs : List (String × GroupStats)) (g : String) : List (String × GroupStats) :=
  UMap.update {} (fun st => { st with studentCount := st.studentCount + 1 }) gs g

/-- The statement `groupStats[g].totalRating += r`. -/
def addRating (gs : List (String × GroupStats)) (g : String) (r : ℚ) :
    List (String × GroupStats) :=
  UMap.update {} (fun st => { st with totalRating := st.totalRating + r }) gs g

/-- The statement `groupStats[g].studentCount--`. -/
def decCount (gs : List (String × GroupStats)) (g : String) : List (String × GroupStats) :=
  UMap.update {} (fun st => { st with studentCount := st.studentCount - 1 }) gs g

/-- The statement `groupStats[g].totalRating -= r`. -/
def subRating (gs : List (String × GroupStats)) (g : String) (r : ℚ) :
    List (String × GroupStats) :=
  UMap.update {} (fun st => { st with totalRating := st.totalRating - r }) gs g

/-- The per-record body of the loop of `loadFromCSV` (lines 78-81), for a row that has at
least 9 fields and has been parsed into `student`. -/
def insertRecord (db : OptimizedStudentDB) (student : Student) : OptimizedStudentDB :=
  let students := UMap.update student (fun _ => student) db.studentsByEmail student.m_email
  let gs1 := incCount db.groupStats student.m_group
  let gs2 := addRating gs1 student.m_group student.m_rating
  { db with studentsByEmail := students, groupStats := gs2 }

/-- One iteration of the loop of `rebuildCache`. -/
def rebuildStep (db : OptimizedStudentDB) (pair : String × GroupStats) : OptimizedStudentDB :=
  let db1 :=
    if pair.2.studentCount > db.cachedMaxCount then
      { db with cachedMaxCount := pair.2.studentCount, cachedMaxCountGroup := pair.1 }
    else db
  let avgRating := pair.2.getAverageRating
  if avgRating > db1.cachedMaxRating then
    { db1 with cachedMaxRating := avgRating, cachedMaxRatingGroup := pair.1 }
  else db1

/-- The method `rebuildCache`. The two cached labels are not reset before the scan. -/
def rebuildCache (db : OptimizedStudentDB) : OptimizedStudentDB :=
  let db0 := { db with cachedMaxCount := 0, cachedMaxRating := 0 }
  let db1 := db0.groupStats.foldl rebuildStep db0
  { db1 with cacheValid := true }

/-- The method `loadFromCSV`. The file is `none` when it cannot be opened; otherwise it is
the list of records parsed from the data rows that have at least 9 fields, in file order
(rows with fewer fields are skipped by the loop; number parsing is outside the model). -/
def loadFromCSV (db : OptimizedStudentDB) (file : Option (List Student)) :
    OptimizedStudentDB :=
  match file with
  | none => db
  | some rows => rebuildCache (rows.foldl insertRecord db)

/-- The method `findGroupWithMostStudents`: the returned label and the state left. -/
def findGroupWithMostStudents (db : OptimizedStudentDB) : String × OptimizedStudentDB :=
  let db1 := if !db.cacheValid then rebuildCache db else db
  (db1.cachedMaxCountGroup, db1)

/-- The method `findGroupWithHighestRating`: the returned label and the state left. -/
def findGroupWithHighestRating (db : OptimizedStudentDB) : String × OptimizedStudentDB :=
  let db1 := if !db.cacheValid then rebuildCache db else db
  (db1.cachedMaxRatingGroup, db1)

/-- The method `changeGroupByEmail`: the returned flag and the state left. -/
def changeGroupByEmail (db : OptimizedStudentDB) (email newGroup : String) :
    Bool × OptimizedStudentDB :=
  match UMap.find db.studentsByEmail email with
  | none => (false, db)
  | some student =>
    let oldGroup := student.m_group
    if oldGroup = newGroup then (true, db)
    else
      let gs1 := decCount db.groupStats oldGroup
      let gs2 := subRating gs1 oldGroup student.m_rating
      let gs3 :=
        if ((UMap.find gs2 oldGroup).getD {}).studentCount = 0 then UMap.erase gs2 oldGroup
        else gs2
      let students :=
        UMap.update student (fun st => { st with m_group := newGroup }) db.studentsByEmail email
      let gs4 := incCount gs3 newGroup
      let gs5 := addRating gs4 newGroup student.m_rating
      (true, { db with studentsByEmail := students, groupStats := gs5, cacheValid := false })

/-- The method `getStudentCount`. -/
def getStudentCount (db : OptimizedStudentDB) : Int := (db.studentsByEmail.length : Int)

/-- The operations a caller can perform on the store; `insert` is one per-record step of
`loadFromCSV`, `load` is a whole `loadFromCSV` call. -/
inductive Op where
  | insert (student : Student)
  | load (file : Option (List Student))
  | change (email newGroup : String)
  | findMost
  | findHighest
  | rebuild

/-- The state left by one operation. -/
def step (db : OptimizedStudentDB) : Op → OptimizedStudentDB
  | Op.insert student => insertRecord db student
  | Op.load file => loadFromCSV db file
  | Op.change email newGroup => (changeGroupByEmail db email newGroup).2
  | Op.findMost => (findGroupWithMostStudents db).2
  | Op.findHighest => (findGroupWithHighestRating db).2
  | Op.rebuild => rebuildCache db

/-- The state left by a sequence of operations. -/
def run (db : OptimizedStudentDB) (ops : List Op) : OptimizedStudentDB :=
  ops.foldl step db

/-- An operation that is a `changeGroupByEmail` call or one of the two extremum queries. -/
def Op.isChangeOrQuery : Op → Bool
  | Op.change _ _ => true
  | Op.findMost => true
  | Op.findHighest => true
  | _ => false

/-- An operation that is a whole `loadFromCSV` call, a `changeGroupByEmail` call or one of
the two extremum queries. -/
def Op.isPublicCall : Op → Bool
  | Op.insert _ => false
  | Op.rebuild => false
  | _ => true

end OptimizedStudentDB

/-! ## From-scratch aggregates over the record store -/

/-- The records of the store whose group label is `g`. -/
def membersOf (students : List (String × Student)) (g : String) : List (String × Student) :=
  students.filter (fun p => decide (p.2.m_group = g))

/-- The number of records of the store whose group label is `g`. -/
def countInGroup (students : List (String × Student)) (g : String) : Int :=
  ((membersOf students g).length : Int)

/-- The sum of the scores of the records of the store whose group label is `g`. -/
def ratingInGroup (students : List (String × Student)) (g : String) : ℚ :=
  ((membersOf students g).map (fun p => p.2.m_rating)).sum

/-- The average score of group `g`, recomputed from the records. -/
def averageInGroup (students : List (String × Student)) (g : String) : ℚ :=
  ratingInGroup students g / (countInGroup students g : ℚ)

/-- The sum of `studentCount` over all entries of the group index. -/
def totalCount (gs : List (String × GroupStats)) : Int :=
  (gs.map (fun p => p.2.studentCount)).sum

/-- The contribution of one record to the member count of group `g`. -/
def countWeight (g : String) (st : Student) : Int := if st.m_group = g then 1 else 0

/-- The contribution of one record to the score sum of group `g`. -/
def ratingWeight (g : String) (st : Student) : ℚ := if st.m_group = g then st.m_rating else 0

/-- The aggregate of group `g` recomputed from the records. -/
def statOf (students : List (String × Student)) (g : String) : GroupStats :=
  { studentCount := countInGroup students g, totalRating := ratingInGroup students g }

/-- The entry `groupStats[g]` as the access would read it (default-constructed when absent). -/
def entry (gs : List (String × GroupStats)) (g : String) : GroupStats :=
  (UMap.find gs g).getD {}

/-! ## Invariants of the optimized store -/

namespace OptimizedStudentDB

/-- Both containers hold at most one entry per key. -/
def WF (db : OptimizedStudentDB) : Prop :=
  (UMap.keys db.studentsByEmail).Nodup ∧ (UMap.keys db.groupStats).Nodup

/-- The group index is exactly the aggregate of the records: a label has an entry exactly
when some record carries it, and the entry holds the member count and the score sum. -/
def Exact (db : OptimizedStudentDB) : Prop :=
  ∀ g, UMap.find db.groupStats g =
    if countInGroup db.studentsByEmail g = 0 then none
    else some (statOf db.studentsByEmail g)

/-- Every entry of the group index counts at least one record and at least the records
that carry its label; a label without an entry is carried by no record. -/
def Pos (db : OptimizedStudentDB) : Prop :=
  ∀ g, (∀ st, UMap.find db.groupStats g = some st →
      1 ≤ st.studentCount ∧ countInGroup db.studentsByEmail g ≤ st.studentCount) ∧
    (UMap.find db.groupStats g = none → countInGroup db.studentsByEmail g = 0)

/-- The cached max-count pair agrees with a full scan of the group index. -/
def CountCacheOK (db : OptimizedStudentDB) : Prop :=
  (∀ p ∈ db.groupStats, p.2.studentCount ≤ db.cachedMaxCount) ∧
  (db.groupStats = [] → db.cachedMaxCount = 0) ∧
  (db.groupStats ≠ [] →
    ∃ p ∈ db.groupStats, p.1 = db.cachedMaxCountGroup ∧ p.2.studentCount = db.cachedMaxCount)

/-- The cached max-average pair agrees with a full scan of the group index, as far as the
scan can tell: the label is only assigned by an entry whose average exceeds 0. -/
def RatingCacheOK (db : OptimizedStudentDB) : Prop :=
  (∀ p ∈ db.groupStats, p.2.getAverageRating ≤ db.cachedMaxRating) ∧
  ((∃ p ∈ db.groupStats, 0 < p.2.getAverageRating) →
    ∃ p ∈ db.groupStats, p.1 = db.cachedMaxRatingGroup ∧
      p.2.getAverageRating = db.cachedMaxRating)

/-- When the validity flag is set, both cached pairs agree with a scan of the index. -/
def CacheInv (db : OptimizedStudentDB) : Prop :=
  db.cacheValid = true → CountCacheOK db ∧ RatingCacheOK db

end OptimizedStudentDB

/-! ## The naive hash variant -/

namespace Hash

/-- The first loop of the naive `findGroupWithMostStudents`: `groupCount[group]++` for
every record. -/
def countGroups (students : List (String × Student)) : List (String × Int) :=
  students.foldl (fun gc p => UMap.update 0 (fun c => c + 1) gc p.2.m_group) []

/-- The naive `findGroupWithMostStudents` over the hash table of records (its console
output is left out). -/
def findGroupWithMostStudents (students : List (String × Student)) : String :=
  ((countGroups students).foldl
    (fun (acc : String × Int) pair => if pair.2 > acc.2 then (pair.1, pair.2) else acc)
    ("", 0)).1

/-- The naive `changeGroupByEmail` over the hash table of records: the returned flag and
the table left. -/
def changeGroupByEmail (students : List (String × Student)) (email newGroup : String) :
    Bool × List (String × Student) :=
  match UMap.find students email with
  | some student =>
    (true, UMap.update student (fun st => { st with m_group := newGroup }) students email)
  | none => (false, students)

/-- The first loop of the naive `findGroupWithHighestRating`: count and score sum per
group. -/
def sumGroups (students : List (String × Student)) : List (String × GroupStats) :=
  students.foldl
    (fun gs p =>
      OptimizedStudentDB.addRating (OptimizedStudentDB.incCount gs p.2.m_group) p.2.m_group
        p.2.m_rating)
    []

/-- The naive `findGroupWithHighestRating` over the hash table of records (its console
output is left out). -/
def findGroupWithHighestRating (students : List (String × Student)) : String :=
  ((sumGroups students).foldl
    (fun (acc : String × ℚ) pair =>
      if pair.2.getAverageRating > acc.2 then (pair.1, pair.2.getAverageRating) else acc)
    ("", 0)).1

end Hash

/-! ## The comparison sort of the hash variant (`compare`, `partition`, `quickSort`) -/

namespace Hash

/-- The function `compare`: strictly earlier birthday, by month and then by day. -/
def compare (a b : Student) : Bool :=
  if a.m_birth_month = b.m_birth_month then decide (a.m_birth_day < b.m_birth_day)
  else decide (a.m_birth_month < b.m_birth_month)

/-- The read `students[i]` with an `int` index: `none` outside the vector. -/
def getAt (v : List Student) (i : Int) : Option Student :=
  if 0 ≤ i then v[i.toNat]? else none

/-- The call `swap(students[i], students[j])`: `none` when an index is outside the vector. -/
def swapAt (v : List Student) (i j : Int) : Option (List Student) :=
  match getAt v i, getAt v j with
  | some a, some b => some ((v.set i.toNat b).set j.toNat a)
  | _, _ => none

/-- The loop `for (int j = low; j < high; j++)` of `partition`, with `cnt` iterations left;
`pivot` is the copy taken before the loop. -/
def partitionLoop (pivot : Student) :
    Nat → List Student → Int → Int → Option (List Student × Int)
  | 0, v, i, _ => some (v, i)
  | cnt + 1, v, i, j =>
    match getAt v j with
    | none => none
    | some x =>
      if compare x pivot then
        match swapAt v (i + 1) j with
        | none => none
        | some v1 => partitionLoop pivot cnt v1 (i + 1) (j + 1)
      else partitionLoop pivot cnt v i (j + 1)

/-- The function `partition`: the vector left and the returned index. -/
def partition (v : List Student) (low high : Int) : Option (List Student × Int) :=
  match getAt v high with
  | none => none
  | some pivot =>
    match partitionLoop pivot (high - low).toNat v (low - 1) low with
    | none => none
    | some (v1, i) =>
      match swapAt v1 (i + 1) high with
      | none => none
      | some v2 => some (v2, i + 1)

/-- The function `quickSort` with a bound `fuel` on the depth of its recursion: `none` when
the bound is reached or an access leaves the vector. -/
def quickSortFuel : Nat → List Student → Int → Int → Option (List Student)
  | 0, v, low, high => if low < high then none else some v
  | fuel + 1, v, low, high =>
    if low < high then
      match partition v low high with
      | none => none
      | some (v1, pi) =>
        match quickSortFuel fuel v1 low (pi - 1) with
        | none => none
        | some v2 => quickSortFuel fuel v2 (pi + 1) high
    else some v

/-- The function `quickSort`; a range of `high - low + 1` positions never recurses deeper
than `high - low`. -/
def quickSort (v : List Student) (low high : Int) : Option (List Student) :=
  quickSortFuel (high - low).toNat v low high

/-- The loop of the correctness check of `compare.cpp`, from index `i` with `cnt` iterations
left: `false` at the first index where month or day differ. -/
def checkLoop (students1 students2 : List Student) : Nat → Nat → Option Bool
  | _, 0 => some true
  | i, cnt + 1 =>
    match students1[i]?, students2[i]? with
    | some a, some b =>
      if a.m_birth_month ≠ b.m_birth_month ∨ a.m_birth_day ≠ b.m_birth_day then some false
      else checkLoop students1 students2 (i + 1) cnt
    | _, _ => none

/-- The body of `main` of `compare.cpp` from the vector of records on: radix sort on one
copy, quick sort on the other, then the check; the value of `same`. -/
def correctnessCheck (students : List Student) : Option Bool :=
  match radixSort students, quickSort students 0 ((students.length : Int) - 1) with
  | some students1, some students2 => checkLoop students1 students2 0 students1.length
  | _, _ => none

/-- The order `compare` sorts into: `b` is not strictly earlier than `a`. -/
def NotAfter (a b : Student) : Prop := compare b a = false

/-- Every element of `v` at a position in `[lo, hi]` satisfies `P`. -/
def AllIn (v : List Student) (lo hi : Int) (P : Student → Prop) : Prop :=
  ∀ k, lo ≤ k → k ≤ hi → ∀ x, getAt v k = some x → P x

/-- The positions `[lo, hi]` of `v` are in order. -/
def SortedIn (v : List Student) (lo hi : Int) : Prop :=
  ∀ a b, lo ≤ a → a < b → b ≤ hi → ∀ x y, getAt v a = some x → getAt v b = some y →
    NotAfter x y

/-- `v1` comes from `v` by rearranging positions `[lo, hi]` only. -/
def Rearranged (v v1 : List Student) (lo hi : Int) : Prop :=
  v1.length = v.length ∧ v1.Perm v ∧
  (∀ k, (k < lo ∨ hi < k) → getAt v1 k = getAt v k) ∧
  ∀ P : Student → Prop, AllIn v lo hi P → AllIn v1 lo hi P

/-- The sort key of a record. -/
def birthKey (s : Student) : Int × Int := (s.m_birth_month, s.m_birth_day)

/-- Ascending order of sort keys. -/
def KeyLE (p q : Int × Int) : Prop := p.1 < q.1 ∨ (p.1 = q.1 ∧ p.2 ≤ q.2)

end Hash

/-! ## The naive vector variant -/

namespace Vec

/-- The vector `changeGroupByEmail`: the first record with this e-mail gets the new group;
the returned flag and the vector left. -/
def changeGroupByEmail : List Student → String → String → Bool × List Student
  | [], _, _ => (false, [])
  | s :: rest, email, newGroup =>
    if s.m_email = email then (true, { s with m_group := newGroup } :: rest)
    else
      ((changeGroupByEmail rest email newGroup).1,
        s :: (changeGroupByEmail rest email newGroup).2)

/-- The inner search loop of `findGroupWithMostStudents`: the first pair with this label is
incremented; the flag `found` and the pairs left. -/
def bumpCount : List (String × Int) → String → Bool × List (String × Int)
  | [], _ => (false, [])
  | (k, c) :: rest, g =>
    if k = g then (true, (k, c + 1) :: rest)
    else ((bumpCount rest g).1, (k, c) :: (bumpCount rest g).2)

/-- One iteration of the first loop of `findGroupWithMostStudents`. -/
def countStep (groupCount : List (String × Int)) (student : Student) : List (String × Int) :=
  if !(bumpCount groupCount student.m_group).1 then
    (bumpCount groupCount student.m_group).2 ++ [(student.m_group, 1)]
  else (bumpCount groupCount student.m_group).2

/-- The vector `findGroupWithMostStudents` (its console output is left out). -/
def findGroupWithMostStudents (students : List Student) : String :=
  ((students.foldl countStep []).foldl
    (fun (acc : String × Int) pair => if pair.2 > acc.2 then (pair.1, pair.2) else acc)
    ("", 0)).1

/-- The inner search loop of `findGroupWithHighestRating`: the first pair with this label
gets one more member and the score; the flag `found` and the pairs left. -/
def bumpStats : List (String × GroupStats) → String → ℚ → Bool × List (String × GroupStats)
  | [], _, _ => (false, [])
  | (k, st) :: rest, g, r =>
    if k = g then
      (true, (k, { studentCount := st.studentCount + 1, totalRating := st.totalRating + r })
        :: rest)
    else ((bumpStats rest g r).1, (k, st) :: (bumpStats rest g r).2)

/-- One iteration of the first loop of `findGroupWithHighestRating`. -/
def statsStep (groupStats : List (String × GroupStats)) (student : Student) :
    List (String × GroupStats) :=
  if !(bumpStats groupStats student.m_group student.m_rating).1 then
    (bumpStats groupStats student.m_group student.m_rating).2 ++
      [(student.m_group, { studentCount := 1, totalRating := student.m_rating })]
  else (bumpStats groupStats student.m_group student.m_rating).2

/-- The vector `findGroupWithHighestRating` (its console output is left out). -/
def findGroupWithHighestRating (students : List Student) : String :=
  ((students.foldl statsStep []).foldl
    (fun (acc : String × ℚ) pair =>
      if pair.2.getAverageRating > acc.2 then (pair.1, pair.2.getAverageRating) else acc)
    ("", 0)).1

end Vec

/-! ## Text input and output of the vector variant

The file is the list of its characters.  Scores are exact rationals: `fixed <<
setprecision(2)` is rendered as the score rounded to hundredths (ties to even), and `stod`
reads plain and exponent decimal notation; hexadecimal, infinity and NaN spellings are
outside the model.  `stoi` reads a decimal `int`; its range check is not modelled. -/

namespace Text

/-- The loop `while (getline(stream, field, delim))`: the pieces between delimiters; an
empty piece at the very end of the text is not produced. -/
def splitOn (delim : Char) : List Char → List (List Char)
  | [] => []
  | c :: cs =>
    if c = delim then [] :: splitOn delim cs
    else
      match splitOn delim cs with
      | [] => [[c]]
      | f :: fs => (c :: f) :: fs

/-- The classification `isspace` of the C locale. -/
def isSpace (c : Char) : Bool :=
  c.toNat = 32 || (9 ≤ c.toNat && c.toNat ≤ 13)

/-- The classification `isdigit`. -/
def isDigit (c : Char) : Bool := 48 ≤ c.toNat && c.toNat ≤ 57

/-- The character of a decimal digit. -/
def digitChar (d : Nat) : Char := Char.ofNat (48 + d)

/-- The value of a decimal digit character. -/
def digitVal (c : Char) : Nat := c.toNat - 48

/-- The decimal digits of `n`, most significant first; `fuel` bounds their number. -/
def natDigits : Nat → Nat → List Char
  | 0, _ => []
  | fuel + 1, n =>
    if n < 10 then [digitChar n] else natDigits fuel (n / 10) ++ [digitChar (n % 10)]

/-- The decimal rendering of a natural number. -/
def showNat (n : Nat) : List Char := natDigits (n + 1) n

/-- The output `file << n` of an `int`. -/
def showInt (z : Int) : List Char :=
  if z < 0 then '-' :: showNat z.natAbs else showNat z.natAbs

/-- The value of a run of decimal digits. -/
def natValue (ds : List Char) : Nat := ds.foldl (fun acc c => 10 * acc + digitVal c) 0

/-- An optional sign: whether it is a minus, and the text after it. -/
def takeSign : List Char → Bool × List Char
  | [] => (false, [])
  | c :: t => if c = '-' then (true, t) else if c = '+' then (false, t) else (false, c :: t)

/-- The signed number `n`. -/
def signed (neg : Bool) (n : Nat) : Int := if neg then -(n : Int) else (n : Int)

/-- The conversion `stoi`: leading white space, an optional sign, then the longest run of
digits; `none` when there is no digit (the call throws). -/
def stoi (s : List Char) : Option Int :=
  if ((takeSign (s.dropWhile isSpace)).2.takeWhile isDigit) = [] then none
  else
    some (signed (takeSign (s.dropWhile isSpace)).1
      (natValue ((takeSign (s.dropWhile isSpace)).2.takeWhile isDigit)))

/-- The score in hundredths, rounded to the nearest with ties to even. -/
def round2 (r : ℚ) : Int :=
  if 100 * r - (⌊100 * r⌋ : ℚ) < 1 / 2 then ⌊100 * r⌋
  else if 1 / 2 < 100 * r - (⌊100 * r⌋ : ℚ) then ⌊100 * r⌋ + 1
  else if ⌊100 * r⌋ % 2 = 0 then ⌊100 * r⌋ else ⌊100 * r⌋ + 1

/-- The output `file << fixed << setprecision(2) << r`. -/
def showScore (r : ℚ) : List Char :=
  (if r < 0 then ['-'] else []) ++
    (showNat ((round2 r).natAbs / 100) ++
      ['.', digitChar ((round2 r).natAbs % 100 / 10), digitChar ((round2 r).natAbs % 10)])

/-- The digits of the fraction: after a decimal point, the longest run of digits. -/
def fractionDigits : List Char → List Char
  | [] => []
  | c :: t => if c = '.' then t.takeWhile isDigit else []

/-- The text after the fraction. -/
def afterFraction : List Char → List Char
  | [] => []
  | c :: t => if c = '.' then t.dropWhile isDigit else c :: t

/-- The decimal exponent: `e` or `E`, an optional sign and at least one digit; 0 when there
is none. -/
def exponentOf : List Char → Int
  | [] => 0
  | c :: t =>
    if c = 'e' ∨ c = 'E' then
      if ((takeSign t).2.takeWhile isDigit) = [] then 0
      else signed (takeSign t).1 (natValue ((takeSign t).2.takeWhile isDigit))
    else 0

/-- The magnitude read by `stod` from the text after the sign. -/
def magnitude (body : List Char) : ℚ :=
  ((natValue (body.takeWhile isDigit) : ℚ) +
      (natValue (fractionDigits (body.dropWhile isDigit)) : ℚ) /
        (10 : ℚ) ^ (fractionDigits (body.dropWhile isDigit)).length) *
    (10 : ℚ) ^ exponentOf (afterFraction (body.dropWhile isDigit))

/-- The conversion `stod` on decimal notation: leading white space, an optional sign,
digits with an optional fraction, an optional exponent; `none` when there is no digit (the
call throws). -/
def stod (s : List Char) : Option ℚ :=
  if (takeSign (s.dropWhile isSpace)).2.takeWhile isDigit = [] ∧
      fractionDigits ((takeSign (s.dropWhile isSpace)).2.dropWhile isDigit) = [] then none
  else
    some (if (takeSign (s.dropWhile isSpace)).1 then
        -magnitude (takeSign (s.dropWhile isSpace)).2
      else magnitude (takeSign (s.dropWhile isSpace)).2)

end Text

namespace Vec

/-- The function `parseCSVLine`. -/
def parseCSVLine (line : List Char) : List (List Char) := Text.splitOn ',' line

/-- The body of `if (fields.size() >= 9)` in `readCSVToVector`: the record made of the first
nine fields; `none` when `stoi` or `stod` throws. -/
def parseRecord : List (List Char) → Option Student
  | f0 :: f1 :: f2 :: f3 :: f4 :: f5 :: f6 :: f7 :: f8 :: _ =>
    match Text.stoi f3 with
    | none => none
    | some year =>
      match Text.stoi f4 with
      | none => none
      | some month =>
        match Text.stoi f5 with
        | none => none
        | some day =>
          match Text.stod f7 with
          | none => none
          | some rating =>
            some { m_name := String.mk f0, m_surname := String.mk f1, m_email := String.mk f2,
                   m_birth_year := year, m_birth_month := month, m_birth_day := day,
                   m_group := String.mk f6, m_rating := rating,
                   m_phone_number := String.mk f8 }
  | _ => none

/-- The loop `while (getline(file, line))` of `readCSVToVector` over the data lines: rows
with fewer than 9 fields are skipped; `none` when a conversion throws. -/
def readRows : List (List Char) → Option (List Student)
  | [] => some []
  | line :: rest =>
    if 9 ≤ (parseCSVLine line).length then
      match parseRecord (parseCSVLine line) with
      | none => none
      | some student =>
        match readRows rest with
        | none => none
        | some students => some (student :: students)
    else readRows rest

/-- The function `readCSVToVector` on an opened file with contents `text`: the first line
is skipped. -/
def readCSVToVector (text : List Char) : Option (List Student) :=
  readRows ((Text.splitOn '\n' text).drop 1)

/-- The header line written by `saveToCSV`. -/
def headerLine : List Char :=
  "m_name,m_surname,m_email,m_birth_year,m_birth_month,m_birth_day,m_group,m_rating,m_phone_number".toList

/-- The line `saveToCSV` writes for one record, without its line end. -/
def recordLine (s : Student) : List Char :=
  s.m_name.toList ++ ',' :: (s.m_surname.toList ++ ',' :: (s.m_email.toList ++ ',' ::
    (Text.showInt s.m_birth_year ++ ',' :: (Text.showInt s.m_birth_month ++ ',' ::
      (Text.showInt s.m_birth_day ++ ',' :: (s.m_group.toList ++ ',' ::
        (Text.showScore s.m_rating ++ ',' :: s.m_phone_number.toList)))))))

/-- The lines of the records, each followed by its line end. -/
def recordLines : List Student → List Char
  | [] => []
  | s :: rest => recordLine s ++ '\n' :: recordLines rest

/-- The function `saveToCSV` on a file that could be created: the contents written. -/
def saveToCSV (students : List Student) : List Char :=
  headerLine ++ '\n' :: recordLines students

/-- The record with its score replaced by its value at 2-decimal precision. -/
def atTwoDecimals (s : Student) : Student :=
  { s with m_rating := (Text.round2 s.m_rating : ℚ) / 100 }

/-- The round trip of the demo: sort, save, read back. -/
def roundTrip (students : List Student) : Option (List Student) :=
  match radixSortByBirthday students with
  | none => none
  | some sorted => readCSVToVector (saveToCSV sorted)

end Vec

namespace Vec

/-- A text that holds neither a field separator nor a line end. -/
def CleanText (f : List Char) : Prop := (∀ c ∈ f, c ≠ ',') ∧ (∀ c ∈ f, c ≠ '\n')

/-- A record whose five text fields hold neither a field separator nor a line end, as every
record read by `readCSVToVector` does. -/
def Clean (s : Student) : Prop :=
  CleanText s.m_name.toList ∧ CleanText s.m_surname.toList ∧ CleanText s.m_email.toList ∧
    CleanText s.m_group.toList ∧ CleanText s.m_phone_number.toList

/-- A file with two data rows, the first with day 0. -/
def zeroDayFile : List Char :=
  "h\nAnn,Lee,a@x,2001,3,0,G1,8.00,555\nBob,Ray,b@x,1999,1,20,G2,7.50,556\n".toList

/-- A file with one data row of ten fields, the ninth empty. -/
def emptyPhoneFile : List Char :=
  "h\nAnn,Lee,a@x,2001,3,5,G1,8.00,,x\n".toList

/-- A file with two data rows in range, the second with a score of three decimals. -/
def plainFile : List Char :=
  "h\nAnn,Lee,a@x,2001,3,5,G1,8.00,555\nBob,Ray,b@x,1999,1,20,G2,7.125,556\n".toList

/-- The record Ann of the files, with the given day and phone number. -/
def ann (day : Int) (phone : String) : Student :=
  { m_name := "Ann", m_surname := "Lee", m_email := "a@x", m_birth_year := 2001,
    m_birth_month := 3, m_birth_day := day, m_group := "G1", m_rating := 8,
    m_phone_number := phone }

/-- The record Bob of the files, with the given score. -/
def bob (rating : ℚ) : Student :=
  { m_name := "Bob", m_surname := "Ray", m_email := "b@x", m_birth_year := 1999,
    m_birth_month := 1, m_birth_day := 20, m_group := "G2", m_rating := rating,
    m_phone_number := "556" }

end Vec

/-! ## Group sizes and first occurrences in a vector of students -/

namespace Vec

/-- The number of students of the vector whose group is `g`. -/
def groupSize (students : List Student) (g : String) : Nat :=
  (students.filter (fun s => decide (s.m_group = g))).length

/-- The position of the first student of the vector whose group is `g` (the length of the
vector when there is none). -/
def firstOf (students : List Student) (g : String) : Nat :=
  students.findIdx (fun s => decide (s.m_group = g))

/-- A vector in which two groups tie for the largest number of students. -/
def tieScenario : List Student :=
  [mkStudent "A" 1 1 "G1" 1, mkStudent "B" 1 1 "G2" 1, mkStudent "C" 1 1 "G3" 1,
    mkStudent "D" 1 1 "G3" 1, mkStudent "E" 1 1 "G2" 1]

end Vec

/-! ## Scenarios -/

namespace OptimizedStudentDB

/-- The store reached from an empty one by ingesting `recs` record by record and then
performing the `changeGroupByEmail` calls `changes` (pairs of e-mail and new group). -/
def ingestThenChange (recs : List Student) (changes : List (String × String)) :
    OptimizedStudentDB :=
  run empty (recs.map Op.insert ++ changes.map (fun c => Op.change c.1 c.2))

/-- The records of the aggregate scenario: A in G1 with 8.0, B in G1 with 4.0, C in G2
with 9.0. -/
def scenarioRecords : List Student :=
  [mkStudent "A" 1 1 "G1" 8, mkStudent "B" 2 2 "G1" 4, mkStudent "C" 3 3 "G2" 9]

/-- The store built from `recs` (by insert steps alone, or by a whole `loadFromCSV` call
when `whole` is set) and then taken through the operations `ops`. -/
def built (recs : List Student) (whole : Bool) (ops : List Op) : OptimizedStudentDB :=
  run (if whole then loadFromCSV empty (some recs) else run empty (recs.map Op.insert)) ops

/-- A store holding a single record whose score is 0. -/
def zeroScoreRecords : List Student := [mkStudent "A" 1 1 "G1" 0]

/-- A store holding a single record whose score is negative. -/
def negativeScoreRecords : List Student := [mkStudent "A" 1 1 "G1" (-3)]

/-- A whole load, a move and a query. -/
def publicCalls : List Op :=
  [Op.load (some scenarioRecords), Op.change "B" "G2", Op.findMost]

/-- A file whose two data rows are the same line. -/
def duplicateRows : List Student :=
  [mkStudent "A" 1 1 "G1" 8, mkStudent "A" 1 1 "G1" 8]

/-- Insert steps with a repeated identifier, followed by a move that empties a group. -/
def repeatedIdOps : List Op :=
  [Op.insert (mkStudent "A" 1 1 "G1" 8), Op.insert (mkStudent "A" 1 1 "G2" 8),
   Op.change "A" "G3"]

end OptimizedStudentDB

namespace OptimizedStudentDB

/-- The store loaded with the aggregate scenario by a whole `loadFromCSV` call. -/
def scenarioDB : OptimizedStudentDB := loadFromCSV empty (some scenarioRecords)

/-- While there is no group, neither cached label has been assigned. -/
def NoGroupNoLabel (db : OptimizedStudentDB) : Prop :=
  db.groupStats = [] → db.cachedMaxCountGroup = "" ∧ db.cachedMaxRatingGroup = ""

end OptimizedStudentDB

namespace OptimizedStudentDB

/-- An entry of the group index that counts exactly the records carrying its label holds
exactly the sum of their scores. -/
def Tight (db : OptimizedStudentDB) : Prop :=
  ∀ g st, UMap.find db.groupStats g = some st →
    st.studentCount = countInGroup db.studentsByEmail g →
    st.totalRating = ratingInGroup db.studentsByEmail g

/-- The two calls `changeGroupByEmail(email, g2)` and then `changeGroupByEmail(email, g1)`:
the state left. -/
def moveAndBack (db : OptimizedStudentDB) (email g1 g2 : String) : OptimizedStudentDB :=
  (changeGroupByEmail (changeGroupByEmail db email g2).2 email g1).2

end OptimizedStudentDB

/-! ## Keys inside the bucket arrays -/

/-- Every day is an index of the 32 day buckets and every month an index of the 13 month
buckets: days in `[0, 31]`, months in `[0, 12]`. -/
def InBuckets (students : List Student) : Prop :=
  ∀ s ∈ students, (0 ≤ s.m_birth_day ∧ s.m_birth_day ≤ 31) ∧
    (0 ≤ s.m_birth_month ∧ s.m_birth_month ≤ 12)

instance (students : List Student) : Decidable (InBuckets students) := by
  unfold InBuckets; infer_instance

/-- What one pass leaves in the vector: buckets `1 .. nb - 1` in order, then the old
contents of the positions that were not overwritten. -/
def leftBy (key : Student → Int) (nb : Nat) (l : List Student) : List Student :=
  gather key l 1 (nb - 1) ++ l.drop (gather key l 1 (nb - 1)).length

/-- A two-record input whose first record has day 0. -/
def zeroDayInput : List Student :=
  [mkStudent "first" 1 0 "G1" 8, mkStudent "second" 1 5 "G1" 4]

/-- Every record of the store has a strictly positive score. -/
def RatingsPositive (m : List (String × Student)) : Prop := ∀ p ∈ m, 0 < p.2.m_rating

/-! # Theorems -/

/-! ### The passes in closed form -/

theorem pushBucket_spec (buckets : List (List Student)) (key : Int) (s : Student)
    (h0 : 0 ≤ key) (h1 : key < (buckets.length : Int)) :
    ∃ b, pushBucket buckets key s = some b ∧ b.length = buckets.length ∧
      ∀ k : Nat, b.getD k [] =
        buckets.getD k [] ++ (if key = (k : Int) then [s] else []) := by
  refine ⟨buckets.set key.toNat (buckets.getD key.toNat [] ++ [s]), ?_, by simp, ?_⟩
  · rw [pushBucket, if_pos ⟨h0, h1⟩]
  intro k
  have hlt : key.toNat < buckets.length := by omega
  by_cases hk : key = (k : Int)
  · have hkk : key.toNat = k := by omega
    rw [if_pos hk, hkk]
    rw [hkk] at hlt
    simp [List.getD_eq_getElem?_getD, List.getElem?_set, hlt]
  · have hkk : key.toNat ≠ k := by omega
    rw [if_neg hk]
    simp [List.getD_eq_getElem?_getD, List.getElem?_set, hkk]

theorem fillBuckets_spec (key : Student → Int) (l : List Student) :
    ∀ buckets : List (List Student),
      (∀ s ∈ l, 0 ≤ key s ∧ key s < (buckets.length : Int)) →
      ∃ b, fillBuckets key buckets l = some b ∧ b.length = buckets.length ∧
        ∀ k : Nat, b.getD k [] = buckets.getD k [] ++ withKey key l k := by
  induction l with
  | nil => intro buckets _; exact ⟨buckets, rfl, rfl, by simp [withKey]⟩
  | cons s rest ih =>
    intro buckets h
    obtain ⟨b1, hb1, hlen1, hget1⟩ :=
      pushBucket_spec buckets (key s) s (h s (by simp)).1 (h s (by simp)).2
    obtain ⟨b2, hb2, hlen2, hget2⟩ := ih b1 (by
      intro t ht
      rw [hlen1]
      exact h t (by simp [ht]))
    refine ⟨b2, by simp [fillBuckets, hb1, hb2], by omega, ?_⟩
    intro k
    rw [hget2, hget1]
    by_cases hk : key s = (k : Int) <;> simp [withKey, List.filter_cons, hk]

theorem writeBucket_spec (b : List Student) :
    ∀ (students : List Student) (index : Nat), index + b.length ≤ students.length →
      writeBucket students index b =
        some (students.take index ++ b ++ students.drop (index + b.length),
          index + b.length) := by
  induction b with
  | nil => intro students index _; simp [writeBucket]
  | cons s rest ih =>
    intro students index h
    simp only [List.length_cons] at h
    have hlt : index < students.length := by omega
    rw [writeBucket, if_pos hlt, ih _ _ (by simp; omega)]
    have e1 : (students.set index s).take (index + 1) = students.take index ++ [s] := by
      rw [List.set_eq_take_append_cons_drop, if_pos hlt, List.take_append_eq_append_take]
      simp [List.take_take, Nat.min_eq_left hlt.le]
    have e2 : (students.set index s).drop (index + 1 + rest.length) =
        students.drop (index + (rest.length + 1)) := by
      rw [List.drop_set]
      rw [if_pos (by omega)]
      simp [Nat.add_assoc, Nat.add_comm 1]
    rw [e1, e2]
    simp [Nat.add_assoc, Nat.add_comm 1]

theorem writeBuckets_spec (buckets : List (List Student)) :
    ∀ (cnt i : Nat) (students : List Student) (index : Nat),
      i + cnt ≤ buckets.length →
      index + ((List.range' i cnt).flatMap (fun k => buckets.getD k [])).length
        ≤ students.length →
      writeBuckets buckets i cnt students index =
        some (students.take index ++ (List.range' i cnt).flatMap (fun k => buckets.getD k [])
            ++ students.drop
              (index + ((List.range' i cnt).flatMap (fun k => buckets.getD k [])).length),
          index + ((List.range' i cnt).flatMap (fun k => buckets.getD k [])).length) := by
  intro cnt
  induction cnt with
  | zero => intro i students index _ _; simp [writeBuckets]
  | succ cnt ih =>
    intro i students index hi hlen
    have hib : i < buckets.length := by omega
    rw [List.range'_succ, List.flatMap_cons, List.length_append] at hlen
    have hget : buckets.getD i [] = buckets[i] := by
      simp [List.getD_eq_getElem?_getD, hib]
    rw [hget] at hlen
    rw [writeBuckets, List.getElem?_eq_getElem hib]
    simp only
    rw [writeBucket_spec _ _ _ (by omega)]
    simp only
    have hti : (students.take index).length = index := by
      rw [List.length_take]; omega
    have hnl : (students.take index ++ buckets[i] ++
        students.drop (index + buckets[i].length)).length = students.length := by
      rw [List.length_append, List.length_append, hti, List.length_drop]; omega
    rw [ih (i + 1) _ _ (by omega) (by rw [hnl]; omega)]
    rw [List.range'_succ, List.flatMap_cons, hget]
    have e1 : (students.take index ++ buckets[i] ++
        students.drop (index + buckets[i].length)).take (index + buckets[i].length) =
        students.take index ++ buckets[i] := by
      rw [List.take_append_eq_append_take]
      simp [hti]
    have e2 : ∀ m : Nat, (students.take index ++ buckets[i] ++
        students.drop (index + buckets[i].length)).drop (index + buckets[i].length + m) =
        students.drop (index + (buckets[i].length + m)) := by
      intro m
      rw [List.drop_append_eq_append_drop]
      have : (students.take index ++ buckets[i]).length = index + buckets[i].length := by
        simp [hti]
      rw [List.drop_eq_nil_of_le (by omega), this]
      simp [Nat.add_assoc]
    rw [e1, e2]
    simp [Nat.add_assoc]

theorem filter_band_succ_perm (key : Student → Int) (lo cnt : Nat) (l : List Student) :
    (l.filter (inBand key lo (cnt + 1))).Perm
      (l.filter (inBand key lo cnt) ++ withKey key l (lo + cnt)) := by
  induction l with
  | nil => simp [withKey]
  | cons s rest ih =>
    by_cases h1 : (lo : Int) ≤ key s ∧ key s < (lo : Int) + (cnt : Int)
    · have hb1 : inBand key lo (cnt + 1) s = true := by
        simp only [inBand, decide_eq_true_eq]; push_cast; omega
      have hb0 : inBand key lo cnt s = true := by
        simp only [inBand, decide_eq_true_eq]; exact h1
      have hk : ¬ key s = ((lo + cnt : Nat) : Int) := by
        push_cast; omega
      simp only [withKey] at ih ⊢
      rw [List.filter_cons_of_pos hb1, List.filter_cons_of_pos hb0,
        List.filter_cons_of_neg (by simpa using hk)]
      exact List.Perm.cons s ih
    · by_cases h2 : key s = ((lo + cnt : Nat) : Int)
      · have hb1 : inBand key lo (cnt + 1) s = true := by
          simp only [inBand, decide_eq_true_eq]; push_cast at h2 ⊢; omega
        have hb0 : ¬ inBand key lo cnt s = true := by
          simp only [inBand, decide_eq_true_eq]; exact h1
        simp only [withKey] at ih ⊢
        rw [List.filter_cons_of_pos hb1, List.filter_cons_of_neg hb0,
          List.filter_cons_of_pos (by simpa using h2)]
        exact (List.Perm.cons s ih).trans List.perm_middle.symm
      · have hb1 : ¬ inBand key lo (cnt + 1) s = true := by
          simp only [inBand, decide_eq_true_eq]; push_cast at h2 ⊢; omega
        have hb0 : ¬ inBand key lo cnt s = true := by
          simp only [inBand, decide_eq_true_eq]; exact h1
        simp only [withKey] at ih ⊢
        rw [List.filter_cons_of_neg hb1, List.filter_cons_of_neg hb0,
          List.filter_cons_of_neg (by simpa using h2)]
        exact ih

theorem gather_succ (key : Student → Int) (l : List Student) (lo cnt : Nat) :
    gather key l lo (cnt + 1) = gather key l lo cnt ++ withKey key l (lo + cnt) := by
  simp [gather, List.range'_concat, List.flatMap_append]

theorem gather_perm_band (key : Student → Int) (l : List Student) (lo cnt : Nat) :
    (gather key l lo cnt).Perm (l.filter (inBand key lo cnt)) := by
  induction cnt with
  | zero =>
    have : l.filter (inBand key lo 0) = [] := by
      rw [List.filter_eq_nil_iff]
      intro a _
      simp only [inBand, decide_eq_true_eq]; push_cast; omega
    simp [gather, this]
  | succ cnt ih =>
    rw [gather_succ]
    exact (List.Perm.append_right _ ih).trans (filter_band_succ_perm key lo cnt l).symm

theorem gather_length_le (key : Student → Int) (l : List Student) (lo cnt : Nat) :
    (gather key l lo cnt).length ≤ l.length := by
  rw [(gather_perm_band key l lo cnt).length_eq]
  exact List.length_filter_le _ _

theorem gather_perm (key : Student → Int) (l : List Student) (lo cnt : Nat)
    (h : ∀ s ∈ l, (lo : Int) ≤ key s ∧ key s < (lo : Int) + (cnt : Int)) :
    (gather key l lo cnt).Perm l := by
  have : l.filter (inBand key lo cnt) = l := by
    rw [List.filter_eq_self]
    intro a ha
    simp only [inBand, decide_eq_true_eq]
    exact h a ha
  have hp := gather_perm_band key l lo cnt
  rwa [this] at hp

theorem radixPass_eq (key : Student → Int) (nb : Nat) (l : List Student) (hnb : 1 ≤ nb)
    (h : ∀ s ∈ l, 0 ≤ key s ∧ key s < (nb : Int)) :
    radixPass key nb l =
      some (gather key l 1 (nb - 1) ++ l.drop (gather key l 1 (nb - 1)).length) := by
  obtain ⟨b, hb, hlen, hget⟩ := fillBuckets_spec key l (List.replicate nb []) (by
    intro s hs
    simpa using h s hs)
  have hfun : (fun k => b.getD k []) = withKey key l := by
    funext k
    rw [hget k]
    simp [List.getD_eq_getElem?_getD, List.getElem?_replicate]
    split <;> rfl
  have hG : (List.range' 1 (nb - 1)).flatMap (fun k => b.getD k []) =
      gather key l 1 (nb - 1) := by
    rw [hfun]; rfl
  have hw := writeBuckets_spec b (nb - 1) 1 l 0 (by simp at hlen; omega) (by
    rw [hG]
    have := gather_length_le key l 1 (nb - 1)
    omega)
  rw [hG] at hw
  rw [radixPass, hb]
  simp only
  rw [hw]
  simp

theorem radixPass_eq_gather (key : Student → Int) (nb : Nat) (l : List Student)
    (hnb : 1 ≤ nb) (h : ∀ s ∈ l, 1 ≤ key s ∧ key s < (nb : Int)) :
    radixPass key nb l = some (gather key l 1 (nb - 1)) := by
  have hp : (gather key l 1 (nb - 1)).Perm l := gather_perm key l 1 (nb - 1) (by
    intro s hs
    have := h s hs
    push_cast
    omega)
  rw [radixPass_eq key nb l hnb (fun s hs => ⟨by have := h s hs; omega, (h s hs).2⟩),
    List.drop_eq_nil_of_le (by rw [hp.length_eq])]
  simp

theorem mem_withKey {key : Student → Int} {l : List Student} {k : Nat} {s : Student} :
    s ∈ withKey key l k ↔ s ∈ l ∧ key s = (k : Int) := by
  simp [withKey]

theorem gather_sorted (key : Student → Int) (R : Student → Student → Prop)
    (l : List Student) (lo cnt : Nat) (hl : l.Pairwise R) :
    (gather key l lo cnt).Pairwise (fun a b => key a < key b ∨ (key a = key b ∧ R a b)) := by
  rw [gather, List.pairwise_flatMap]
  constructor
  · intro k _
    have h1 : (withKey key l k).Pairwise R := hl.sublist (List.filter_sublist l)
    refine h1.imp_of_mem ?_
    intro a b ha hb hab
    exact Or.inr ⟨by rw [(mem_withKey.1 ha).2, (mem_withKey.1 hb).2], hab⟩
  · refine (List.pairwise_lt_range' lo cnt).imp ?_
    intro a b hab x hx y hy
    left
    rw [(mem_withKey.1 hx).2, (mem_withKey.1 hy).2]
    exact_mod_cast hab

theorem gather_filter (key : Student → Int) (l : List Student) (q : Student → Bool)
    (k : Nat) (hq : ∀ s, q s = true → key s = (k : Int)) :
    ∀ (cnt lo : Nat), lo ≤ k → k < lo + cnt → (gather key l lo cnt).filter q = l.filter q := by
  intro cnt
  induction cnt with
  | zero => intro lo h1 h2; omega
  | succ cnt ih =>
    intro lo h1 h2
    rw [gather, List.range'_succ, List.flatMap_cons, List.filter_append]
    by_cases hk : lo = k
    · subst hk
      have e1 : (withKey key l lo).filter q = l.filter q := by
        rw [withKey, List.filter_filter]
        apply List.filter_congr
        intro s _
        by_cases hqs : q s = true
        · simp [hqs, hq s hqs]
        · simp [hqs]
      have e2 : ((List.range' (lo + 1) cnt).flatMap (withKey key l)).filter q = [] := by
        rw [List.filter_eq_nil_iff]
        intro s hs hqs
        obtain ⟨j, hj, hsj⟩ := List.mem_flatMap.1 hs
        have h3 := (mem_withKey.1 hsj).2
        rw [hq s hqs] at h3
        have := (List.mem_range'_1.1 hj).1
        omega
      rw [e1, e2]; simp
    · have e1 : (withKey key l lo).filter q = [] := by
        rw [List.filter_eq_nil_iff]
        intro s hs hqs
        have h3 := (mem_withKey.1 hs).2
        rw [hq s hqs] at h3
        omega
      rw [e1]
      simpa [gather] using ih (lo + 1) (by omega) (by omega)

/-! ### The sort in closed form -/

theorem gather_nil (key : Student → Int) (lo cnt : Nat) : gather key [] lo cnt = [] := by
  have := gather_length_le key [] lo cnt
  exact List.length_eq_zero.1 (by simpa using this)

theorem twoPasses_eq (l : List Student) (h : InRange l) :
    (match radixPass (fun s => s.m_birth_day) 32 l with
      | none => none
      | some byDay => radixPass (fun s => s.m_birth_month) 13 byDay) =
    some (gather (fun s => s.m_birth_month) (gather (fun s => s.m_birth_day) l 1 31) 1 12) := by
  have hp : (gather (fun s => s.m_birth_day) l 1 31).Perm l :=
    gather_perm _ l 1 31 (by
      intro s hs
      have := (h s hs).1
      push_cast
      omega)
  rw [radixPass_eq_gather (fun s => s.m_birth_day) 32 l (by omega) (by
    intro s hs
    have := (h s hs).1
    push_cast
    omega)]
  simp only
  rw [radixPass_eq_gather (fun s => s.m_birth_month) 13 _ (by omega) (by
    intro s hs
    have := (h s (hp.mem_iff.1 hs)).2
    push_cast
    omega)]

theorem radixSort_eq (l : List Student) (h : InRange l) :
    radixSort l =
      some (gather (fun s => s.m_birth_month) (gather (fun s => s.m_birth_day) l 1 31) 1 12) := by
  unfold radixSort
  split
  · rename_i h0
    have : l = [] := List.length_eq_zero.1 h0
    subst this
    simp [gather_nil]
  · exact twoPasses_eq l h

theorem radixSortByBirthday_eq (l : List Student) (h : InRange l) :
    radixSortByBirthday l =
      some (gather (fun s => s.m_birth_month) (gather (fun s => s.m_birth_day) l 1 31) 1 12) := by
  unfold radixSortByBirthday
  split
  · rename_i h0
    have : l = [] := List.length_eq_zero.1 h0
    subst this
    simp [gather_nil]
  · exact twoPasses_eq l h

theorem sorted_perm_of_inRange (l : List Student) (h : InRange l) :
    (gather (fun s => s.m_birth_month) (gather (fun s => s.m_birth_day) l 1 31) 1 12).Perm l := by
  have hp : (gather (fun s => s.m_birth_day) l 1 31).Perm l :=
    gather_perm _ l 1 31 (by
      intro s hs
      have := (h s hs).1
      push_cast
      omega)
  refine (gather_perm _ _ 1 12 ?_).trans hp
  intro s hs
  have := (h s (hp.mem_iff.1 hs)).2
  push_cast
  omega

theorem sorted_pairwise (l : List Student) :
    (gather (fun s => s.m_birth_month) (gather (fun s => s.m_birth_day) l 1 31) 1 12).Pairwise
      BirthdayLE := by
  have h1 : (gather (fun s => s.m_birth_day) l 1 31).Pairwise
      (fun a b => a.m_birth_day ≤ b.m_birth_day) := by
    have hT : l.Pairwise (fun _ _ => True) := List.pairwise_of_forall (fun _ _ => trivial)
    refine (gather_sorted (fun s => s.m_birth_day) (fun _ _ => True) l 1 31 hT).imp ?_
    intro a b hab
    rcases hab with hlt | ⟨heq, _⟩
    · exact le_of_lt hlt
    · exact le_of_eq heq
  exact gather_sorted (fun s => s.m_birth_month) _ _ 1 12 h1

theorem sorted_stable (l : List Student) (h : InRange l) (m d : Int) :
    (gather (fun s => s.m_birth_month) (gather (fun s => s.m_birth_day) l 1 31) 1 12).filter
      (hasBirthday m d) = l.filter (hasBirthday m d) := by
  by_cases hr : (1 ≤ m ∧ m ≤ 12) ∧ (1 ≤ d ∧ d ≤ 31)
  · have hm : m = (m.toNat : Int) := by omega
    have hd : d = (d.toNat : Int) := by omega
    rw [gather_filter (fun s => s.m_birth_month) _ (hasBirthday m d) m.toNat (by
        intro s hs
        simp only [hasBirthday, decide_eq_true_eq] at hs
        exact hs.1.trans hm) 12 1 (by omega) (by omega)]
    exact gather_filter (fun s => s.m_birth_day) _ (hasBirthday m d) d.toNat (by
        intro s hs
        simp only [hasBirthday, decide_eq_true_eq] at hs
        exact hs.2.trans hd) 31 1 (by omega) (by omega)
  · have hnil : ∀ l' : List Student, InRange l' → l'.filter (hasBirthday m d) = [] := by
      intro l' hl'
      rw [List.filter_eq_nil_iff]
      intro s hs hb
      simp only [hasBirthday, decide_eq_true_eq] at hb
      have := hl' s hs
      rw [hb.1, hb.2] at this
      exact hr ⟨this.2, this.1⟩
    rw [hnil l h]
    apply hnil
    intro s hs
    exact h s ((sorted_perm_of_inRange l h).mem_iff.1 hs)

/-! ### Claims about the radix sort -/

/-- C1: with every day in [1,31] and every month in [1,12], `radixSort` (and
`radixSortByBirthday`, the same algorithm) returns, and the vector it leaves is ascending by
`(m_birth_month, m_birth_day)`: for positions `i < j`, record `i` is lexicographically less
than or equal to record `j`. -/
theorem radixSort_sorted (students : List Student) (h : InRange students) :
    ∃ out, radixSort students = some out ∧ radixSortByBirthday students = some out ∧
      ∀ (i j : Nat) (hij : i < j) (hj : j < out.length),
        BirthdayLE (out.get ⟨i, Nat.lt_trans hij hj⟩) (out.get ⟨j, hj⟩) := by
  refine ⟨_, radixSort_eq students h, radixSortByBirthday_eq students h, ?_⟩
  intro i j hij hj
  exact List.pairwise_iff_get.1 (sorted_pairwise students) ⟨i, Nat.lt_trans hij hj⟩ ⟨j, hj⟩ hij

/-- Witness of C1 on the sorting scenario. -/
theorem radixSort_sorted_witness :
    InRange sortScenario ∧
    ∃ out, radixSort sortScenario = some out ∧ radixSortByBirthday sortScenario = some out ∧
      ∀ (i j : Nat) (hij : i < j) (hj : j < out.length),
        BirthdayLE (out.get ⟨i, Nat.lt_trans hij hj⟩) (out.get ⟨j, hj⟩) :=
  ⟨by decide, radixSort_sorted sortScenario (by decide)⟩

/-- C2: with every day in [1,31] and every month in [1,12], the vector left by `radixSort` /
`radixSortByBirthday` is a permutation of the input: same length, and every whole record
occurs as often as in the input. -/
theorem radixSort_perm (students : List Student) (h : InRange students) :
    ∃ out, radixSort students = some out ∧ radixSortByBirthday students = some out ∧
      out.Perm students ∧ out.length = students.length ∧
      ∀ s : Student, out.count s = students.count s := by
  have hp := sorted_perm_of_inRange students h
  exact ⟨_, radixSort_eq students h, radixSortByBirthday_eq students h, hp, hp.length_eq,
    fun s => hp.count_eq s⟩

/-- Witness of C2 on the sorting scenario. -/
theorem radixSort_perm_witness :
    InRange sortScenario ∧
    ∃ out, radixSort sortScenario = some out ∧ radixSortByBirthday sortScenario = some out ∧
      out.Perm sortScenario ∧ out.length = sortScenario.length ∧
      ∀ s : Student, out.count s = sortScenario.count s :=
  ⟨by decide, radixSort_perm sortScenario (by decide)⟩

/-- C3: `radixSort` / `radixSortByBirthday` is stable: with days in [1,31] and months in
[1,12], for every birthday `(m, d)` the records with that birthday come out in exactly the
order they came in. -/
theorem radixSort_stable (students : List Student) (h : InRange students) :
    ∃ out, radixSort students = some out ∧ radixSortByBirthday students = some out ∧
      ∀ m d : Int, out.filter (hasBirthday m d) = students.filter (hasBirthday m d) := by
  exact ⟨_, radixSort_eq students h, radixSortByBirthday_eq students h,
    fun m d => sorted_stable students h m d⟩

/-- Witness of C3: the scenario (3,15), (1,20), (3,2), (1,20) comes out as the second
record, the fourth record, the third, the first. -/
theorem radixSort_stable_witness :
    InRange sortScenario ∧
    radixSort sortScenario = some sortScenarioSorted ∧
    radixSortByBirthday sortScenario = some sortScenarioSorted ∧
    ∃ out, radixSort sortScenario = some out ∧ radixSortByBirthday sortScenario = some out ∧
      ∀ m d : Int, out.filter (hasBirthday m d) = sortScenario.filter (hasBirthday m d) :=
  ⟨by decide, by rfl, by rfl, radixSort_stable sortScenario (by decide)⟩

/-! ### Hash containers -/

namespace UMap

theorem find_update {V : Type} (d : V) (f : V → V) (m : List (String × V)) (k k' : String) :
    find (update d f m k) k' =
      if k = k' then some (f ((find m k).getD d)) else find m k' := by
  induction m with
  | nil =>
    by_cases h : k = k' <;> simp [update, find, h]
  | cons p rest ih =>
    obtain ⟨a, v⟩ := p
    by_cases ha : a = k
    · subst ha
      by_cases h : a = k' <;> simp [update, find, h]
    · by_cases h : k = k'
      · subst h
        simp [update, find, ha, ih]
      · simp [update, find, ha, ih, h]

theorem find_erase {V : Type} (m : List (String × V)) (k k' : String) :
    find (erase m k) k' = if k = k' then none else find m k' := by
  induction m with
  | nil => simp [erase, find]
  | cons p rest ih =>
    obtain ⟨a, v⟩ := p
    by_cases ha : a = k
    · subst ha
      by_cases h : a = k'
      · subst h
        simpa [erase, find] using ih
      · simp [erase, find, h, ih]
    · by_cases h : k = k'
      · subst h
        simp [erase, find, ha, ih]
      · simp [erase, find, ha, ih, h]

theorem find_eq_none_iff {V : Type} (m : List (String × V)) (k : String) :
    find m k = none ↔ k ∉ keys m := by
  induction m with
  | nil => simp [find, keys]
  | cons p rest ih =>
    obtain ⟨a, v⟩ := p
    by_cases ha : a = k
    · simp [find, keys, ha]
    · simp only [keys] at ih
      simp [find, keys, ha, ih, Ne.symm ha]

theorem mem_of_find {V : Type} {m : List (String × V)} {k : String} {v : V}
    (h : find m k = some v) : (k, v) ∈ m := by
  induction m with
  | nil => simp [find] at h
  | cons p rest ih =>
    obtain ⟨a, w⟩ := p
    by_cases ha : a = k
    · simp [find, ha] at h
      simp [ha, h]
    · simp [find, ha] at h
      exact List.mem_cons_of_mem _ (ih h)

theorem find_of_mem {V : Type} {m : List (String × V)} {k : String} {v : V}
    (hnd : (keys m).Nodup) (h : (k, v) ∈ m) : find m k = some v := by
  induction m with
  | nil => simp at h
  | cons p rest ih =>
    obtain ⟨a, w⟩ := p
    simp only [keys, List.map_cons, List.nodup_cons] at hnd
    rcases List.mem_cons.1 h with heq | hmem
    · cases heq
      simp [find]
    · have hne : a ≠ k := by
        intro hak
        apply hnd.1
        rw [hak]
        exact List.mem_map.2 ⟨(k, v), hmem, rfl⟩
      simp only [find, if_neg hne]
      exact ih hnd.2 hmem

theorem keys_update {V : Type} (d : V) (f : V → V) (m : List (String × V)) (k : String) :
    keys (update d f m k) = if k ∈ keys m then keys m else keys m ++ [k] := by
  induction m with
  | nil => simp [update, keys]
  | cons p rest ih =>
    obtain ⟨a, v⟩ := p
    simp only [keys] at ih
    by_cases ha : a = k
    · simp [update, keys, ha]
    · simp only [update, if_neg ha, keys, List.map_cons, ih, List.mem_cons, Ne.symm ha,
        false_or]
      split <;> simp

theorem keys_erase {V : Type} (m : List (String × V)) (k : String) :
    keys (erase m k) = (keys m).filter (fun a => decide (a ≠ k)) := by
  induction m with
  | nil => simp [erase, keys]
  | cons p rest ih =>
    obtain ⟨a, v⟩ := p
    simp only [keys] at ih
    by_cases ha : a = k
    · simp [erase, keys, ha, ih]
    · simp [erase, keys, ha, ih]

theorem nodup_update {V : Type} (d : V) (f : V → V) (m : List (String × V)) (k : String)
    (h : (keys m).Nodup) : (keys (update d f m k)).Nodup := by
  rw [keys_update]
  split
  · exact h
  · rename_i hk
    exact List.nodup_append.2 ⟨h, List.nodup_singleton k, by
      intro a ha hb
      rw [List.mem_singleton] at hb
      exact hk (hb ▸ ha)⟩

theorem nodup_erase {V : Type} (m : List (String × V)) (k : String)
    (h : (keys m).Nodup) : (keys (erase m k)).Nodup := by
  rw [keys_erase]
  exact h.filter _

theorem length_update {V : Type} (d : V) (f : V → V) (m : List (String × V)) (k : String) :
    (update d f m k).length = if k ∈ keys m then m.length else m.length + 1 := by
  have h := congrArg List.length (keys_update d f m k)
  rw [keys, List.length_map] at h
  rw [h]
  by_cases hk : k ∈ keys m
  · rw [if_pos hk, if_pos hk, keys, List.length_map]
  · rw [if_neg hk, if_neg hk, List.length_append, keys, List.length_map]
    rfl

end UMap

/-! ### From-scratch aggregates under the store updates -/

theorem countInGroup_nil (g : String) : countInGroup [] g = 0 := rfl

theorem ratingInGroup_nil (g : String) : ratingInGroup [] g = 0 := rfl

theorem countInGroup_cons (a : String) (st : Student) (rest : List (String × Student))
    (g : String) :
    countInGroup ((a, st) :: rest) g = countWeight g st + countInGroup rest g := by
  by_cases h : st.m_group = g
  · simp [countInGroup, membersOf, countWeight, h, List.filter_cons]; ring
  · simp [countInGroup, membersOf, countWeight, h, List.filter_cons]

theorem ratingInGroup_cons (a : String) (st : Student) (rest : List (String × Student))
    (g : String) :
    ratingInGroup ((a, st) :: rest) g = ratingWeight g st + ratingInGroup rest g := by
  by_cases h : st.m_group = g
  · simp [ratingInGroup, membersOf, ratingWeight, h, List.filter_cons]
  · simp [ratingInGroup, membersOf, ratingWeight, h, List.filter_cons]

theorem countInGroup_nonneg (m : List (String × Student)) (g : String) :
    0 ≤ countInGroup m g := by
  simp [countInGroup]

theorem rating_eq_zero_of_count_eq_zero (m : List (String × Student)) (g : String)
    (h : countInGroup m g = 0) : ratingInGroup m g = 0 := by
  have : membersOf m g = [] := by
    apply List.length_eq_zero.1
    simpa [countInGroup] using h
  simp [ratingInGroup, this]

theorem count_pos_of_find {m : List (String × Student)} {e : String} {st : Student}
    (h : UMap.find m e = some st) : 1 ≤ countInGroup m st.m_group := by
  have hmem : (e, st) ∈ membersOf m st.m_group := by
    simp [membersOf, UMap.mem_of_find h]
  have : 0 < (membersOf m st.m_group).length := List.length_pos_of_mem hmem
  simp only [countInGroup]
  omega

theorem count_update_present (d : Student) (f : Student → Student) (e g : String) :
    ∀ (m : List (String × Student)) (st : Student), UMap.find m e = some st →
      countInGroup (UMap.update d f m e) g =
        countInGroup m g - countWeight g st + countWeight g (f st) := by
  intro m
  induction m with
  | nil => intro st h; simp [UMap.find] at h
  | cons p rest ih =>
    obtain ⟨a, v⟩ := p
    intro st h
    by_cases ha : a = e
    · simp only [UMap.find, if_pos ha, Option.some.injEq] at h
      subst h
      simp only [UMap.update, if_pos ha, countInGroup_cons]
      ring
    · simp only [UMap.find, if_neg ha] at h
      simp only [UMap.update, if_neg ha, countInGroup_cons, ih st h]
      ring

theorem rating_update_present (d : Student) (f : Student → Student) (e g : String) :
    ∀ (m : List (String × Student)) (st : Student), UMap.find m e = some st →
      ratingInGroup (UMap.update d f m e) g =
        ratingInGroup m g - ratingWeight g st + ratingWeight g (f st) := by
  intro m
  induction m with
  | nil => intro st h; simp [UMap.find] at h
  | cons p rest ih =>
    obtain ⟨a, v⟩ := p
    intro st h
    by_cases ha : a = e
    · simp only [UMap.find, if_pos ha, Option.some.injEq] at h
      subst h
      simp only [UMap.update, if_pos ha, ratingInGroup_cons]
      ring
    · simp only [UMap.find, if_neg ha] at h
      simp only [UMap.update, if_neg ha, ratingInGroup_cons, ih st h]
      ring

theorem count_update_absent (d : Student) (f : Student → Student) (e g : String) :
    ∀ (m : List (String × Student)), UMap.find m e = none →
      countInGroup (UMap.update d f m e) g = countInGroup m g + countWeight g (f d) := by
  intro m
  induction m with
  | nil => intro _; simp [UMap.update, countInGroup_cons, countInGroup_nil]
  | cons p rest ih =>
    obtain ⟨a, v⟩ := p
    intro h
    by_cases ha : a = e
    · simp [UMap.find, ha] at h
    · simp only [UMap.find, if_neg ha] at h
      simp only [UMap.update, if_neg ha, countInGroup_cons, ih h]
      ring

theorem rating_update_absent (d : Student) (f : Student → Student) (e g : String) :
    ∀ (m : List (String × Student)), UMap.find m e = none →
      ratingInGroup (UMap.update d f m e) g = ratingInGroup m g + ratingWeight g (f d) := by
  intro m
  induction m with
  | nil => intro _; simp [UMap.update, ratingInGroup_cons, ratingInGroup_nil]
  | cons p rest ih =>
    obtain ⟨a, v⟩ := p
    intro h
    by_cases ha : a = e
    · simp [UMap.find, ha] at h
    · simp only [UMap.find, if_neg ha] at h
      simp only [UMap.update, if_neg ha, ratingInGroup_cons, ih h]
      ring

/-! ### The group index under the two mutations -/

namespace OptimizedStudentDB

theorem find_incCount_addRating (gs : List (String × GroupStats)) (G g : String) (r : ℚ) :
    UMap.find (addRating (incCount gs G) G r) g =
      if G = g then
        some { studentCount := (entry gs G).studentCount + 1,
               totalRating := (entry gs G).totalRating + r }
      else UMap.find gs g := by
  unfold addRating incCount entry
  rw [UMap.find_update, UMap.find_update]
  by_cases h : G = g
  · simp [h, UMap.find_update]
  · simp [h, UMap.find_update]

theorem find_decCount_subRating (gs : List (String × GroupStats)) (G g : String) (r : ℚ) :
    UMap.find (subRating (decCount gs G) G r) g =
      if G = g then
        some { studentCount := (entry gs G).studentCount - 1,
               totalRating := (entry gs G).totalRating - r }
      else UMap.find gs g := by
  unfold subRating decCount entry
  rw [UMap.find_update, UMap.find_update]
  by_cases h : G = g
  · simp [h, UMap.find_update]
  · simp [h, UMap.find_update]

theorem insertRecord_groupStats (db : OptimizedStudentDB) (s : Student) (g : String) :
    UMap.find (insertRecord db s).groupStats g =
      if s.m_group = g then
        some { studentCount := (entry db.groupStats s.m_group).studentCount + 1,
               totalRating := (entry db.groupStats s.m_group).totalRating + s.m_rating }
      else UMap.find db.groupStats g := by
  simp only [insertRecord]
  exact find_incCount_addRating _ _ _ _

theorem changeGroupByEmail_none (db : OptimizedStudentDB) (email newGroup : String)
    (h : UMap.find db.studentsByEmail email = none) :
    changeGroupByEmail db email newGroup = (false, db) := by
  simp [changeGroupByEmail, h]

theorem changeGroupByEmail_same (db : OptimizedStudentDB) (email newGroup : String)
    (st : Student) (h : UMap.find db.studentsByEmail email = some st)
    (hg : st.m_group = newGroup) :
    changeGroupByEmail db email newGroup = (true, db) := by
  simp [changeGroupByEmail, h, hg]

/-- What a call that really moves a record leaves behind. -/
theorem changeGroupByEmail_move (db : OptimizedStudentDB) (email newGroup : String)
    (st : Student) (h : UMap.find db.studentsByEmail email = some st)
    (hg : st.m_group ≠ newGroup) :
    (changeGroupByEmail db email newGroup).1 = true ∧
    (changeGroupByEmail db email newGroup).2.cacheValid = false ∧
    (changeGroupByEmail db email newGroup).2.studentsByEmail =
      UMap.update st (fun s => { s with m_group := newGroup }) db.studentsByEmail email ∧
    (changeGroupByEmail db email newGroup).2.cachedMaxCount = db.cachedMaxCount ∧
    (changeGroupByEmail db email newGroup).2.cachedMaxCountGroup = db.cachedMaxCountGroup ∧
    (changeGroupByEmail db email newGroup).2.cachedMaxRating = db.cachedMaxRating ∧
    (changeGroupByEmail db email newGroup).2.cachedMaxRatingGroup = db.cachedMaxRatingGroup ∧
    ∀ g, UMap.find (changeGroupByEmail db email newGroup).2.groupStats g =
      if newGroup = g then
        some { studentCount := (entry db.groupStats newGroup).studentCount + 1,
               totalRating := (entry db.groupStats newGroup).totalRating + st.m_rating }
      else if st.m_group = g then
        (if (entry db.groupStats st.m_group).studentCount - 1 = 0 then none
         else some { studentCount := (entry db.groupStats st.m_group).studentCount - 1,
                     totalRating := (entry db.groupStats st.m_group).totalRating - st.m_rating })
      else UMap.find db.groupStats g := by
  simp only [changeGroupByEmail, h, if_neg hg]
  refine ⟨trivial, trivial, trivial, trivial, trivial, trivial, trivial, ?_⟩
  intro g
  rw [find_incCount_addRating]
  have hold : (UMap.find (subRating (decCount db.groupStats st.m_group) st.m_group st.m_rating)
      st.m_group).getD {} =
      { studentCount := (entry db.groupStats st.m_group).studentCount - 1,
        totalRating := (entry db.groupStats st.m_group).totalRating - st.m_rating } := by
    rw [find_decCount_subRating]; simp
  rw [hold]
  simp only
  by_cases hz : (entry db.groupStats st.m_group).studentCount - 1 = 0
  · simp only [hz, if_true]
    have hnew : entry (UMap.erase (subRating (decCount db.groupStats st.m_group) st.m_group
        st.m_rating) st.m_group) newGroup = entry db.groupStats newGroup := by
      unfold entry
      rw [UMap.find_erase, if_neg hg, find_decCount_subRating, if_neg hg]
    rw [hnew]
    by_cases h1 : newGroup = g
    · simp [h1]
    · simp only [if_neg h1]
      rw [UMap.find_erase, find_decCount_subRating]
      by_cases h2 : st.m_group = g <;> simp [h2]
  · simp only [hz, if_false]
    have hnew : entry (subRating (decCount db.groupStats st.m_group) st.m_group
        st.m_rating) newGroup = entry db.groupStats newGroup := by
      unfold entry
      rw [find_decCount_subRating, if_neg hg]
    rw [hnew]
    by_cases h1 : newGroup = g
    · simp [h1]
    · simp only [if_neg h1]
      rw [find_decCount_subRating]

end OptimizedStudentDB

/-! ### Arg-max scans -/

/-- A left-to-right scan that replaces its running maximum only on a strictly greater value
ends with the maximum of the start value and the scanned values, and its label is either
the one it started with or the label of a scanned entry attaining that maximum. -/
theorem scan_spec {σ α β : Type} [LinearOrder β] (val : α → β) (getV : σ → β)
    (getG : σ → String) (stepF : σ → String × α → σ)
    (hstep : ∀ st p,
      (getV st < val p.2 → getV (stepF st p) = val p.2 ∧ getG (stepF st p) = p.1) ∧
      (¬ getV st < val p.2 → getV (stepF st p) = getV st ∧ getG (stepF st p) = getG st)) :
    ∀ (l : List (String × α)) (st : σ),
      getV st ≤ getV (l.foldl stepF st) ∧
      (∀ p ∈ l, val p.2 ≤ getV (l.foldl stepF st)) ∧
      ((getV (l.foldl stepF st) = getV st ∧ getG (l.foldl stepF st) = getG st) ∨
        ∃ p ∈ l, p.1 = getG (l.foldl stepF st) ∧ val p.2 = getV (l.foldl stepF st) ∧
          getV st < val p.2) := by
  intro l
  induction l with
  | nil => intro st; simp
  | cons p rest ih =>
    intro st
    obtain ⟨h1, h2, h3⟩ := ih (stepF st p)
    simp only [List.foldl_cons]
    by_cases hlt : getV st < val p.2
    · obtain ⟨hv, hg⟩ := (hstep st p).1 hlt
      rw [hv] at h1 h3
      rw [hg] at h3
      refine ⟨le_trans (le_of_lt hlt) h1, ?_, ?_⟩
      · intro q hq
        rcases List.mem_cons.1 hq with rfl | hq
        · exact h1
        · exact h2 q hq
      · right
        rcases h3 with ⟨e1, e2⟩ | ⟨q, hq, e1, e2, e3⟩
        · exact ⟨p, List.mem_cons_self _ _, e2.symm, e1.symm, hlt⟩
        · exact ⟨q, List.mem_cons_of_mem _ hq, e1, e2, lt_trans hlt e3⟩
    · obtain ⟨hv, hg⟩ := (hstep st p).2 hlt
      rw [hv] at h1 h3
      rw [hg] at h3
      refine ⟨h1, ?_, ?_⟩
      · intro q hq
        rcases List.mem_cons.1 hq with rfl | hq
        · exact le_trans (not_lt.1 hlt) h1
        · exact h2 q hq
      · rcases h3 with h3 | ⟨q, hq, e1, e2, e3⟩
        · exact Or.inl h3
        · exact Or.inr ⟨q, List.mem_cons_of_mem _ hq, e1, e2, e3⟩

namespace OptimizedStudentDB

theorem rebuildStep_frame (db : OptimizedStudentDB) (p : String × GroupStats) :
    (rebuildStep db p).studentsByEmail = db.studentsByEmail ∧
    (rebuildStep db p).groupStats = db.groupStats ∧
    (rebuildStep db p).cacheValid = db.cacheValid := by
  unfold rebuildStep
  simp only
  split_ifs <;> simp

theorem foldl_rebuildStep_frame (l : List (String × GroupStats)) :
    ∀ db : OptimizedStudentDB,
      (l.foldl rebuildStep db).studentsByEmail = db.studentsByEmail ∧
      (l.foldl rebuildStep db).groupStats = db.groupStats ∧
      (l.foldl rebuildStep db).cacheValid = db.cacheValid := by
  induction l with
  | nil => intro db; simp
  | cons p rest ih =>
    intro db
    obtain ⟨h1, h2, h3⟩ := ih (rebuildStep db p)
    obtain ⟨g1, g2, g3⟩ := rebuildStep_frame db p
    simp only [List.foldl_cons]
    exact ⟨h1.trans g1, h2.trans g2, h3.trans g3⟩

theorem rebuildStep_count (db : OptimizedStudentDB) (p : String × GroupStats) :
    (db.cachedMaxCount < p.2.studentCount →
      (rebuildStep db p).cachedMaxCount = p.2.studentCount ∧
      (rebuildStep db p).cachedMaxCountGroup = p.1) ∧
    (¬ db.cachedMaxCount < p.2.studentCount →
      (rebuildStep db p).cachedMaxCount = db.cachedMaxCount ∧
      (rebuildStep db p).cachedMaxCountGroup = db.cachedMaxCountGroup) := by
  unfold rebuildStep
  simp only [gt_iff_lt]
  constructor <;> intro h <;> split_ifs <;> simp_all

theorem rebuildStep_rating (db : OptimizedStudentDB) (p : String × GroupStats) :
    (db.cachedMaxRating < p.2.getAverageRating →
      (rebuildStep db p).cachedMaxRating = p.2.getAverageRating ∧
      (rebuildStep db p).cachedMaxRatingGroup = p.1) ∧
    (¬ db.cachedMaxRating < p.2.getAverageRating →
      (rebuildStep db p).cachedMaxRating = db.cachedMaxRating ∧
      (rebuildStep db p).cachedMaxRatingGroup = db.cachedMaxRatingGroup) := by
  unfold rebuildStep
  simp only [gt_iff_lt]
  constructor <;> intro h <;> split_ifs <;> simp_all

theorem rebuildCache_frame (db : OptimizedStudentDB) :
    (rebuildCache db).studentsByEmail = db.studentsByEmail ∧
    (rebuildCache db).groupStats = db.groupStats ∧
    (rebuildCache db).cacheValid = true := by
  obtain ⟨h1, h2, _⟩ := foldl_rebuildStep_frame db.groupStats
    { db with cachedMaxCount := 0, cachedMaxRating := 0 }
  exact ⟨h1, h2, rfl⟩

/-- What `rebuildCache` leaves in the max-count pair. -/
theorem rebuildCache_count (db : OptimizedStudentDB) :
    0 ≤ (rebuildCache db).cachedMaxCount ∧
    (∀ p ∈ db.groupStats, p.2.studentCount ≤ (rebuildCache db).cachedMaxCount) ∧
    (((rebuildCache db).cachedMaxCount = 0 ∧
        (rebuildCache db).cachedMaxCountGroup = db.cachedMaxCountGroup) ∨
      ∃ p ∈ db.groupStats, p.1 = (rebuildCache db).cachedMaxCountGroup ∧
        p.2.studentCount = (rebuildCache db).cachedMaxCount ∧ 0 < p.2.studentCount) := by
  have h := scan_spec (fun st : GroupStats => st.studentCount)
    (fun d : OptimizedStudentDB => d.cachedMaxCount)
    (fun d : OptimizedStudentDB => d.cachedMaxCountGroup) rebuildStep
    (fun st p => rebuildStep_count st p) db.groupStats
    { db with cachedMaxCount := 0, cachedMaxRating := 0 }
  simpa [rebuildCache] using h

/-- What `rebuildCache` leaves in the max-average pair. -/
theorem rebuildCache_rating (db : OptimizedStudentDB) :
    0 ≤ (rebuildCache db).cachedMaxRating ∧
    (∀ p ∈ db.groupStats, p.2.getAverageRating ≤ (rebuildCache db).cachedMaxRating) ∧
    (((rebuildCache db).cachedMaxRating = 0 ∧
        (rebuildCache db).cachedMaxRatingGroup = db.cachedMaxRatingGroup) ∨
      ∃ p ∈ db.groupStats, p.1 = (rebuildCache db).cachedMaxRatingGroup ∧
        p.2.getAverageRating = (rebuildCache db).cachedMaxRating ∧
        0 < p.2.getAverageRating) := by
  have h := scan_spec (fun st : GroupStats => st.getAverageRating)
    (fun d : OptimizedStudentDB => d.cachedMaxRating)
    (fun d : OptimizedStudentDB => d.cachedMaxRatingGroup) rebuildStep
    (fun st p => rebuildStep_rating st p) db.groupStats
    { db with cachedMaxCount := 0, cachedMaxRating := 0 }
  simpa [rebuildCache] using h

end OptimizedStudentDB

/-! ### Preservation of the invariants -/

namespace OptimizedStudentDB

theorem entry_of_find_some {gs : List (String × GroupStats)} {g : String} {st : GroupStats}
    (h : UMap.find gs g = some st) : entry gs g = st := by
  simp [entry, h]

theorem entry_of_find_none {gs : List (String × GroupStats)} {g : String}
    (h : UMap.find gs g = none) : entry gs g = {} := by
  simp [entry, h]

theorem countWeight_nonneg (g : String) (st : Student) : 0 ≤ countWeight g st := by
  unfold countWeight; split <;> omega

theorem countWeight_self (st : Student) : countWeight st.m_group st = 1 := by
  simp [countWeight]

theorem countWeight_ne {g : String} {st : Student} (h : st.m_group ≠ g) :
    countWeight g st = 0 := by
  simp [countWeight, h]

theorem ratingWeight_self (st : Student) : ratingWeight st.m_group st = st.m_rating := by
  simp [ratingWeight]

theorem ratingWeight_ne {g : String} {st : Student} (h : st.m_group ≠ g) :
    ratingWeight g st = 0 := by
  simp [ratingWeight, h]

theorem Pos.entry_bounds {db : OptimizedStudentDB} (h : Pos db) (g : String) :
    0 ≤ (entry db.groupStats g).studentCount ∧
    countInGroup db.studentsByEmail g ≤ (entry db.groupStats g).studentCount := by
  cases hf : UMap.find db.groupStats g with
  | none =>
    rw [entry_of_find_none hf, (h g).2 hf]
    exact ⟨le_refl _, le_refl _⟩
  | some st =>
    rw [entry_of_find_some hf]
    have := (h g).1 st hf
    exact ⟨by omega, this.2⟩

theorem Exact.entry_eq {db : OptimizedStudentDB} (h : Exact db) (g : String) :
    entry db.groupStats g = statOf db.studentsByEmail g := by
  unfold entry
  rw [h g]
  by_cases hz : countInGroup db.studentsByEmail g = 0
  · simp [hz, statOf, rating_eq_zero_of_count_eq_zero _ _ hz]
  · simp [hz]

theorem Exact.pos {db : OptimizedStudentDB} (h : Exact db) : Pos db := by
  intro g
  have hnn := countInGroup_nonneg db.studentsByEmail g
  constructor
  · intro st hst
    rw [h g] at hst
    by_cases hz : countInGroup db.studentsByEmail g = 0
    · simp [hz] at hst
    · simp only [if_neg hz, Option.some.injEq] at hst
      subst hst
      simp only [statOf]
      omega
  · intro hn
    rw [h g] at hn
    by_cases hz : countInGroup db.studentsByEmail g = 0
    · exact hz
    · simp [hz] at hn

theorem empty_wf : WF empty := by
  simp [WF, empty, UMap.keys]

theorem empty_exact : Exact empty := by
  intro g
  simp [empty, UMap.find, countInGroup_nil]

theorem insertRecord_wf (db : OptimizedStudentDB) (s : Student) (h : WF db) :
    WF (insertRecord db s) := by
  constructor
  · exact UMap.nodup_update _ _ _ _ h.1
  · exact UMap.nodup_update _ _ _ _ (UMap.nodup_update _ _ _ _ h.2)

theorem insertRecord_count_le (db : OptimizedStudentDB) (s : Student) (g : String) :
    countInGroup (insertRecord db s).studentsByEmail g ≤
      countInGroup db.studentsByEmail g + countWeight g s := by
  show countInGroup (UMap.update s (fun _ => s) db.studentsByEmail s.m_email) g ≤ _
  cases hf : UMap.find db.studentsByEmail s.m_email with
  | none => rw [count_update_absent _ _ _ _ _ hf]
  | some st =>
    rw [count_update_present _ _ _ _ _ _ hf]
    have := countWeight_nonneg g st
    omega

theorem insertRecord_pos (db : OptimizedStudentDB) (s : Student) (h : Pos db) :
    Pos (insertRecord db s) := by
  intro g
  have hle := insertRecord_count_le db s g
  have hnn := countInGroup_nonneg (insertRecord db s).studentsByEmail g
  rw [insertRecord_groupStats]
  by_cases hg : s.m_group = g
  · subst hg
    rw [countWeight_self] at hle
    have hb := h.entry_bounds s.m_group
    simp only [if_true]
    refine ⟨?_, by intro hc; cases hc⟩
    intro st hst
    simp only [Option.some.injEq] at hst
    subst hst
    simp only
    omega
  · rw [countWeight_ne hg] at hle
    simp only [if_neg hg]
    constructor
    · intro st hst
      have := (h g).1 st hst
      exact ⟨this.1, by omega⟩
    · intro hn
      have := (h g).2 hn
      omega

theorem insertRecord_exact (db : OptimizedStudentDB) (s : Student) (h : Exact db)
    (hfresh : UMap.find db.studentsByEmail s.m_email = none) :
    Exact (insertRecord db s) := by
  intro g
  have hc : countInGroup (insertRecord db s).studentsByEmail g =
      countInGroup db.studentsByEmail g + countWeight g s :=
    count_update_absent _ _ _ _ _ hfresh
  have hr : ratingInGroup (insertRecord db s).studentsByEmail g =
      ratingInGroup db.studentsByEmail g + ratingWeight g s :=
    rating_update_absent _ _ _ _ _ hfresh
  have hnn := countInGroup_nonneg db.studentsByEmail g
  rw [insertRecord_groupStats]
  by_cases hg : s.m_group = g
  · subst hg
    rw [countWeight_self] at hc
    rw [ratingWeight_self] at hr
    have hz : ¬ countInGroup (insertRecord db s).studentsByEmail s.m_group = 0 := by omega
    rw [if_pos rfl, if_neg hz, h.entry_eq]
    simp only [statOf, hc, hr]
  · rw [countWeight_ne hg] at hc
    rw [ratingWeight_ne hg] at hr
    rw [if_neg hg, h g]
    simp only [statOf, hc, hr, add_zero]

end OptimizedStudentDB

namespace OptimizedStudentDB

theorem changeGroupByEmail_wf (db : OptimizedStudentDB) (email newGroup : String)
    (h : WF db) : WF (changeGroupByEmail db email newGroup).2 := by
  cases hf : UMap.find db.studentsByEmail email with
  | none => rw [changeGroupByEmail_none db email newGroup hf]; exact h
  | some st =>
    by_cases hg : st.m_group = newGroup
    · rw [changeGroupByEmail_same db email newGroup st hf hg]; exact h
    · simp only [changeGroupByEmail, hf, if_neg hg]
      constructor
      · exact UMap.nodup_update _ _ _ _ h.1
      · apply UMap.nodup_update
        apply UMap.nodup_update
        have hnd : (UMap.keys (subRating (decCount db.groupStats st.m_group) st.m_group
            st.m_rating)).Nodup :=
          UMap.nodup_update _ _ _ _ (UMap.nodup_update _ _ _ _ h.2)
        split
        · exact UMap.nodup_erase _ _ hnd
        · exact hnd

theorem move_count (db : OptimizedStudentDB) (email newGroup : String) (st : Student)
    (hf : UMap.find db.studentsByEmail email = some st) (g : String) :
    countInGroup
      (UMap.update st (fun s => { s with m_group := newGroup }) db.studentsByEmail email) g =
      countInGroup db.studentsByEmail g - countWeight g st +
        (if newGroup = g then 1 else 0) := by
  rw [count_update_present _ _ _ _ _ _ hf]
  simp [countWeight]

theorem move_rating (db : OptimizedStudentDB) (email newGroup : String) (st : Student)
    (hf : UMap.find db.studentsByEmail email = some st) (g : String) :
    ratingInGroup
      (UMap.update st (fun s => { s with m_group := newGroup }) db.studentsByEmail email) g =
      ratingInGroup db.studentsByEmail g - ratingWeight g st +
        (if newGroup = g then st.m_rating else 0) := by
  rw [rating_update_present _ _ _ _ _ _ hf]
  simp [ratingWeight]

theorem changeGroupByEmail_pos (db : OptimizedStudentDB) (email newGroup : String)
    (h : Pos db) : Pos (changeGroupByEmail db email newGroup).2 := by
  cases hf : UMap.find db.studentsByEmail email with
  | none => rw [changeGroupByEmail_none db email newGroup hf]; exact h
  | some st =>
    by_cases hg : st.m_group = newGroup
    · rw [changeGroupByEmail_same db email newGroup st hf hg]; exact h
    · obtain ⟨_, _, hs, _, _, _, _, hgs⟩ := changeGroupByEmail_move db email newGroup st hf hg
      intro g
      rw [hgs g, hs, move_count db email newGroup st hf g]
      have hold := count_pos_of_find hf
      have hbo := h.entry_bounds st.m_group
      have hbn := h.entry_bounds newGroup
      have hnn := countInGroup_nonneg db.studentsByEmail g
      by_cases h1 : newGroup = g
      · subst h1
        rw [countWeight_ne hg]
        simp only [if_true]
        refine ⟨?_, by intro hc; cases hc⟩
        intro x hx
        simp only [Option.some.injEq] at hx
        subst hx
        simp only
        omega
      · simp only [if_neg h1]
        by_cases h2 : st.m_group = g
        · subst h2
          rw [countWeight_self]
          simp only [if_true]
          by_cases hz : (entry db.groupStats st.m_group).studentCount - 1 = 0
          · simp only [if_pos hz]
            constructor
            · intro x hx
              cases hx
            · intro _
              omega
          · simp only [if_neg hz]
            refine ⟨?_, by intro hc; cases hc⟩
            intro x hx
            simp only [Option.some.injEq] at hx
            subst hx
            simp only
            omega
        · rw [countWeight_ne h2]
          simp only [if_neg h2]
          constructor
          · intro x hx
            have := (h g).1 x hx
            exact ⟨this.1, by omega⟩
          · intro hn
            have := (h g).2 hn
            omega

theorem changeGroupByEmail_exact (db : OptimizedStudentDB) (email newGroup : String)
    (h : Exact db) : Exact (changeGroupByEmail db email newGroup).2 := by
  cases hf : UMap.find db.studentsByEmail email with
  | none => rw [changeGroupByEmail_none db email newGroup hf]; exact h
  | some st =>
    by_cases hg : st.m_group = newGroup
    · rw [changeGroupByEmail_same db email newGroup st hf hg]; exact h
    · obtain ⟨_, _, hs, _, _, _, _, hgs⟩ := changeGroupByEmail_move db email newGroup st hf hg
      intro g
      rw [hgs g, hs]
      have hc := move_count db email newGroup st hf g
      have hr := move_rating db email newGroup st hf g
      have hold := count_pos_of_find hf
      have hnn := countInGroup_nonneg db.studentsByEmail g
      rw [h.entry_eq, h.entry_eq]
      by_cases h1 : newGroup = g
      · subst h1
        rw [countWeight_ne hg] at hc
        rw [ratingWeight_ne hg] at hr
        simp only [if_true] at hc hr ⊢
        have hz : ¬ countInGroup (UMap.update st (fun s => { s with m_group := newGroup })
            db.studentsByEmail email) newGroup = 0 := by omega
        rw [if_neg hz]
        simp only [statOf, hc, hr, sub_zero]
      · simp only [if_neg h1] at hc hr ⊢
        by_cases h2 : st.m_group = g
        · subst h2
          rw [countWeight_self] at hc
          rw [ratingWeight_self] at hr
          simp only [if_true, add_zero] at hc hr ⊢
          by_cases hz : (statOf db.studentsByEmail st.m_group).studentCount - 1 = 0
          · have hz2 : countInGroup (UMap.update st (fun s => { s with m_group := newGroup })
                db.studentsByEmail email) st.m_group = 0 := by
              rw [hc]; simpa [statOf] using hz
            rw [if_pos hz, if_pos hz2]
          · have hz2 : ¬ countInGroup (UMap.update st (fun s => { s with m_group := newGroup })
                db.studentsByEmail email) st.m_group = 0 := by
              rw [hc]; simpa [statOf] using hz
            rw [if_neg hz, if_neg hz2]
            simp only [statOf, hc, hr]
        · rw [countWeight_ne h2] at hc
          rw [ratingWeight_ne h2] at hr
          simp only [if_neg h2, sub_zero, add_zero] at hc hr ⊢
          rw [h g]
          simp only [statOf, hc, hr]

theorem rebuildCache_wf (db : OptimizedStudentDB) (h : WF db) : WF (rebuildCache db) := by
  obtain ⟨h1, h2, _⟩ := rebuildCache_frame db
  unfold WF
  rw [h1, h2]
  exact h

theorem rebuildCache_pos (db : OptimizedStudentDB) (h : Pos db) : Pos (rebuildCache db) := by
  obtain ⟨h1, h2, _⟩ := rebuildCache_frame db
  unfold Pos
  rw [h1, h2]
  exact h

theorem rebuildCache_exact (db : OptimizedStudentDB) (h : Exact db) :
    Exact (rebuildCache db) := by
  obtain ⟨h1, h2, _⟩ := rebuildCache_frame db
  unfold Exact
  rw [h1, h2]
  exact h

end OptimizedStudentDB

/-! ### Sequences of operations -/

namespace OptimizedStudentDB

theorem run_append (db : OptimizedStudentDB) (a b : List Op) :
    run db (a ++ b) = run (run db a) b := by
  simp [run, List.foldl_append]

theorem run_map_insert (recs : List Student) :
    ∀ db : OptimizedStudentDB, run db (recs.map Op.insert) = recs.foldl insertRecord db := by
  induction recs with
  | nil => intro db; rfl
  | cons r rest ih =>
    intro db
    simp only [List.map_cons, List.foldl_cons]
    exact ih (insertRecord db r)

theorem query_state (db : OptimizedStudentDB) :
    (findGroupWithMostStudents db).2 = (if db.cacheValid = true then db else rebuildCache db) ∧
    (findGroupWithHighestRating db).2 = (if db.cacheValid = true then db else rebuildCache db) ∧
    (findGroupWithMostStudents db).1 = (findGroupWithMostStudents db).2.cachedMaxCountGroup ∧
    (findGroupWithHighestRating db).1 =
      (findGroupWithHighestRating db).2.cachedMaxRatingGroup := by
  unfold findGroupWithMostStudents findGroupWithHighestRating
  cases db.cacheValid <;> simp

theorem foldl_insert_wf (recs : List Student) :
    ∀ db : OptimizedStudentDB, WF db → WF (recs.foldl insertRecord db) := by
  induction recs with
  | nil => intro db h; exact h
  | cons r rest ih => intro db h; exact ih _ (insertRecord_wf db r h)

theorem foldl_insert_pos (recs : List Student) :
    ∀ db : OptimizedStudentDB, Pos db → Pos (recs.foldl insertRecord db) := by
  induction recs with
  | nil => intro db h; exact h
  | cons r rest ih => intro db h; exact ih _ (insertRecord_pos db r h)

theorem foldl_insert_cacheValid (recs : List Student) :
    ∀ db : OptimizedStudentDB, (recs.foldl insertRecord db).cacheValid = db.cacheValid := by
  induction recs with
  | nil => intro db; rfl
  | cons r rest ih => intro db; exact ih _

theorem foldl_insert_exact (recs : List Student) :
    ∀ db : OptimizedStudentDB, Exact db →
      (∀ r ∈ recs, UMap.find db.studentsByEmail r.m_email = none) →
      (recs.map (fun r => r.m_email)).Nodup → Exact (recs.foldl insertRecord db) := by
  induction recs with
  | nil => intro db h _ _; exact h
  | cons r rest ih =>
    intro db h hfresh hnd
    simp only [List.map_cons, List.nodup_cons] at hnd
    refine ih _ (insertRecord_exact db r h (hfresh r (List.mem_cons_self _ _))) ?_ hnd.2
    intro r' hr'
    show UMap.find (UMap.update r (fun _ => r) db.studentsByEmail r.m_email) r'.m_email = none
    have hne : r.m_email ≠ r'.m_email := by
      intro he
      apply hnd.1
      rw [he]
      exact List.mem_map.2 ⟨r', hr', rfl⟩
    rw [UMap.find_update, if_neg hne]
    exact hfresh r' (List.mem_cons_of_mem _ hr')

theorem step_wf (db : OptimizedStudentDB) (o : Op) (h : WF db) : WF (step db o) := by
  cases o with
  | insert s => exact insertRecord_wf db s h
  | load file =>
    cases file with
    | none => exact h
    | some rows => exact rebuildCache_wf _ (foldl_insert_wf rows db h)
  | change e g => exact changeGroupByEmail_wf db e g h
  | findMost =>
    show WF (findGroupWithMostStudents db).2
    rw [(query_state db).1]
    split
    · exact h
    · exact rebuildCache_wf db h
  | findHighest =>
    show WF (findGroupWithHighestRating db).2
    rw [(query_state db).2.1]
    split
    · exact h
    · exact rebuildCache_wf db h
  | rebuild => exact rebuildCache_wf db h

theorem step_pos (db : OptimizedStudentDB) (o : Op) (h : Pos db) : Pos (step db o) := by
  cases o with
  | insert s => exact insertRecord_pos db s h
  | load file =>
    cases file with
    | none => exact h
    | some rows => exact rebuildCache_pos _ (foldl_insert_pos rows db h)
  | change e g => exact changeGroupByEmail_pos db e g h
  | findMost =>
    show Pos (findGroupWithMostStudents db).2
    rw [(query_state db).1]
    split
    · exact h
    · exact rebuildCache_pos db h
  | findHighest =>
    show Pos (findGroupWithHighestRating db).2
    rw [(query_state db).2.1]
    split
    · exact h
    · exact rebuildCache_pos db h
  | rebuild => exact rebuildCache_pos db h

theorem run_wf (ops : List Op) : ∀ db : OptimizedStudentDB, WF db → WF (run db ops) := by
  induction ops with
  | nil => intro db h; exact h
  | cons o rest ih => intro db h; exact ih _ (step_wf db o h)

theorem run_pos (ops : List Op) : ∀ db : OptimizedStudentDB, Pos db → Pos (run db ops) := by
  induction ops with
  | nil => intro db h; exact h
  | cons o rest ih => intro db h; exact ih _ (step_pos db o h)

theorem mem_groupStats_pos {db : OptimizedStudentDB} (hwf : WF db) (hp : Pos db)
    {p : String × GroupStats} (hmem : p ∈ db.groupStats) : 1 ≤ p.2.studentCount :=
  ((hp p.1).1 p.2 (UMap.find_of_mem hwf.2 hmem)).1

theorem rebuildCache_cacheInv (db : OptimizedStudentDB) (hwf : WF db) (hp : Pos db) :
    CacheInv (rebuildCache db) := by
  intro _
  obtain ⟨_, hgs, _⟩ := rebuildCache_frame db
  obtain ⟨_, hc2, hc3⟩ := rebuildCache_count db
  obtain ⟨_, hr2, hr3⟩ := rebuildCache_rating db
  refine ⟨⟨?_, ?_, ?_⟩, ?_, ?_⟩
  · rw [hgs]; exact hc2
  · rw [hgs]
    intro hnil
    rcases hc3 with ⟨h0, _⟩ | ⟨p, hp1, _⟩
    · exact h0
    · rw [hnil] at hp1; cases hp1
  · rw [hgs]
    intro hne
    rcases hc3 with ⟨h0, _⟩ | ⟨p, hp1, hp2, hp3, _⟩
    · obtain ⟨q, hq⟩ := List.exists_mem_of_ne_nil _ hne
      have h1 := mem_groupStats_pos hwf hp hq
      have h2 := hc2 q hq
      omega
    · exact ⟨p, hp1, hp2, hp3⟩
  · rw [hgs]; exact hr2
  · rw [hgs]
    rintro ⟨q, hq, hqpos⟩
    rcases hr3 with ⟨h0, _⟩ | ⟨p, hp1, hp2, hp3, _⟩
    · have := hr2 q hq
      rw [h0] at this
      exact absurd hqpos (not_lt.2 this)
    · exact ⟨p, hp1, hp2, hp3⟩

theorem step_cacheInv (db : OptimizedStudentDB) (o : Op) (ho : o.isPublicCall = true)
    (hwf : WF db) (hp : Pos db) (h : CacheInv db) : CacheInv (step db o) := by
  cases o with
  | insert s => simp [Op.isPublicCall] at ho
  | load file =>
    cases file with
    | none => exact h
    | some rows =>
      exact rebuildCache_cacheInv _ (foldl_insert_wf rows db hwf) (foldl_insert_pos rows db hp)
  | change e g =>
    show CacheInv (changeGroupByEmail db e g).2
    cases hf : UMap.find db.studentsByEmail e with
    | none => rw [changeGroupByEmail_none db e g hf]; exact h
    | some st =>
      by_cases hg : st.m_group = g
      · rw [changeGroupByEmail_same db e g st hf hg]; exact h
      · intro hv
        rw [(changeGroupByEmail_move db e g st hf hg).2.1] at hv
        cases hv
  | findMost =>
    show CacheInv (findGroupWithMostStudents db).2
    rw [(query_state db).1]
    split
    · exact h
    · exact rebuildCache_cacheInv db hwf hp
  | findHighest =>
    show CacheInv (findGroupWithHighestRating db).2
    rw [(query_state db).2.1]
    split
    · exact h
    · exact rebuildCache_cacheInv db hwf hp
  | rebuild => exact rebuildCache_cacheInv db hwf hp

theorem run_cacheInv (ops : List Op) :
    ∀ db : OptimizedStudentDB, (∀ o ∈ ops, o.isPublicCall = true) → WF db → Pos db →
      CacheInv db → CacheInv (run db ops) := by
  induction ops with
  | nil => intro db _ _ _ h; exact h
  | cons o rest ih =>
    intro db ho hwf hp h
    exact ih (step db o) (fun o' ho' => ho o' (List.mem_cons_of_mem _ ho'))
      (step_wf db o hwf) (step_pos db o hp)
      (step_cacheInv db o (ho o (List.mem_cons_self _ _)) hwf hp h)

theorem step_exact (db : OptimizedStudentDB) (o : Op) (ho : o.isChangeOrQuery = true)
    (h : Exact db) : Exact (step db o) := by
  cases o with
  | insert s => simp [Op.isChangeOrQuery] at ho
  | load file => simp [Op.isChangeOrQuery] at ho
  | rebuild => simp [Op.isChangeOrQuery] at ho
  | change e g => exact changeGroupByEmail_exact db e g h
  | findMost =>
    show Exact (findGroupWithMostStudents db).2
    rw [(query_state db).1]
    split
    · exact h
    · exact rebuildCache_exact db h
  | findHighest =>
    show Exact (findGroupWithHighestRating db).2
    rw [(query_state db).2.1]
    split
    · exact h
    · exact rebuildCache_exact db h

theorem run_exact (ops : List Op) :
    ∀ db : OptimizedStudentDB, (∀ o ∈ ops, o.isChangeOrQuery = true) → Exact db →
      Exact (run db ops) := by
  induction ops with
  | nil => intro db _ h; exact h
  | cons o rest ih =>
    intro db ho h
    exact ih (step db o) (fun o' ho' => ho o' (List.mem_cons_of_mem _ ho'))
      (step_exact db o (ho o (List.mem_cons_self _ _)) h)

end OptimizedStudentDB

/-! ### Claims about the group index -/

namespace OptimizedStudentDB

theorem count_ne_zero_iff (m : List (String × Student)) (g : String) :
    countInGroup m g ≠ 0 ↔ ∃ p ∈ m, p.2.m_group = g := by
  constructor
  · intro h
    have hne : membersOf m g ≠ [] := by
      intro hnil
      apply h
      simp [countInGroup, hnil]
    obtain ⟨p, hp⟩ := List.exists_mem_of_ne_nil _ hne
    simp only [membersOf, List.mem_filter, decide_eq_true_eq] at hp
    exact ⟨p, hp.1, hp.2⟩
  · rintro ⟨p, hp, hg⟩ h
    have hmem : p ∈ membersOf m g := by
      simp [membersOf, hp, hg]
    have : 0 < (membersOf m g).length := List.length_pos_of_mem hmem
    simp only [countInGroup] at h
    omega

theorem exact_entries {db : OptimizedStudentDB} (hwf : WF db) (h : Exact db) (g : String) :
    ((∃ st, (g, st) ∈ db.groupStats) ↔ ∃ p ∈ db.studentsByEmail, p.2.m_group = g) ∧
    ∀ st, (g, st) ∈ db.groupStats →
      st.studentCount = countInGroup db.studentsByEmail g ∧
      st.totalRating = ratingInGroup db.studentsByEmail g := by
  have key : ∀ st, (g, st) ∈ db.groupStats →
      countInGroup db.studentsByEmail g ≠ 0 ∧ st = statOf db.studentsByEmail g := by
    intro st hst
    have hf := UMap.find_of_mem hwf.2 hst
    rw [h g] at hf
    by_cases hz : countInGroup db.studentsByEmail g = 0
    · simp [hz] at hf
    · simp only [if_neg hz, Option.some.injEq] at hf
      exact ⟨hz, hf.symm⟩
  refine ⟨⟨?_, ?_⟩, ?_⟩
  · rintro ⟨st, hst⟩
    exact (count_ne_zero_iff _ _).1 (key st hst).1
  · intro hex
    have hz := (count_ne_zero_iff _ _).2 hex
    refine ⟨statOf db.studentsByEmail g, UMap.mem_of_find ?_⟩
    rw [h g, if_neg hz]
  · intro st hst
    rw [(key st hst).2]
    exact ⟨rfl, rfl⟩

theorem ingestThenChange_inv (recs : List Student) (changes : List (String × String))
    (hd : (recs.map (fun r => r.m_email)).Nodup) :
    WF (ingestThenChange recs changes) ∧ Exact (ingestThenChange recs changes) := by
  unfold ingestThenChange
  constructor
  · exact run_wf _ _ empty_wf
  · rw [run_append, run_map_insert]
    apply run_exact
    · intro o ho
      obtain ⟨c, _, rfl⟩ := List.mem_map.1 ho
      rfl
    · exact foldl_insert_exact recs empty empty_exact (fun r _ => rfl) hd

/-- C4: in every store reached from an empty one by ingesting records with pairwise
distinct e-mails and then performing any `changeGroupByEmail` calls (scores being exact
rationals), `groupStats` has an entry for a label `g` exactly when some record of
`studentsByEmail` has `m_group = g`; for that entry `studentCount` is the number of such
records and `totalRating` the sum of their `m_rating`; and no label has two entries. -/
theorem groupStats_exact (recs : List Student) (changes : List (String × String))
    (hd : (recs.map (fun r => r.m_email)).Nodup) (g : String) :
    ((∃ st, (g, st) ∈ (ingestThenChange recs changes).groupStats) ↔
      ∃ p ∈ (ingestThenChange recs changes).studentsByEmail, p.2.m_group = g) ∧
    (∀ st, (g, st) ∈ (ingestThenChange recs changes).groupStats →
      st.studentCount = countInGroup (ingestThenChange recs changes).studentsByEmail g ∧
      st.totalRating = ratingInGroup (ingestThenChange recs changes).studentsByEmail g) ∧
    (UMap.keys (ingestThenChange recs changes).groupStats).Nodup := by
  obtain ⟨hwf, hex⟩ := ingestThenChange_inv recs changes hd
  exact ⟨(exact_entries hwf hex g).1, (exact_entries hwf hex g).2, hwf.2⟩

/-- Witness of C4: the aggregate scenario after moving B to G2, read at label G1. -/
theorem groupStats_exact_witness :
    (scenarioRecords.map (fun r => r.m_email)).Nodup ∧
    ((∃ st, ("G1", st) ∈ (ingestThenChange scenarioRecords [("B", "G2")]).groupStats) ↔
      ∃ p ∈ (ingestThenChange scenarioRecords [("B", "G2")]).studentsByEmail,
        p.2.m_group = "G1") ∧
    (∀ st, ("G1", st) ∈ (ingestThenChange scenarioRecords [("B", "G2")]).groupStats →
      st.studentCount =
        countInGroup (ingestThenChange scenarioRecords [("B", "G2")]).studentsByEmail "G1" ∧
      st.totalRating =
        ratingInGroup (ingestThenChange scenarioRecords [("B", "G2")]).studentsByEmail "G1") ∧
    (UMap.keys (ingestThenChange scenarioRecords [("B", "G2")]).groupStats).Nodup :=
  ⟨by decide, groupStats_exact scenarioRecords [("B", "G2")] (by decide) "G1"⟩

/-- C5 at its failing input: a file whose two data rows are the same line leaves one
record in `studentsByEmail` but a total `studentCount` of 2 in `groupStats`. -/
theorem totalCount_ne_studentCount_on_duplicate :
    totalCount (run empty (duplicateRows.map Op.insert)).groupStats = 2 ∧
    getStudentCount (run empty (duplicateRows.map Op.insert)) = 1 ∧
    totalCount (loadFromCSV empty (some duplicateRows)).groupStats = 2 ∧
    getStudentCount (loadFromCSV empty (some duplicateRows)) = 1 := by
  decide!

/-- C6: in every store reached from an empty one by any sequence of operations (insert
steps, repeated e-mails included, and `changeGroupByEmail` calls; whole loads, queries and
rebuilds may be mixed in as well), every entry of `groupStats` has `studentCount ≥ 1`: no
entry is kept at zero and none is negative. -/
theorem groupStats_count_pos (ops : List Op) :
    ∀ p ∈ (run empty ops).groupStats, 1 ≤ p.2.studentCount := by
  intro p hp
  exact mem_groupStats_pos (run_wf ops empty empty_wf)
    (run_pos ops empty empty_exact.pos) hp

/-- Witness of C6: after a repeated e-mail and a move that empties the old group, the
entry of G3 holds one record. -/
theorem groupStats_count_pos_witness :
    (("G3", { studentCount := 1, totalRating := 8 }) : String × GroupStats) ∈
      (run empty repeatedIdOps).groupStats ∧
    1 ≤ (("G3", { studentCount := 1, totalRating := 8 }) : String × GroupStats).2.studentCount :=
  ⟨by decide!, groupStats_count_pos repeatedIdOps _ (by decide!)⟩

end OptimizedStudentDB

/-! ### The naive count -/

namespace Hash

theorem countGroups_fold (m : List (String × Student)) :
    ∀ gc : List (String × Int), (UMap.keys gc).Nodup →
      (UMap.keys (m.foldl (fun gc p => UMap.update 0 (fun c => c + 1) gc p.2.m_group)
        gc)).Nodup ∧
      ∀ g, UMap.find (m.foldl (fun gc p => UMap.update 0 (fun c => c + 1) gc p.2.m_group) gc)
          g =
        if countInGroup m g = 0 then UMap.find gc g
        else some ((UMap.find gc g).getD 0 + countInGroup m g) := by
  induction m with
  | nil => intro gc h; exact ⟨h, fun g => by simp [countInGroup_nil]⟩
  | cons p rest ih =>
    obtain ⟨a, st⟩ := p
    intro gc h
    obtain ⟨h1, h2⟩ := ih (UMap.update 0 (fun c => c + 1) gc st.m_group)
      (UMap.nodup_update _ _ _ _ h)
    simp only [List.foldl_cons]
    refine ⟨h1, ?_⟩
    intro g
    rw [h2 g, UMap.find_update, countInGroup_cons]
    have hnn := countInGroup_nonneg rest g
    by_cases hg : st.m_group = g
    · subst hg
      rw [OptimizedStudentDB.countWeight_self]
      simp only [if_true]
      have hz : ¬ (1 + countInGroup rest st.m_group = 0) := by omega
      rw [if_neg hz]
      by_cases hr : countInGroup rest st.m_group = 0
      · simp [hr]
      · simp only [if_neg hr, Option.getD_some, Option.some.injEq]
        ring
    · rw [OptimizedStudentDB.countWeight_ne hg]
      simp only [if_neg hg, zero_add]

theorem countGroups_spec (m : List (String × Student)) :
    (UMap.keys (countGroups m)).Nodup ∧
    ∀ g, UMap.find (countGroups m) g =
      if countInGroup m g = 0 then none else some (countInGroup m g) := by
  obtain ⟨h1, h2⟩ := countGroups_fold m [] (by simp [UMap.keys])
  refine ⟨h1, ?_⟩
  intro g
  show UMap.find (m.foldl _ []) g = _
  rw [h2 g]
  simp [UMap.find]

/-- The naive scan returns a label carried by the most records. -/
theorem naive_label_max (m : List (String × Student)) (hne : m ≠ []) :
    ∀ g, countInGroup m g ≤ countInGroup m (findGroupWithMostStudents m) := by
  obtain ⟨hnd, hfind⟩ := countGroups_spec m
  have hscan := scan_spec (fun c : Int => c) (fun acc : String × Int => acc.2)
    (fun acc : String × Int => acc.1)
    (fun (acc : String × Int) pair => if pair.2 > acc.2 then (pair.1, pair.2) else acc)
    (by
      intro st p
      constructor
      · intro hlt
        simp [hlt]
      · intro hlt
        simp [hlt])
    (countGroups m) ("", 0)
  obtain ⟨_, hall, hlab⟩ := hscan
  simp only at hall hlab
  have hentry : ∀ g, countInGroup m g ≠ 0 → (g, countInGroup m g) ∈ countGroups m := by
    intro g hg
    apply UMap.mem_of_find
    rw [hfind g, if_neg hg]
  obtain ⟨p0, hp0⟩ := List.exists_mem_of_ne_nil _ hne
  have hpos0 : countInGroup m p0.2.m_group ≠ 0 :=
    (OptimizedStudentDB.count_ne_zero_iff m _).2 ⟨p0, hp0, rfl⟩
  have hnn0 := countInGroup_nonneg m p0.2.m_group
  have hM := hall _ (hentry _ hpos0)
  simp only at hM
  rcases hlab with ⟨e1, _⟩ | ⟨q, hq, e1, e2, _⟩
  · rw [e1] at hM
    omega
  · have hqf := UMap.find_of_mem hnd hq
    rw [hfind q.1] at hqf
    have hqc : countInGroup m q.1 = q.2 := by
      by_cases hz : countInGroup m q.1 = 0
      · simp [hz] at hqf
      · simpa [hz] using hqf
    intro g
    have hres : findGroupWithMostStudents m = q.1 := by
      unfold findGroupWithMostStudents
      exact e1.symm
    rw [hres, hqc, e2]
    by_cases hz : countInGroup m g = 0
    · rw [hz]
      omega
    · exact hall _ (hentry g hz)

end Hash

/-! ### Claims about the extremum queries and the cache -/

namespace OptimizedStudentDB

theorem isPublicCall_of_isChangeOrQuery {o : Op} (h : o.isChangeOrQuery = true) :
    o.isPublicCall = true := by
  cases o <;> simp_all [Op.isChangeOrQuery, Op.isPublicCall]

theorem built_inv (recs : List Student) (whole : Bool) (ops : List Op)
    (hd : (recs.map (fun r => r.m_email)).Nodup)
    (hops : ∀ o ∈ ops, o.isChangeOrQuery = true) :
    WF (built recs whole ops) ∧ Exact (built recs whole ops) ∧
      CacheInv (built recs whole ops) := by
  have hwf0 : WF (recs.foldl insertRecord empty) := foldl_insert_wf recs empty empty_wf
  have hex0 : Exact (recs.foldl insertRecord empty) :=
    foldl_insert_exact recs empty empty_exact (fun r _ => rfl) hd
  have hpub : ∀ o ∈ ops, o.isPublicCall = true :=
    fun o ho => isPublicCall_of_isChangeOrQuery (hops o ho)
  unfold built
  cases whole with
  | true =>
    simp only [if_true, loadFromCSV]
    have hwf1 := rebuildCache_wf _ hwf0
    have hex1 := rebuildCache_exact _ hex0
    exact ⟨run_wf ops _ hwf1, run_exact ops _ hops hex1,
      run_cacheInv ops _ hpub hwf1 hex1.pos (rebuildCache_cacheInv _ hwf0 hex0.pos)⟩
  | false =>
    simp only [Bool.false_eq_true, if_false, run_map_insert]
    refine ⟨run_wf ops _ hwf0, run_exact ops _ hops hex0,
      run_cacheInv ops _ hpub hwf0 hex0.pos ?_⟩
    intro hv
    rw [foldl_insert_cacheValid] at hv
    cases hv

/-- The state both extremum queries leave: same records, same index, a valid cache that
agrees with the index. -/
theorem query_inv (db : OptimizedStudentDB) (hwf : WF db) (hp : Pos db) (h : CacheInv db) :
    (findGroupWithMostStudents db).2 = (findGroupWithHighestRating db).2 ∧
    (findGroupWithMostStudents db).2.studentsByEmail = db.studentsByEmail ∧
    (findGroupWithMostStudents db).2.groupStats = db.groupStats ∧
    (findGroupWithMostStudents db).2.cacheValid = true ∧
    CountCacheOK (findGroupWithMostStudents db).2 ∧
    RatingCacheOK (findGroupWithMostStudents db).2 := by
  obtain ⟨h1, h2, _, _⟩ := query_state db
  rw [h1, h2]
  by_cases hv : db.cacheValid = true
  · simp only [if_pos hv]
    exact ⟨trivial, trivial, trivial, hv, (h hv).1, (h hv).2⟩
  · simp only [if_neg hv]
    obtain ⟨f1, f2, f3⟩ := rebuildCache_frame db
    have hc := rebuildCache_cacheInv db hwf hp f3
    exact ⟨trivial, f1, f2, f3, hc.1, hc.2⟩

theorem count_label_max {db : OptimizedStudentDB} (hwf : WF db) (hex : Exact db)
    (hc : CountCacheOK db) (hne : db.studentsByEmail ≠ []) :
    1 ≤ countInGroup db.studentsByEmail db.cachedMaxCountGroup ∧
    ∀ g, countInGroup db.studentsByEmail g ≤
      countInGroup db.studentsByEmail db.cachedMaxCountGroup := by
  obtain ⟨hall, _, hlab⟩ := hc
  obtain ⟨p0, hp0⟩ := List.exists_mem_of_ne_nil _ hne
  have hpos0 : countInGroup db.studentsByEmail p0.2.m_group ≠ 0 :=
    (count_ne_zero_iff _ _).2 ⟨p0, hp0, rfl⟩
  have hentry : ∀ g, countInGroup db.studentsByEmail g ≠ 0 →
      (g, statOf db.studentsByEmail g) ∈ db.groupStats := by
    intro g hg
    apply UMap.mem_of_find
    rw [hex g, if_neg hg]
  have hgne : db.groupStats ≠ [] := List.ne_nil_of_mem (hentry _ hpos0)
  obtain ⟨q, hq, e1, e2⟩ := hlab hgne
  have hqe := (exact_entries hwf hex q.1).2 q.2 hq
  have hq1 := mem_groupStats_pos hwf hex.pos hq
  rw [← e1]
  refine ⟨by omega, ?_⟩
  intro g
  by_cases hz : countInGroup db.studentsByEmail g = 0
  · rw [hz]; omega
  · have := hall _ (hentry g hz)
    simp only [statOf] at this
    omega

/-- C7: for every non-empty store built by ingesting records with pairwise distinct
e-mails (by insert steps or by a whole `loadFromCSV`) and then taken through any
`changeGroupByEmail` calls and extremum queries, the next `findGroupWithMostStudents()`
returns a label carried by at least one record and by at least as many records as every
other label; that number is the maximum the naive from-scratch count finds. -/
theorem findGroupWithMostStudents_max (recs : List Student) (whole : Bool) (ops : List Op)
    (hd : (recs.map (fun r => r.m_email)).Nodup)
    (hops : ∀ o ∈ ops, o.isChangeOrQuery = true)
    (hne : (built recs whole ops).studentsByEmail ≠ []) :
    1 ≤ countInGroup (built recs whole ops).studentsByEmail
      (findGroupWithMostStudents (built recs whole ops)).1 ∧
    (∀ g, countInGroup (built recs whole ops).studentsByEmail g ≤
      countInGroup (built recs whole ops).studentsByEmail
        (findGroupWithMostStudents (built recs whole ops)).1) ∧
    countInGroup (built recs whole ops).studentsByEmail
        (findGroupWithMostStudents (built recs whole ops)).1 =
      countInGroup (built recs whole ops).studentsByEmail
        (Hash.findGroupWithMostStudents (built recs whole ops).studentsByEmail) := by
  obtain ⟨hwf, hex, hci⟩ := built_inv recs whole ops hd hops
  obtain ⟨_, q1, q2, _, q4, _⟩ := query_inv _ hwf hex.pos hci
  have hwf' : WF (findGroupWithMostStudents (built recs whole ops)).2 := by
    unfold WF; rw [q1, q2]; exact hwf
  have hex' : Exact (findGroupWithMostStudents (built recs whole ops)).2 := by
    unfold Exact; rw [q1, q2]; exact hex
  have hmax := count_label_max hwf' hex' q4 (by rw [q1]; exact hne)
  rw [q1, ← (query_state _).2.2.1] at hmax
  refine ⟨hmax.1, hmax.2, le_antisymm ?_ (hmax.2 _)⟩
  exact Hash.naive_label_max _ hne _

/-- Witness of C7: the store A in G1 (8.0), B in G1 (4.0), C in G2 (9.0) answers "G1". -/
theorem findGroupWithMostStudents_max_witness :
    (findGroupWithMostStudents (built scenarioRecords false [])).1 = "G1" ∧
    1 ≤ countInGroup (built scenarioRecords false []).studentsByEmail
      (findGroupWithMostStudents (built scenarioRecords false [])).1 ∧
    (∀ g, countInGroup (built scenarioRecords false []).studentsByEmail g ≤
      countInGroup (built scenarioRecords false []).studentsByEmail
        (findGroupWithMostStudents (built scenarioRecords false [])).1) ∧
    countInGroup (built scenarioRecords false []).studentsByEmail
        (findGroupWithMostStudents (built scenarioRecords false [])).1 =
      countInGroup (built scenarioRecords false []).studentsByEmail
        (Hash.findGroupWithMostStudents (built scenarioRecords false []).studentsByEmail) :=
  ⟨by decide!, findGroupWithMostStudents_max scenarioRecords false [] (by decide)
    (by decide) (by decide)⟩

end OptimizedStudentDB

namespace OptimizedStudentDB

theorem average_of_entry {db : OptimizedStudentDB} (hwf : WF db) (hex : Exact db)
    {p : String × GroupStats} (hp : p ∈ db.groupStats) :
    p.2.getAverageRating = averageInGroup db.studentsByEmail p.1 := by
  have hpos := mem_groupStats_pos hwf hex.pos hp
  obtain ⟨h1, h2⟩ := (exact_entries hwf hex p.1).2 p.2 hp
  unfold GroupStats.getAverageRating averageInGroup
  rw [if_pos (by omega), h1, h2]

theorem rating_label_max {db : OptimizedStudentDB} (hwf : WF db) (hex : Exact db)
    (hr : RatingCacheOK db)
    (hpos : ∃ g0, 0 < averageInGroup db.studentsByEmail g0) :
    1 ≤ countInGroup db.studentsByEmail db.cachedMaxRatingGroup ∧
    ∀ g, 1 ≤ countInGroup db.studentsByEmail g →
      averageInGroup db.studentsByEmail g ≤
        averageInGroup db.studentsByEmail db.cachedMaxRatingGroup := by
  obtain ⟨hall, hlab⟩ := hr
  have hentry : ∀ g, countInGroup db.studentsByEmail g ≠ 0 →
      (g, statOf db.studentsByEmail g) ∈ db.groupStats := by
    intro g hg
    apply UMap.mem_of_find
    rw [hex g, if_neg hg]
  obtain ⟨g0, hg0⟩ := hpos
  have hc0 : countInGroup db.studentsByEmail g0 ≠ 0 := by
    intro hz
    simp [averageInGroup, hz] at hg0
  have hm0 := hentry g0 hc0
  obtain ⟨q, hq, e1, e2⟩ := hlab ⟨_, hm0, by rw [average_of_entry hwf hex hm0]; exact hg0⟩
  have hq1 := mem_groupStats_pos hwf hex.pos hq
  have hqe := (exact_entries hwf hex q.1).2 q.2 hq
  rw [← e1]
  refine ⟨by omega, ?_⟩
  intro g hg
  have hm := hentry g (by omega)
  have h1 := hall _ hm
  rw [average_of_entry hwf hex hm, ← e2, average_of_entry hwf hex hq] at h1
  exact h1

/-- C8 as stated fails: a store whose only record has score 0 (or a negative score) makes
`findGroupWithHighestRating()` return the empty label, which no record carries. -/
theorem findGroupWithHighestRating_counterexample :
    ((zeroScoreRecords.map (fun r => r.m_email)).Nodup ∧
      (built zeroScoreRecords false []).studentsByEmail ≠ [] ∧
      (findGroupWithHighestRating (built zeroScoreRecords false [])).1 = "" ∧
      ¬ 1 ≤ countInGroup (built zeroScoreRecords false []).studentsByEmail
        (findGroupWithHighestRating (built zeroScoreRecords false [])).1) ∧
    ((negativeScoreRecords.map (fun r => r.m_email)).Nodup ∧
      (built negativeScoreRecords false []).studentsByEmail ≠ [] ∧
      (findGroupWithHighestRating (built negativeScoreRecords false [])).1 = "" ∧
      ¬ 1 ≤ countInGroup (built negativeScoreRecords false []).studentsByEmail
        (findGroupWithHighestRating (built negativeScoreRecords false [])).1) := by
  decide!

/-- C8 amended: for every store built by ingesting records with pairwise distinct e-mails
and then taken through any `changeGroupByEmail` calls and extremum queries, if some group
currently has a strictly positive average score, the next `findGroupWithHighestRating()`
returns the label of a group with at least one member whose from-scratch average is greater
than or equal to the average of every other group with a member. -/
theorem findGroupWithHighestRating_max (recs : List Student) (whole : Bool) (ops : List Op)
    (hd : (recs.map (fun r => r.m_email)).Nodup)
    (hops : ∀ o ∈ ops, o.isChangeOrQuery = true)
    (hpos : ∃ g0, 0 < averageInGroup (built recs whole ops).studentsByEmail g0) :
    1 ≤ countInGroup (built recs whole ops).studentsByEmail
      (findGroupWithHighestRating (built recs whole ops)).1 ∧
    ∀ g, 1 ≤ countInGroup (built recs whole ops).studentsByEmail g →
      averageInGroup (built recs whole ops).studentsByEmail g ≤
        averageInGroup (built recs whole ops).studentsByEmail
          (findGroupWithHighestRating (built recs whole ops)).1 := by
  obtain ⟨hwf, hex, hci⟩ := built_inv recs whole ops hd hops
  obtain ⟨q0, q1, q2, _, _, q5⟩ := query_inv _ hwf hex.pos hci
  have hwf' : WF (findGroupWithMostStudents (built recs whole ops)).2 := by
    unfold WF; rw [q1, q2]; exact hwf
  have hex' : Exact (findGroupWithMostStudents (built recs whole ops)).2 := by
    unfold Exact; rw [q1, q2]; exact hex
  have hmax := rating_label_max hwf' hex' q5 (by rw [q1]; exact hpos)
  rw [q1, q0, ← (query_state _).2.2.2] at hmax
  exact hmax

/-- Witness of C8 amended: the store A in G1 (8.0), B in G1 (4.0), C in G2 (9.0) answers
"G2". -/
theorem findGroupWithHighestRating_max_witness :
    (findGroupWithHighestRating (built scenarioRecords true [])).1 = "G2" ∧
    1 ≤ countInGroup (built scenarioRecords true []).studentsByEmail
      (findGroupWithHighestRating (built scenarioRecords true [])).1 ∧
    ∀ g, 1 ≤ countInGroup (built scenarioRecords true []).studentsByEmail g →
      averageInGroup (built scenarioRecords true []).studentsByEmail g ≤
        averageInGroup (built scenarioRecords true []).studentsByEmail
          (findGroupWithHighestRating (built scenarioRecords true [])).1 :=
  ⟨by decide!, findGroupWithHighestRating_max scenarioRecords true [] (by decide)
    (by decide) ⟨"G2", by decide!⟩⟩

/-- C9: in every state reached from a freshly constructed store by whole `loadFromCSV`
calls, `changeGroupByEmail` calls and the two extremum queries, if `cacheValid` is true then
`cachedMaxCount` is the maximum `studentCount` over the entries of `groupStats` (0 if there
are none) and, when `groupStats` is non-empty, `cachedMaxCountGroup` is a key of
`groupStats` whose `studentCount` is that maximum. -/
theorem cache_count_valid (ops : List Op) (hops : ∀ o ∈ ops, o.isPublicCall = true)
    (hv : (run empty ops).cacheValid = true) :
    (∀ p ∈ (run empty ops).groupStats, p.2.studentCount ≤ (run empty ops).cachedMaxCount) ∧
    ((run empty ops).groupStats = [] → (run empty ops).cachedMaxCount = 0) ∧
    ((run empty ops).groupStats ≠ [] →
      ∃ p ∈ (run empty ops).groupStats, p.1 = (run empty ops).cachedMaxCountGroup ∧
        p.2.studentCount = (run empty ops).cachedMaxCount) := by
  have hci : CacheInv (run empty ops) :=
    run_cacheInv ops empty hops empty_wf empty_exact.pos (by intro h; cases h)
  exact (hci hv).1

/-- Witness of C9: a whole load, a move that invalidates, and a query that rebuilds. -/
theorem cache_count_valid_witness :
    (∀ o ∈ publicCalls, o.isPublicCall = true) ∧
    (run empty publicCalls).cacheValid = true ∧
    (∀ p ∈ (run empty publicCalls).groupStats,
      p.2.studentCount ≤ (run empty publicCalls).cachedMaxCount) ∧
    ((run empty publicCalls).groupStats = [] → (run empty publicCalls).cachedMaxCount = 0) ∧
    ((run empty publicCalls).groupStats ≠ [] →
      ∃ p ∈ (run empty publicCalls).groupStats,
        p.1 = (run empty publicCalls).cachedMaxCountGroup ∧
        p.2.studentCount = (run empty publicCalls).cachedMaxCount) :=
  ⟨by decide, by decide!, cache_count_valid publicCalls (by decide) (by decide!)⟩

/-- C10 as stated fails: a `changeGroupByEmail` call that returns true because the record
is already in the requested group leaves a valid cache valid, and a completed
`loadFromCSV` leaves `cacheValid` true. -/
theorem mutation_invalidates_counterexample :
    (changeGroupByEmail (loadFromCSV empty (some scenarioRecords)) "A" "G1").1 = true ∧
    (changeGroupByEmail (loadFromCSV empty (some scenarioRecords)) "A" "G1").2.cacheValid
      = true ∧
    (loadFromCSV empty (some scenarioRecords)).cacheValid = true := by
  decide!

/-- C10 amended: a `changeGroupByEmail` call that moves a present record to a different
group returns true and leaves `cacheValid` false; a call naming the group the record is
already in returns true and leaves the whole state as it was; the per-record ingestion step
does not touch `cacheValid`, and a `loadFromCSV` call on an opened file ends with
`cacheValid` true. -/
theorem mutation_cache_flag (db : OptimizedStudentDB) (email newGroup : String)
    (st : Student) (hf : UMap.find db.studentsByEmail email = some st) :
    (st.m_group ≠ newGroup →
      (changeGroupByEmail db email newGroup).1 = true ∧
      (changeGroupByEmail db email newGroup).2.cacheValid = false) ∧
    (st.m_group = newGroup → changeGroupByEmail db email newGroup = (true, db)) ∧
    (∀ s : Student, (insertRecord db s).cacheValid = db.cacheValid) ∧
    (∀ rows : List Student, (loadFromCSV db (some rows)).cacheValid = true) := by
  refine ⟨?_, ?_, ?_, ?_⟩
  · intro hg
    obtain ⟨h1, h2, _⟩ := changeGroupByEmail_move db email newGroup st hf hg
    exact ⟨h1, h2⟩
  · intro hg
    exact changeGroupByEmail_same db email newGroup st hf hg
  · intro s
    rfl
  · intro rows
    exact (rebuildCache_frame _).2.2

/-- Witness of C10 amended: moving B of the loaded scenario to G2. -/
theorem mutation_cache_flag_witness :
    UMap.find (loadFromCSV empty (some scenarioRecords)).studentsByEmail "B" =
      some (mkStudent "B" 2 2 "G1" 4) ∧
    (changeGroupByEmail (loadFromCSV empty (some scenarioRecords)) "B" "G2").2.cacheValid
      = false ∧
    ((mkStudent "B" 2 2 "G1" 4).m_group ≠ "G2" →
      (changeGroupByEmail (loadFromCSV empty (some scenarioRecords)) "B" "G2").1 = true ∧
      (changeGroupByEmail (loadFromCSV empty (some scenarioRecords)) "B" "G2").2.cacheValid
        = false) ∧
    ((mkStudent "B" 2 2 "G1" 4).m_group = "G2" →
      changeGroupByEmail (loadFromCSV empty (some scenarioRecords)) "B" "G2" =
        (true, loadFromCSV empty (some scenarioRecords))) ∧
    (∀ s : Student, (insertRecord (loadFromCSV empty (some scenarioRecords)) s).cacheValid =
      (loadFromCSV empty (some scenarioRecords)).cacheValid) ∧
    (∀ rows : List Student,
      (loadFromCSV (loadFromCSV empty (some scenarioRecords)) (some rows)).cacheValid = true) :=
  ⟨by decide!, by decide!,
    mutation_cache_flag (loadFromCSV empty (some scenarioRecords)) "B" "G2"
      (mkStudent "B" 2 2 "G1" 4) (by decide!)⟩

end OptimizedStudentDB

/-! ### Claims about `changeGroupByEmail` -/

theorem vec_changeGroupByEmail_absent (v : List Student) (email newGroup : String)
    (h : ∀ s ∈ v, s.m_email ≠ email) : Vec.changeGroupByEmail v email newGroup = (false, v) := by
  induction v with
  | nil => rfl
  | cons s rest ih =>
    have hs : s.m_email ≠ email := h s (List.mem_cons_self _ _)
    have hr := ih (fun t ht => h t (List.mem_cons_of_mem _ ht))
    simp [Vec.changeGroupByEmail, hs, hr]

/-- C11: for every store state and every e-mail that is not a key of `studentsByEmail`,
`changeGroupByEmail(email, newGroup)` returns false and leaves the whole state as it was
(records, index with no entry created for `newGroup`, cached labels and values, flag); the
naive hash and vector `changeGroupByEmail` likewise return false and leave the collection
unchanged. -/
theorem changeGroupByEmail_absent_unchanged (db : OptimizedStudentDB)
    (table : List (String × Student)) (v : List Student) (email newGroup : String)
    (hdb : email ∉ UMap.keys db.studentsByEmail) (htable : email ∉ UMap.keys table)
    (hv : ∀ s ∈ v, s.m_email ≠ email) :
    OptimizedStudentDB.changeGroupByEmail db email newGroup = (false, db) ∧
    Hash.changeGroupByEmail table email newGroup = (false, table) ∧
    Vec.changeGroupByEmail v email newGroup = (false, v) := by
  refine ⟨?_, ?_, vec_changeGroupByEmail_absent v email newGroup hv⟩
  · exact OptimizedStudentDB.changeGroupByEmail_none db email newGroup
      ((UMap.find_eq_none_iff _ _).2 hdb)
  · simp [Hash.changeGroupByEmail, (UMap.find_eq_none_iff _ _).2 htable]

/-- Witness of C11: the scenario `moveGroup("missing-id", "X")`. -/
theorem changeGroupByEmail_absent_unchanged_witness :
    OptimizedStudentDB.changeGroupByEmail OptimizedStudentDB.scenarioDB "missing-id" "X" =
      (false, OptimizedStudentDB.scenarioDB) ∧
    Hash.changeGroupByEmail OptimizedStudentDB.scenarioDB.studentsByEmail "missing-id" "X" =
      (false, OptimizedStudentDB.scenarioDB.studentsByEmail) ∧
    Vec.changeGroupByEmail OptimizedStudentDB.scenarioRecords "missing-id" "X" =
      (false, OptimizedStudentDB.scenarioRecords) :=
  changeGroupByEmail_absent_unchanged OptimizedStudentDB.scenarioDB
    OptimizedStudentDB.scenarioDB.studentsByEmail OptimizedStudentDB.scenarioRecords
    "missing-id" "X" (by decide!) (by decide!) (by decide)

namespace OptimizedStudentDB

/-- C12: for every store state and every e-mail present in `studentsByEmail` whose record
already has `m_group = newGroup`, `changeGroupByEmail(email, newGroup)` returns true and
leaves `studentsByEmail`, `groupStats` and all cache fields, `cacheValid` included, exactly
as they were. -/
theorem changeGroupByEmail_same_group_noop (db : OptimizedStudentDB)
    (email newGroup : String) (st : Student)
    (hf : UMap.find db.studentsByEmail email = some st) (hg : st.m_group = newGroup) :
    changeGroupByEmail db email newGroup = (true, db) := by
  simp [changeGroupByEmail, hf, hg]

/-- Witness of C12: moving A of the loaded scenario to the group it is in. -/
theorem changeGroupByEmail_same_group_noop_witness :
    UMap.find scenarioDB.studentsByEmail "A" = some (mkStudent "A" 1 1 "G1" 8) ∧
    changeGroupByEmail scenarioDB "A" "G1" = (true, scenarioDB) :=
  ⟨by decide!, changeGroupByEmail_same_group_noop scenarioDB "A" "G1" (mkStudent "A" 1 1 "G1" 8)
    (by decide!) (by decide)⟩

theorem mem_keys_of_find {V : Type} {m : List (String × V)} {k : String} {v : V}
    (h : UMap.find m k = some v) : k ∈ UMap.keys m := by
  by_contra hk
  rw [(UMap.find_eq_none_iff m k).2 hk] at h
  cases h

/-- C14: for every store state and every present e-mail, `changeGroupByEmail(email,
newGroup)` returns true and changes in `studentsByEmail` only the `m_group` field of that
one record, which becomes `newGroup`: the other fields of the record, every other record,
the identifiers (and their order) and `getStudentCount()` are unchanged. -/
theorem changeGroupByEmail_store_frame (db : OptimizedStudentDB) (email newGroup : String)
    (st : Student) (hf : UMap.find db.studentsByEmail email = some st) :
    (changeGroupByEmail db email newGroup).1 = true ∧
    UMap.find (changeGroupByEmail db email newGroup).2.studentsByEmail email =
      some { st with m_group := newGroup } ∧
    (∀ e, e ≠ email →
      UMap.find (changeGroupByEmail db email newGroup).2.studentsByEmail e =
        UMap.find db.studentsByEmail e) ∧
    UMap.keys (changeGroupByEmail db email newGroup).2.studentsByEmail =
      UMap.keys db.studentsByEmail ∧
    getStudentCount (changeGroupByEmail db email newGroup).2 = getStudentCount db := by
  by_cases hg : st.m_group = newGroup
  · rw [changeGroupByEmail_same db email newGroup st hf hg]
    refine ⟨rfl, ?_, fun _ _ => rfl, rfl, rfl⟩
    rw [hf, ← hg]
  · obtain ⟨h1, _, hs, _⟩ := changeGroupByEmail_move db email newGroup st hf hg
    have hk : UMap.keys (changeGroupByEmail db email newGroup).2.studentsByEmail =
        UMap.keys db.studentsByEmail := by
      rw [hs, UMap.keys_update, if_pos (mem_keys_of_find hf)]
    refine ⟨h1, ?_, ?_, hk, ?_⟩
    · rw [hs, UMap.find_update, if_pos rfl, hf]
      rfl
    · intro e he
      rw [hs, UMap.find_update, if_neg (Ne.symm he)]
    · have := congrArg List.length hk
      simp only [UMap.keys, List.length_map] at this
      simp only [getStudentCount, this]

/-- Witness of C14: moving B of the loaded scenario to G2. -/
theorem changeGroupByEmail_store_frame_witness :
    UMap.find scenarioDB.studentsByEmail "B" = some (mkStudent "B" 2 2 "G1" 4) ∧
    (changeGroupByEmail scenarioDB "B" "G2").1 = true ∧
    UMap.find (changeGroupByEmail scenarioDB "B" "G2").2.studentsByEmail "B" =
      some { mkStudent "B" 2 2 "G1" 4 with m_group := "G2" } ∧
    (∀ e, e ≠ "B" →
      UMap.find (changeGroupByEmail scenarioDB "B" "G2").2.studentsByEmail e =
        UMap.find scenarioDB.studentsByEmail e) ∧
    UMap.keys (changeGroupByEmail scenarioDB "B" "G2").2.studentsByEmail =
      UMap.keys scenarioDB.studentsByEmail ∧
    getStudentCount (changeGroupByEmail scenarioDB "B" "G2").2 = getStudentCount scenarioDB :=
  ⟨by decide!, changeGroupByEmail_store_frame scenarioDB "B" "G2" (mkStudent "B" 2 2 "G1" 4)
    (by decide!)⟩

/-- C15: for every store state, e-mail and group `g`, a second `changeGroupByEmail(email,
g)` right after the first returns the same boolean and leaves the state (`groupStats`,
`studentsByEmail` and every other field) as the first call left it. -/
theorem changeGroupByEmail_idempotent (db : OptimizedStudentDB) (email g : String) :
    changeGroupByEmail (changeGroupByEmail db email g).2 email g =
      ((changeGroupByEmail db email g).1, (changeGroupByEmail db email g).2) := by
  cases hf : UMap.find db.studentsByEmail email with
  | none =>
    rw [changeGroupByEmail_none db email g hf]
    exact changeGroupByEmail_none db email g hf
  | some st =>
    by_cases hg : st.m_group = g
    · rw [changeGroupByEmail_same db email g st hf hg]
      exact changeGroupByEmail_same db email g st hf hg
    · obtain ⟨h1, _, hs, _⟩ := changeGroupByEmail_move db email g st hf hg
      have hf2 : UMap.find (changeGroupByEmail db email g).2.studentsByEmail email =
          some { st with m_group := g } := by
        rw [hs, UMap.find_update, if_pos rfl, hf]
        rfl
      rw [changeGroupByEmail_same _ email g _ hf2 rfl, h1]

/-- C19: `GroupStats::getAverageRating` returns `totalRating / studentCount` (exact
rational division) whenever `studentCount > 0`, and 0 when `studentCount` is 0 (or
negative): the division is never reached with a zero divisor. -/
theorem getAverageRating_spec (g : GroupStats) :
    (0 < g.studentCount → g.getAverageRating = g.totalRating / (g.studentCount : ℚ)) ∧
    (g.studentCount = 0 → g.getAverageRating = 0) ∧
    (g.studentCount ≤ 0 → g.getAverageRating = 0) := by
  unfold GroupStats.getAverageRating
  refine ⟨?_, ?_, ?_⟩
  · intro h
    rw [if_pos h]
  · intro h
    rw [if_neg (by omega)]
  · intro h
    rw [if_neg (by omega)]

/-- Witness of C19: count 2 and sum 13 give 13/2; count 0 gives 0. -/
theorem getAverageRating_spec_witness :
    ((0 : Int) < ({ studentCount := 2, totalRating := 13 } : GroupStats).studentCount ∧
      ({ studentCount := 2, totalRating := 13 } : GroupStats).getAverageRating = 13 / 2) ∧
    (({ studentCount := 0, totalRating := 5 } : GroupStats).studentCount = 0 ∧
      ({ studentCount := 0, totalRating := 5 } : GroupStats).getAverageRating = 0) :=
  ⟨⟨by decide, by
      have h := (getAverageRating_spec { studentCount := 2, totalRating := 13 }).1 (by decide)
      rw [h]; norm_num⟩,
    ⟨rfl, (getAverageRating_spec { studentCount := 0, totalRating := 5 }).2.1 rfl⟩⟩

end OptimizedStudentDB

namespace OptimizedStudentDB

/-- C13: in every state reached from an empty store by any sequence of operations, for a
present e-mail whose record has group `oldGroup ≠ newGroup` and score `r`, after
`changeGroupByEmail(email, newGroup)` the entry of `oldGroup` (which existed, with a count
of at least 1) has `studentCount` one less and `totalRating` less by `r`, and is absent if
that count became 0; the entry of `newGroup` is `(1, r)` if there was none, otherwise its
count is one more and its sum greater by `r`; the entries of all other groups are
unchanged. -/
theorem changeGroupByEmail_index_update (ops : List Op) (email newGroup : String)
    (st : Student) (hf : UMap.find (run empty ops).studentsByEmail email = some st)
    (hg : st.m_group ≠ newGroup) :
    ∃ old, UMap.find (run empty ops).groupStats st.m_group = some old ∧
      1 ≤ old.studentCount ∧
      UMap.find (changeGroupByEmail (run empty ops) email newGroup).2.groupStats st.m_group =
        (if old.studentCount - 1 = 0 then none
         else some { studentCount := old.studentCount - 1,
                     totalRating := old.totalRating - st.m_rating }) ∧
      (UMap.find (run empty ops).groupStats newGroup = none →
        UMap.find (changeGroupByEmail (run empty ops) email newGroup).2.groupStats newGroup =
          some { studentCount := 1, totalRating := st.m_rating }) ∧
      (∀ n, UMap.find (run empty ops).groupStats newGroup = some n →
        UMap.find (changeGroupByEmail (run empty ops) email newGroup).2.groupStats newGroup =
          some { studentCount := n.studentCount + 1,
                 totalRating := n.totalRating + st.m_rating }) ∧
      ∀ g, g ≠ st.m_group → g ≠ newGroup →
        UMap.find (changeGroupByEmail (run empty ops) email newGroup).2.groupStats g =
          UMap.find (run empty ops).groupStats g := by
  have hp : Pos (run empty ops) := run_pos ops empty empty_exact.pos
  obtain ⟨_, _, _, _, _, _, _, hgs⟩ :=
    changeGroupByEmail_move (run empty ops) email newGroup st hf hg
  have hcount := count_pos_of_find hf
  cases hold : UMap.find (run empty ops).groupStats st.m_group with
  | none =>
    have := (hp st.m_group).2 hold
    omega
  | some old =>
    have he : entry (run empty ops).groupStats st.m_group = old := entry_of_find_some hold
    refine ⟨old, rfl, ((hp st.m_group).1 old hold).1, ?_, ?_, ?_, ?_⟩
    · rw [hgs, if_neg (Ne.symm hg), if_pos rfl, he]
    · intro hn
      rw [hgs, if_pos rfl, entry_of_find_none hn]
      simp
    · intro n hn
      rw [hgs, if_pos rfl, entry_of_find_some hn]
    · intro g h1 h2
      rw [hgs, if_neg (Ne.symm h2), if_neg (Ne.symm h1)]

/-- Witness of C13: on A in G1 (8.0), B in G1 (4.0), C in G2 (9.0), moving B to G2 leaves
G1 = (1, 8.0) and G2 = (2, 13.0). -/
theorem changeGroupByEmail_index_update_witness :
    UMap.find (changeGroupByEmail (run empty (scenarioRecords.map Op.insert)) "B" "G2").2.groupStats
      "G1" = some { studentCount := 1, totalRating := 8 } ∧
    UMap.find (changeGroupByEmail (run empty (scenarioRecords.map Op.insert)) "B" "G2").2.groupStats
      "G2" = some { studentCount := 2, totalRating := 13 } ∧
    ∃ old, UMap.find (run empty (scenarioRecords.map Op.insert)).groupStats
        (mkStudent "B" 2 2 "G1" 4).m_group = some old ∧
      1 ≤ old.studentCount ∧
      UMap.find (changeGroupByEmail (run empty (scenarioRecords.map Op.insert)) "B"
          "G2").2.groupStats (mkStudent "B" 2 2 "G1" 4).m_group =
        (if old.studentCount - 1 = 0 then none
         else some { studentCount := old.studentCount - 1,
                     totalRating := old.totalRating - (mkStudent "B" 2 2 "G1" 4).m_rating }) ∧
      (UMap.find (run empty (scenarioRecords.map Op.insert)).groupStats "G2" = none →
        UMap.find (changeGroupByEmail (run empty (scenarioRecords.map Op.insert)) "B"
            "G2").2.groupStats "G2" =
          some { studentCount := 1, totalRating := (mkStudent "B" 2 2 "G1" 4).m_rating }) ∧
      (∀ n, UMap.find (run empty (scenarioRecords.map Op.insert)).groupStats "G2" = some n →
        UMap.find (changeGroupByEmail (run empty (scenarioRecords.map Op.insert)) "B"
            "G2").2.groupStats "G2" =
          some { studentCount := n.studentCount + 1,
                 totalRating := n.totalRating + (mkStudent "B" 2 2 "G1" 4).m_rating }) ∧
      ∀ g, g ≠ (mkStudent "B" 2 2 "G1" 4).m_group → g ≠ "G2" →
        UMap.find (changeGroupByEmail (run empty (scenarioRecords.map Op.insert)) "B"
            "G2").2.groupStats g =
          UMap.find (run empty (scenarioRecords.map Op.insert)).groupStats g :=
  ⟨by decide!, by decide!,
    changeGroupByEmail_index_update (scenarioRecords.map Op.insert) "B" "G2"
      (mkStudent "B" 2 2 "G1" 4) (by decide!) (by decide)⟩

/-! ### Queries on a store without groups -/

theorem update_ne_nil {V : Type} (d : V) (f : V → V) (m : List (String × V)) (k : String) :
    UMap.update d f m k ≠ [] := by
  cases m with
  | nil => simp [UMap.update]
  | cons p rest =>
    obtain ⟨a, v⟩ := p
    simp only [UMap.update]
    split <;> simp

theorem insertRecord_groupStats_ne_nil (db : OptimizedStudentDB) (s : Student) :
    (insertRecord db s).groupStats ≠ [] :=
  update_ne_nil _ _ _ _

theorem foldl_insert_groupStats_ne_nil (rows : List Student) :
    ∀ db : OptimizedStudentDB, rows ≠ [] → (rows.foldl insertRecord db).groupStats ≠ [] := by
  induction rows with
  | nil => intro db h; exact absurd rfl h
  | cons r rest ih =>
    intro db _
    cases rest with
    | nil => exact insertRecord_groupStats_ne_nil db r
    | cons r2 rest2 => exact ih (insertRecord db r) (by simp)

theorem rebuildCache_noGroupNoLabel (db : OptimizedStudentDB) (h : NoGroupNoLabel db) :
    NoGroupNoLabel (rebuildCache db) := by
  intro hnil
  obtain ⟨_, hgs, _⟩ := rebuildCache_frame db
  rw [hgs] at hnil
  have hl := h hnil
  simp only [rebuildCache, hnil, List.foldl_nil]
  exact hl

theorem step_noGroupNoLabel (db : OptimizedStudentDB) (o : Op) (h : NoGroupNoLabel db) :
    NoGroupNoLabel (step db o) := by
  cases o with
  | insert s =>
    intro hnil
    exact absurd hnil (insertRecord_groupStats_ne_nil db s)
  | load file =>
    cases file with
    | none => exact h
    | some rows =>
      cases rows with
      | nil => exact rebuildCache_noGroupNoLabel db h
      | cons r rest =>
        intro hnil
        rw [show step db (Op.load (some (r :: rest))) =
          rebuildCache ((r :: rest).foldl insertRecord db) from rfl,
          (rebuildCache_frame _).2.1] at hnil
        exact absurd hnil (foldl_insert_groupStats_ne_nil (r :: rest) db (by simp))
  | change e g =>
    show NoGroupNoLabel (changeGroupByEmail db e g).2
    cases hf : UMap.find db.studentsByEmail e with
    | none => rw [changeGroupByEmail_none db e g hf]; exact h
    | some st =>
      by_cases hg : st.m_group = g
      · rw [changeGroupByEmail_same db e g st hf hg]; exact h
      · intro hnil
        have hfind := (changeGroupByEmail_move db e g st hf hg).2.2.2.2.2.2.2 g
        rw [hnil, if_pos rfl] at hfind
        simp [UMap.find] at hfind
  | findMost =>
    show NoGroupNoLabel (findGroupWithMostStudents db).2
    rw [(query_state db).1]
    split
    · exact h
    · exact rebuildCache_noGroupNoLabel db h
  | findHighest =>
    show NoGroupNoLabel (findGroupWithHighestRating db).2
    rw [(query_state db).2.1]
    split
    · exact h
    · exact rebuildCache_noGroupNoLabel db h
  | rebuild => exact rebuildCache_noGroupNoLabel db h

theorem run_noGroupNoLabel (ops : List Op) :
    ∀ db : OptimizedStudentDB, NoGroupNoLabel db → NoGroupNoLabel (run db ops) := by
  induction ops with
  | nil => intro db h; exact h
  | cons o rest ih => intro db h; exact ih _ (step_noGroupNoLabel db o h)

/-- C18: on a store with zero groups (freshly constructed, after loading a file with no
valid data row, or after any other operations that left `groupStats` empty),
`findGroupWithMostStudents()` and `findGroupWithHighestRating()` both return the empty
label; the naive hash and vector `findGroupWithMostStudents` /
`findGroupWithHighestRating` return the empty label on an empty collection as well. None of
them can fail. -/
theorem queries_on_no_groups (ops : List Op) (h : (run empty ops).groupStats = []) :
    (findGroupWithMostStudents (run empty ops)).1 = "" ∧
    (findGroupWithHighestRating (run empty ops)).1 = "" ∧
    Hash.findGroupWithMostStudents [] = "" ∧ Hash.findGroupWithHighestRating [] = "" ∧
    Vec.findGroupWithMostStudents [] = "" ∧ Vec.findGroupWithHighestRating [] = "" := by
  have hinv : NoGroupNoLabel (run empty ops) :=
    run_noGroupNoLabel ops empty (fun _ => ⟨rfl, rfl⟩)
  have h1 := step_noGroupNoLabel (run empty ops) Op.findMost hinv
  have h2 := step_noGroupNoLabel (run empty ops) Op.findHighest hinv
  have g1 : (findGroupWithMostStudents (run empty ops)).2.groupStats = [] := by
    rw [(query_state _).1]
    split
    · exact h
    · rw [(rebuildCache_frame _).2.1]; exact h
  have g2 : (findGroupWithHighestRating (run empty ops)).2.groupStats = [] := by
    rw [(query_state _).2.1]
    split
    · exact h
    · rw [(rebuildCache_frame _).2.1]; exact h
  refine ⟨?_, ?_, rfl, rfl, rfl, rfl⟩
  · rw [(query_state _).2.2.1]
    exact (h1 g1).1
  · rw [(query_state _).2.2.2]
    exact (h2 g2).2

/-- Witness of C18: a fresh store that loaded a file with no valid data row. -/
theorem queries_on_no_groups_witness :
    (run empty [Op.load (some [])]).groupStats = [] ∧
    (findGroupWithMostStudents (run empty [Op.load (some [])])).1 = "" ∧
    (findGroupWithHighestRating (run empty [Op.load (some [])])).1 = "" ∧
    Hash.findGroupWithMostStudents [] = "" ∧ Hash.findGroupWithHighestRating [] = "" ∧
    Vec.findGroupWithMostStudents [] = "" ∧ Vec.findGroupWithHighestRating [] = "" :=
  ⟨rfl, queries_on_no_groups [Op.load (some [])] rfl⟩

end OptimizedStudentDB

/-! ### The radix sort on keys inside the bucket arrays -/

theorem mem_gather {key : Student → Int} {l : List Student} {lo cnt : Nat} {s : Student}
    (h : s ∈ gather key l lo cnt) : s ∈ l := by
  have := (gather_perm_band key l lo cnt).mem_iff.1 h
  exact (List.mem_filter.1 this).1

theorem mem_leftBy {key : Student → Int} {nb : Nat} {l : List Student} {s : Student}
    (h : s ∈ leftBy key nb l) : s ∈ l := by
  rcases List.mem_append.1 h with h1 | h2
  · exact mem_gather h1
  · exact List.mem_of_mem_drop h2

theorem length_leftBy (key : Student → Int) (nb : Nat) (l : List Student) :
    (leftBy key nb l).length = l.length := by
  have := gather_length_le key l 1 (nb - 1)
  simp only [leftBy, List.length_append, List.length_drop]
  omega

theorem radixSort_inBuckets (l : List Student) (h : InBuckets l) :
    radixSort l = some (leftBy (fun s => s.m_birth_month) 13 (leftBy (fun s => s.m_birth_day) 32 l))
    ∧ radixSortByBirthday l =
      some (leftBy (fun s => s.m_birth_month) 13 (leftBy (fun s => s.m_birth_day) 32 l)) := by
  have h1 : radixPass (fun s => s.m_birth_day) 32 l = some (leftBy (fun s => s.m_birth_day) 32 l) :=
    radixPass_eq _ 32 l (by omega) (by
      intro s hs
      have := (h s hs).1
      push_cast
      omega)
  have h2 : radixPass (fun s => s.m_birth_month) 13 (leftBy (fun s => s.m_birth_day) 32 l) =
      some (leftBy (fun s => s.m_birth_month) 13 (leftBy (fun s => s.m_birth_day) 32 l)) :=
    radixPass_eq _ 13 _ (by omega) (by
      intro s hs
      have := (h s (mem_leftBy hs)).2
      push_cast
      omega)
  have hnil : leftBy (fun s => s.m_birth_month) 13 (leftBy (fun s => s.m_birth_day) 32 []) = [] := by
    apply List.length_eq_zero.1
    rw [length_leftBy, length_leftBy]
    rfl
  constructor
  · unfold radixSort
    split
    · rename_i h0
      have : l = [] := List.length_eq_zero.1 h0
      subst this
      rw [hnil]
    · rw [h1]
      exact h2
  · unfold radixSortByBirthday
    split
    · rename_i h0
      have : l = [] := List.length_eq_zero.1 h0
      subst this
      rw [hnil]
    · rw [h1]
      exact h2

/-- C16 as stated fails: on a two-record input whose first record has day 0, `radixSort`
and `radixSortByBirthday` leave the second record twice and lose the first. -/
theorem radixSort_zero_key_counterexample :
    radixSort zeroDayInput =
      some [mkStudent "second" 1 5 "G1" 4, mkStudent "second" 1 5 "G1" 4] ∧
    radixSortByBirthday zeroDayInput =
      some [mkStudent "second" 1 5 "G1" 4, mkStudent "second" 1 5 "G1" 4] ∧
    ¬ List.Perm [mkStudent "second" 1 5 "G1" 4, mkStudent "second" 1 5 "G1" 4] zeroDayInput := by
  decide

/-- C16 amended: for every input whose days are in [0,31] and months in [0,12] (inside the
bucket arrays), `radixSort` / `radixSortByBirthday` returns, the vector keeps its length and
every record left in it is a record of the input; it is a permutation of the input when no
record has `m_birth_day = 0` or `m_birth_month = 0`. -/
theorem radixSort_inBuckets_frame (students : List Student) (h : InBuckets students) :
    ∃ out, radixSort students = some out ∧ radixSortByBirthday students = some out ∧
      out.length = students.length ∧ (∀ s ∈ out, s ∈ students) ∧
      ((∀ s ∈ students, s.m_birth_day ≠ 0 ∧ s.m_birth_month ≠ 0) → out.Perm students) := by
  obtain ⟨h1, h2⟩ := radixSort_inBuckets students h
  refine ⟨_, h1, h2, ?_, ?_, ?_⟩
  · rw [length_leftBy, length_leftBy]
  · intro s hs
    exact mem_leftBy (mem_leftBy hs)
  · intro hz
    have hr : InRange students := by
      intro s hs
      have a := h s hs
      have b := hz s hs
      exact ⟨⟨by omega, a.1.2⟩, ⟨by omega, a.2.2⟩⟩
    have e := radixSort_eq students hr
    rw [h1] at e
    rw [Option.some.inj e]
    exact sorted_perm_of_inRange students hr

/-- Witness of C16 amended: the input with a day 0 keeps its length, and every record left
is one of the input. -/
theorem radixSort_inBuckets_frame_witness :
    InBuckets zeroDayInput ∧
    ∃ out, radixSort zeroDayInput = some out ∧ radixSortByBirthday zeroDayInput = some out ∧
      out.length = zeroDayInput.length ∧ (∀ s ∈ out, s ∈ zeroDayInput) ∧
      ((∀ s ∈ zeroDayInput, s.m_birth_day ≠ 0 ∧ s.m_birth_month ≠ 0) →
        out.Perm zeroDayInput) :=
  ⟨by decide, radixSort_inBuckets_frame zeroDayInput (by decide)⟩

/-! ### The comparison sort -/

namespace Hash

theorem getAt_bounds {v : List Student} {k : Int} {x : Student} (h : getAt v k = some x) :
    0 ≤ k ∧ k < (v.length : Int) := by
  unfold getAt at h
  by_cases hk : 0 ≤ k
  · rw [if_pos hk] at h
    obtain ⟨hlt, _⟩ := List.getElem?_eq_some.1 h
    exact ⟨hk, by omega⟩
  · rw [if_neg hk] at h
    cases h

theorem getAt_of_bounds (v : List Student) (k : Int) (h0 : 0 ≤ k)
    (h1 : k < (v.length : Int)) : ∃ x, getAt v k = some x := by
  have hlt : k.toNat < v.length := by omega
  exact ⟨v[k.toNat], by rw [getAt, if_pos h0, List.getElem?_eq_getElem hlt]⟩

theorem getAt_eq_getElem? (v : List Student) (n : Nat) : getAt v (n : Int) = v[n]? := by
  simp [getAt]

theorem set_set_perm (v : List Student) (a b : Nat) (ha : a < v.length) (hb : b < v.length) :
    ((v.set a v[b]).set b v[a]).Perm v := by
  rw [List.perm_iff_count]
  intro c
  have hb2 : b < (v.set a v[b]).length := by simpa using hb
  rw [List.count_set _ _ _ _ hb2, List.count_set _ _ _ _ ha]
  have hget : (v.set a v[b])[b] = v[b] := by
    rw [List.getElem_set]
    split
    · rfl
    · rfl
  rw [hget]
  have hmem : (v[a] == c) = true → 1 ≤ List.count c v := by
    intro h
    have hc : v[a] = c := by simpa using h
    have : c ∈ v := hc ▸ List.getElem_mem ha
    exact List.count_pos_iff.2 this
  by_cases h1 : (v[a] == c) = true <;> by_cases h2 : (v[b] == c) = true
  · have := hmem h1
    simp only [h1, h2, if_true]
    omega
  · have := hmem h1
    simp only [h1, h2, if_true]
    simp
    omega
  · simp only [h1, h2, if_true]
    simp
  · simp only [h1, h2]
    simp

theorem swapAt_spec (v : List Student) (a b : Int) (ha0 : 0 ≤ a)
    (ha1 : a < (v.length : Int)) (hb0 : 0 ≤ b) (hb1 : b < (v.length : Int)) :
    ∃ v1, swapAt v a b = some v1 ∧ v1.length = v.length ∧ v1.Perm v ∧
      ∀ k, getAt v1 k =
        if k = b then getAt v a else if k = a then getAt v b else getAt v k := by
  have hla : a.toNat < v.length := by omega
  have hlb : b.toNat < v.length := by omega
  have ga : getAt v a = some v[a.toNat] := by
    rw [getAt, if_pos ha0, List.getElem?_eq_getElem hla]
  have gb : getAt v b = some v[b.toNat] := by
    rw [getAt, if_pos hb0, List.getElem?_eq_getElem hlb]
  refine ⟨(v.set a.toNat v[b.toNat]).set b.toNat v[a.toNat], ?_, by simp, ?_, ?_⟩
  · simp only [swapAt, ga, gb]
  · exact set_set_perm v a.toNat b.toNat hla hlb
  · intro k
    by_cases hk : 0 ≤ k
    · by_cases hkb : k = b
      · subst hkb
        rw [if_pos rfl, ga, getAt, if_pos hk, List.getElem?_set]
        simp [hlb]
      · by_cases hka : k = a
        · subst hka
          rw [if_neg hkb, if_pos rfl, gb, getAt, if_pos hk, List.getElem?_set,
            if_neg (by omega), List.getElem?_set]
          simp [hla]
        · rw [if_neg hkb, if_neg hka, getAt, if_pos hk, List.getElem?_set,
            if_neg (by omega), List.getElem?_set, if_neg (by omega), getAt, if_pos hk]
    · rw [if_neg (by omega), if_neg (by omega)]
      simp only [getAt, if_neg hk]

theorem compare_iff (a b : Student) :
    compare a b = true ↔
      a.m_birth_month < b.m_birth_month ∨
        (a.m_birth_month = b.m_birth_month ∧ a.m_birth_day < b.m_birth_day) := by
  unfold compare
  by_cases h : a.m_birth_month = b.m_birth_month
  · simp [h]
  · simp only [if_neg h, decide_eq_true_eq]
    constructor
    · intro hlt; exact Or.inl hlt
    · rintro (hlt | ⟨he, _⟩)
      · exact hlt
      · exact absurd he h

theorem notAfter_iff (a b : Student) : NotAfter a b ↔ KeyLE (birthKey a) (birthKey b) := by
  unfold NotAfter
  rw [← Bool.not_eq_true, compare_iff]
  simp only [KeyLE, birthKey]
  omega

theorem notAfter_of_compare {x y pivot : Student} (hx : compare x pivot = true)
    (hy : ¬ compare y pivot = true) : NotAfter x y := by
  rw [notAfter_iff]
  rw [compare_iff] at hx hy
  simp only [KeyLE, birthKey]
  omega

theorem notAfter_pivot_left {x pivot : Student} (hx : compare x pivot = true) :
    NotAfter x pivot := by
  rw [notAfter_iff]
  rw [compare_iff] at hx
  simp only [KeyLE, birthKey]
  omega

theorem notAfter_pivot_right {y pivot : Student} (hy : ¬ compare y pivot = true) :
    NotAfter pivot y := by
  rw [notAfter_iff]
  rw [compare_iff] at hy
  simp only [KeyLE, birthKey]
  omega

end Hash

namespace Hash

theorem partitionLoop_spec (pivot : Student) (low high : Int) :
    ∀ (cnt : Nat) (v : List Student) (i j : Int),
      0 ≤ low → high < (v.length : Int) → low ≤ j → j + (cnt : Int) = high →
      low - 1 ≤ i → i < j →
      AllIn v low i (fun x => compare x pivot = true) →
      AllIn v (i + 1) (j - 1) (fun x => ¬ compare x pivot = true) →
      ∃ v1 i1, partitionLoop pivot cnt v i j = some (v1, i1) ∧
        low - 1 ≤ i1 ∧ i1 < high ∧ v1.length = v.length ∧ v1.Perm v ∧
        (∀ k, (k < low ∨ high ≤ k) → getAt v1 k = getAt v k) ∧
        (∀ P : Student → Prop, AllIn v low (high - 1) P → AllIn v1 low (high - 1) P) ∧
        AllIn v1 low i1 (fun x => compare x pivot = true) ∧
        AllIn v1 (i1 + 1) (high - 1) (fun x => ¬ compare x pivot = true) := by
  intro cnt
  induction cnt with
  | zero =>
    intro v i j _ _ _ hj hi hij hA hB
    have hjh : j = high := by simpa using hj
    subst hjh
    exact ⟨v, i, rfl, hi, hij, rfl, List.Perm.refl _, fun _ _ => rfl, fun _ h => h, hA, hB⟩
  | succ cnt ih =>
    intro v i j hlow hhigh hlj hj hi hij hA hB
    have hjh : j < high := by push_cast at hj; omega
    obtain ⟨x, hx⟩ := getAt_of_bounds v j (by omega) (by omega)
    rw [partitionLoop, hx]
    simp only
    by_cases hc : compare x pivot = true
    · rw [if_pos hc]
      obtain ⟨v1, hs, hlen1, hperm1, hget1⟩ :=
        swapAt_spec v (i + 1) j (by omega) (by omega) (by omega) (by omega)
      rw [hs]
      simp only
      have hA1 : AllIn v1 low (i + 1) (fun x => compare x pivot = true) := by
        intro k hk1 hk2 y hy
        rw [hget1 k] at hy
        by_cases hkj : k = j
        · rw [if_pos hkj] at hy
          have : i + 1 = j := by omega
          rw [this, hx] at hy
          cases hy
          exact hc
        · rw [if_neg hkj] at hy
          by_cases hki : k = i + 1
          · rw [if_pos hki, hx] at hy
            cases hy
            exact hc
          · rw [if_neg hki] at hy
            exact hA k hk1 (by omega) y hy
      have hB1 : AllIn v1 (i + 1 + 1) (j + 1 - 1) (fun x => ¬ compare x pivot = true) := by
        intro k hk1 hk2 y hy
        rw [hget1 k] at hy
        by_cases hkj : k = j
        · rw [if_pos hkj] at hy
          exact hB (i + 1) (by omega) (by omega) y hy
        · rw [if_neg hkj, if_neg (by omega)] at hy
          exact hB k (by omega) (by omega) y hy
      obtain ⟨v2, i2, hrun, h1, h2, hlen2, hperm2, hout2, hP2, hA2, hB2⟩ :=
        ih v1 (i + 1) (j + 1) hlow (by rw [hlen1]; exact hhigh) (by omega)
          (by push_cast at hj ⊢; omega) (by omega) (by omega) hA1 hB1
      refine ⟨v2, i2, hrun, h1, h2, hlen2.trans hlen1, hperm2.trans hperm1, ?_, ?_, hA2, hB2⟩
      · intro k hk
        rw [hout2 k hk, hget1 k, if_neg (by omega), if_neg (by omega)]
      · intro P hP
        apply hP2 P
        intro k hk1 hk2 y hy
        rw [hget1 k] at hy
        by_cases hkj : k = j
        · rw [if_pos hkj] at hy
          exact hP (i + 1) (by omega) (by omega) y hy
        · rw [if_neg hkj] at hy
          by_cases hki : k = i + 1
          · rw [if_pos hki] at hy
            exact hP j (by omega) (by omega) y hy
          · rw [if_neg hki] at hy
            exact hP k hk1 hk2 y hy
    · rw [if_neg hc]
      have hB1 : AllIn v (i + 1) (j + 1 - 1) (fun x => ¬ compare x pivot = true) := by
        intro k hk1 hk2 y hy
        by_cases hkj : k = j
        · rw [hkj, hx] at hy
          cases hy
          exact hc
        · exact hB k hk1 (by omega) y hy
      exact ih v i (j + 1) hlow hhigh (by omega) (by push_cast at hj ⊢; omega) hi (by omega)
        hA hB1

end Hash

namespace Hash

theorem Rearranged.refl (v : List Student) (lo hi : Int) : Rearranged v v lo hi :=
  ⟨rfl, List.Perm.refl _, fun _ _ => rfl, fun _ h => h⟩

theorem Rearranged.widen {v v1 : List Student} {lo1 hi1 : Int} (h : Rearranged v v1 lo1 hi1)
    (lo hi : Int) (hlo : lo ≤ lo1) (hhi : hi1 ≤ hi) : Rearranged v v1 lo hi := by
  obtain ⟨h1, h2, h3, h4⟩ := h
  refine ⟨h1, h2, fun k hk => h3 k (by omega), ?_⟩
  intro P hP k hk1 hk2 y hy
  by_cases hin : lo1 ≤ k ∧ k ≤ hi1
  · exact h4 P (fun k' a b => hP k' (by omega) (by omega)) k hin.1 hin.2 y hy
  · rw [h3 k (by omega)] at hy
    exact hP k hk1 hk2 y hy

theorem Rearranged.trans {v v1 v2 : List Student} {lo hi : Int} (h : Rearranged v v1 lo hi)
    (h' : Rearranged v1 v2 lo hi) : Rearranged v v2 lo hi :=
  ⟨h'.1.trans h.1, h'.2.1.trans h.2.1, fun k hk => (h'.2.2.1 k hk).trans (h.2.2.1 k hk),
    fun P hP => h'.2.2.2 P (h.2.2.2 P hP)⟩

theorem partition_spec (v : List Student) (low high : Int) (h0 : 0 ≤ low) (hlh : low ≤ high)
    (hh : high < (v.length : Int)) :
    ∃ v2 p pivot, partition v low high = some (v2, p) ∧ low ≤ p ∧ p ≤ high ∧
      Rearranged v v2 low high ∧ getAt v2 p = some pivot ∧
      AllIn v2 low (p - 1) (fun x => compare x pivot = true) ∧
      AllIn v2 (p + 1) high (fun x => ¬ compare x pivot = true) := by
  obtain ⟨pivot, hpiv⟩ := getAt_of_bounds v high (by omega) hh
  obtain ⟨v1, i1, hrun, hi1, hi2, hlen1, hperm1, hout1, hP1, hA1, hB1⟩ :=
    partitionLoop_spec pivot low high (high - low).toNat v (low - 1) low h0 hh (le_refl _)
      (by omega) (le_refl _) (by omega)
      (by intro k a b; omega) (by intro k a b; omega)
  have hpiv1 : getAt v1 high = some pivot := by rw [hout1 high (by omega), hpiv]
  obtain ⟨v2, hs, hlen2, hperm2, hget2⟩ :=
    swapAt_spec v1 (i1 + 1) high (by omega) (by omega) (by omega) (by omega)
  refine ⟨v2, i1 + 1, pivot, ?_, by omega, by omega, ⟨hlen2.trans hlen1, hperm2.trans hperm1,
    ?_, ?_⟩, ?_, ?_, ?_⟩
  · simp only [partition, hpiv, hrun, hs]
  · intro k hk
    rw [hget2 k, if_neg (by omega), if_neg (by omega)]
    exact hout1 k (by omega)
  · intro P hP
    have hP1' : AllIn v1 low high P := by
      intro k hk1 hk2 y hy
      by_cases hkh : k = high
      · rw [hkh, hout1 high (by omega)] at hy
        exact hP high (by omega) (le_refl _) y hy
      · exact hP1 P (fun k' a b => hP k' a (by omega)) k hk1 (by omega) y hy
    intro k hk1 hk2 y hy
    rw [hget2 k] at hy
    by_cases hkh : k = high
    · rw [if_pos hkh] at hy
      exact hP1' (i1 + 1) (by omega) (by omega) y hy
    · rw [if_neg hkh] at hy
      by_cases hki : k = i1 + 1
      · rw [if_pos hki] at hy
        exact hP1' high (by omega) (le_refl _) y hy
      · rw [if_neg hki] at hy
        exact hP1' k hk1 hk2 y hy
  · rw [hget2 (i1 + 1)]
    by_cases hkh : i1 + 1 = high
    · rw [if_pos hkh, hkh]
      exact hpiv1
    · rw [if_neg hkh, if_pos rfl]
      exact hpiv1
  · intro k hk1 hk2 y hy
    rw [hget2 k, if_neg (by omega), if_neg (by omega)] at hy
    exact hA1 k hk1 (by omega) y hy
  · intro k hk1 hk2 y hy
    rw [hget2 k] at hy
    by_cases hkh : k = high
    · rw [if_pos hkh] at hy
      exact hB1 (i1 + 1) (by omega) (by omega) y hy
    · rw [if_neg hkh, if_neg (by omega)] at hy
      exact hB1 k (by omega) (by omega) y hy

theorem quickSortFuel_spec :
    ∀ (fuel : Nat) (v : List Student) (low high : Int),
      (low < high → 0 ≤ low ∧ high < (v.length : Int)) → high - low ≤ (fuel : Int) →
      ∃ v3, quickSortFuel fuel v low high = some v3 ∧ Rearranged v v3 low high ∧
        SortedIn v3 low high := by
  intro fuel
  induction fuel with
  | zero =>
    intro v low high _ hf
    have hnl : ¬ low < high := by
      have : high - low ≤ 0 := by simpa using hf
      omega
    refine ⟨v, by rw [quickSortFuel, if_neg hnl], Rearranged.refl _ _ _, ?_⟩
    intro a b _ _ _
    omega
  | succ fuel ih =>
    intro v low high hb hf
    by_cases hlt : low < high
    · obtain ⟨h0, hh⟩ := hb hlt
      obtain ⟨v1, p, pivot, hpart, hp1, hp2, hr1, hpiv, hL, hR⟩ :=
        partition_spec v low high h0 (le_of_lt hlt) hh
      obtain ⟨v2, hq2, hr2, hs2⟩ := ih v1 low (p - 1)
        (fun _ => ⟨h0, by rw [hr1.1]; omega⟩) (by push_cast at hf; omega)
      obtain ⟨v3, hq3, hr3, hs3⟩ := ih v2 (p + 1) high
        (fun _ => ⟨by omega, by rw [hr2.1, hr1.1]; omega⟩) (by push_cast at hf; omega)
      refine ⟨v3, ?_, ?_, ?_⟩
      · rw [quickSortFuel, if_pos hlt, hpart]
        simp only
        rw [hq2]
        simp only
        exact hq3
      · exact (hr1.trans (hr2.widen low high (le_refl _) (by omega))).trans
          (hr3.widen low high (by omega) (le_refl _))
      · have e32 : ∀ k, k ≤ p → getAt v3 k = getAt v2 k :=
          fun k hk => hr3.2.2.1 k (Or.inl (by omega))
        have e21 : ∀ k, p ≤ k → getAt v2 k = getAt v1 k :=
          fun k hk => hr2.2.2.1 k (Or.inr (by omega))
        have hL2 : AllIn v2 low (p - 1) (fun x => compare x pivot = true) := hr2.2.2.2 _ hL
        have hR2 : AllIn v2 (p + 1) high (fun x => ¬ compare x pivot = true) := by
          intro k hk1 hk2 y hy
          rw [e21 k (by omega)] at hy
          exact hR k hk1 hk2 y hy
        have hR3 : AllIn v3 (p + 1) high (fun x => ¬ compare x pivot = true) :=
          hr3.2.2.2 _ hR2
        have hpiv3 : getAt v3 p = some pivot := by
          rw [e32 p (le_refl _), e21 p (le_refl _)]
          exact hpiv
        intro a b ha hab hbh x y hx hy
        by_cases hbp : b < p
        · rw [e32 a (by omega)] at hx
          rw [e32 b (by omega)] at hy
          exact hs2 a b ha hab (by omega) x y hx hy
        · by_cases hap : p < a
          · exact hs3 a b (by omega) hab hbh x y hx hy
          · by_cases hae : a = p
            · rw [hae, hpiv3] at hx
              cases hx
              exact notAfter_pivot_right (hR3 b (by omega) hbh y hy)
            · rw [e32 a (by omega)] at hx
              have hxc := hL2 a ha (by omega) x hx
              by_cases hbe : b = p
              · rw [hbe, hpiv3] at hy
                cases hy
                exact notAfter_pivot_left hxc
              · exact notAfter_of_compare hxc (hR3 b (by omega) hbh y hy)
    · refine ⟨v, by rw [quickSortFuel, if_neg hlt], Rearranged.refl _ _ _, ?_⟩
      intro a b _ _ _
      omega

/-- The comparison sort over the whole vector returns a permutation of its input that is
pairwise in `compare` order. -/
theorem quickSort_whole (v : List Student) :
    ∃ q, quickSort v 0 ((v.length : Int) - 1) = some q ∧ q.Perm v ∧
      q.Pairwise NotAfter := by
  obtain ⟨q, hq, hr, hs⟩ := quickSortFuel_spec ((v.length : Int) - 1 - 0).toNat v 0
    ((v.length : Int) - 1) (fun _ => ⟨le_refl _, by omega⟩) (by omega)
  refine ⟨q, hq, hr.2.1, ?_⟩
  rw [List.pairwise_iff_getElem]
  intro i j hi hj hij
  have hlen := hr.1
  exact hs (i : Int) (j : Int) (by omega) (by omega) (by omega) q[i] q[j]
    (by rw [getAt_eq_getElem?, List.getElem?_eq_getElem hi])
    (by rw [getAt_eq_getElem?, List.getElem?_eq_getElem hj])

end Hash

/-! ### The correctness check of `compare.cpp` -/

namespace Hash

theorem keyLE_antisymm (p q : Int × Int) (h1 : KeyLE p q) (h2 : KeyLE q p) : p = q := by
  unfold KeyLE at h1 h2
  apply Prod.ext <;> omega

theorem checkLoop_true (r q : List Student) (hkeys : r.map birthKey = q.map birthKey) :
    ∀ (cnt i : Nat), i + cnt ≤ r.length → checkLoop r q i cnt = some true := by
  have hlen : r.length = q.length := by
    have := congrArg List.length hkeys
    simpa using this
  intro cnt
  induction cnt with
  | zero => intro i _; rfl
  | succ cnt ih =>
    intro i hi
    have hir : i < r.length := by omega
    have hiq : i < q.length := by omega
    have hk : birthKey r[i] = birthKey q[i] := by
      have h1 : (r.map birthKey)[i]? = (q.map birthKey)[i]? := by rw [hkeys]
      rw [List.getElem?_map, List.getElem?_map, List.getElem?_eq_getElem hir,
        List.getElem?_eq_getElem hiq] at h1
      simpa using h1
    have hm : r[i].m_birth_month = q[i].m_birth_month := congrArg Prod.fst hk
    have hd : r[i].m_birth_day = q[i].m_birth_day := congrArg Prod.snd hk
    rw [checkLoop, List.getElem?_eq_getElem hir, List.getElem?_eq_getElem hiq]
    simp only
    rw [if_neg (by simp [hm, hd])]
    exact ih (i + 1) (by omega)

/-- C17: for every vector of students with days in [1,31] and months in [1,12], `radixSort`
on one copy and `quickSort(copy, 0, n-1)` on another both return, and the two vectors have
the same `(m_birth_month, m_birth_day)` at every index; the flag `same` computed by the
check of `compare.cpp` is true. -/
theorem correctnessCheck_passes (students : List Student) (h : InRange students) :
    ∃ r q, radixSort students = some r ∧
      quickSort students 0 ((students.length : Int) - 1) = some q ∧
      r.length = q.length ∧ r.map birthKey = q.map birthKey ∧
      correctnessCheck students = some true := by
  obtain ⟨q, hq, hqperm, hqsorted⟩ := quickSort_whole students
  have hr := radixSort_eq students h
  have hrperm := sorted_perm_of_inRange students h
  have hrsorted := sorted_pairwise students
  have hperm : (List.map birthKey
      (gather (fun s => s.m_birth_month) (gather (fun s => s.m_birth_day) students 1 31) 1
        12)).Perm (List.map birthKey q) :=
    (hrperm.trans hqperm.symm).map birthKey
  have hs1 : List.Sorted KeyLE (List.map birthKey
      (gather (fun s => s.m_birth_month) (gather (fun s => s.m_birth_day) students 1 31) 1
        12)) := by
    unfold List.Sorted
    rw [List.pairwise_map]
    exact hrsorted
  have hs2 : List.Sorted KeyLE (List.map birthKey q) := by
    unfold List.Sorted
    rw [List.pairwise_map]
    exact hqsorted.imp (fun {a b} hab => (notAfter_iff a b).1 hab)
  have hkeys := @List.eq_of_perm_of_sorted _ KeyLE ⟨keyLE_antisymm⟩ _ _ hperm hs1 hs2
  refine ⟨_, q, hr, hq, ?_, hkeys, ?_⟩
  · have := congrArg List.length hkeys
    simpa using this
  · simp only [correctnessCheck, hr, hq]
    exact checkLoop_true _ _ hkeys _ 0 (by omega)

/-- Witness of C17 on the sorting scenario. -/
theorem correctnessCheck_passes_witness :
    InRange sortScenario ∧
    ∃ r q, radixSort sortScenario = some r ∧
      quickSort sortScenario 0 ((sortScenario.length : Int) - 1) = some q ∧
      r.length = q.length ∧ r.map birthKey = q.map birthKey ∧
      correctnessCheck sortScenario = some true :=
  ⟨by decide, correctnessCheck_passes sortScenario (by decide)⟩

end Hash

/-! ### Number text -/

namespace Text

theorem digitChar_facts : ∀ d, d < 10 →
    isDigit (digitChar d) = true ∧ digitVal (digitChar d) = d := by
  decide

theorem isDigit_facts (c : Char) (h : isDigit c = true) :
    c ≠ ',' ∧ c ≠ '\n' ∧ c ≠ '-' ∧ c ≠ '+' ∧ c ≠ '.' ∧ isSpace c = false := by
  simp only [isDigit, Bool.and_eq_true, decide_eq_true_eq] at h
  refine ⟨?_, ?_, ?_, ?_, ?_, ?_⟩
  · rintro rfl; revert h; decide
  · rintro rfl; revert h; decide
  · rintro rfl; revert h; decide
  · rintro rfl; revert h; decide
  · rintro rfl; revert h; decide
  · simp only [isSpace, Bool.or_eq_false_iff, Bool.and_eq_false_iff, decide_eq_false_iff_not]
    omega

theorem natValue_append (a : List Char) (c : Char) :
    natValue (a ++ [c]) = 10 * natValue a + digitVal c := by
  simp [natValue, List.foldl_append]

theorem natDigits_spec : ∀ (fuel n : Nat), n < fuel →
    natValue (natDigits fuel n) = n ∧ (∀ c ∈ natDigits fuel n, isDigit c = true) ∧
      natDigits fuel n ≠ [] := by
  intro fuel
  induction fuel with
  | zero => intro n h; omega
  | succ fuel ih =>
    intro n h
    by_cases hn : n < 10
    · rw [natDigits, if_pos hn]
      obtain ⟨h1, h2⟩ := digitChar_facts n hn
      refine ⟨?_, ?_, by simp⟩
      · simp [natValue, h2]
      · intro c hc
        rw [List.mem_singleton] at hc
        rw [hc]; exact h1
    · rw [natDigits, if_neg hn]
      obtain ⟨i1, i2, _⟩ := ih (n / 10) (by omega)
      obtain ⟨h1, h2⟩ := digitChar_facts (n % 10) (by omega)
      refine ⟨?_, ?_, by simp⟩
      · rw [natValue_append, i1, h2]
        omega
      · intro c hc
        rcases List.mem_append.1 hc with hc | hc
        · exact i2 c hc
        · rw [List.mem_singleton] at hc
          rw [hc]; exact h1

theorem showNat_spec (n : Nat) :
    natValue (showNat n) = n ∧ (∀ c ∈ showNat n, isDigit c = true) ∧ showNat n ≠ [] :=
  natDigits_spec (n + 1) n (by omega)

theorem takeWhile_digits (a rest : List Char) (ha : ∀ c ∈ a, isDigit c = true)
    (hrest : ∀ c t, rest = c :: t → isDigit c = false) :
    (a ++ rest).takeWhile isDigit = a ∧ (a ++ rest).dropWhile isDigit = rest := by
  induction a with
  | nil =>
    cases rest with
    | nil => simp
    | cons c t =>
      have := hrest c t rfl
      simp [List.takeWhile, List.dropWhile, this]
  | cons x a ih =>
    have hx := ha x (List.mem_cons_self _ _)
    obtain ⟨i1, i2⟩ := ih (fun c hc => ha c (List.mem_cons_of_mem _ hc))
    simp only [List.cons_append, List.takeWhile_cons, List.dropWhile_cons, hx, if_true]
    exact ⟨by rw [i1], i2⟩

theorem takeWhile_all_digits (a : List Char) (ha : ∀ c ∈ a, isDigit c = true) :
    a.takeWhile isDigit = a ∧ a.dropWhile isDigit = [] := by
  have := takeWhile_digits a [] ha (by intro c t h; cases h)
  simpa using this

theorem dropWhile_space_digits (a : List Char) (ha : ∀ c ∈ a, isDigit c = true) :
    a.dropWhile isSpace = a := by
  cases a with
  | nil => rfl
  | cons x a =>
    have := (isDigit_facts x (ha x (List.mem_cons_self _ _))).2.2.2.2.2
    simp [List.dropWhile, this]

theorem takeSign_digits (a : List Char) (ha : ∀ c ∈ a, isDigit c = true) :
    takeSign a = (false, a) := by
  cases a with
  | nil => rfl
  | cons x a =>
    obtain ⟨_, _, h3, h4, _, _⟩ := isDigit_facts x (ha x (List.mem_cons_self _ _))
    simp [takeSign, h3, h4]

/-- Reading back a written `int` gives the same `int`. -/
theorem stoi_showInt (z : Int) : stoi (showInt z) = some z := by
  obtain ⟨hv, hd, hne⟩ := showNat_spec z.natAbs
  have htw := (takeWhile_all_digits _ hd).1
  by_cases hz : z < 0
  · have hbody : takeSign ((showInt z).dropWhile isSpace) = (true, showNat z.natAbs) := by
      rw [showInt, if_pos hz]
      simp [List.dropWhile, isSpace, takeSign]
    rw [stoi, hbody]
    simp only [htw, if_neg hne, hv, signed, if_true]
    congr 1
    omega
  · have hbody : takeSign ((showInt z).dropWhile isSpace) = (false, showNat z.natAbs) := by
      rw [showInt, if_neg hz, dropWhile_space_digits _ hd, takeSign_digits _ hd]
    rw [stoi, hbody]
    simp only [htw, if_neg hne, hv, signed]
    simp only [Bool.false_eq_true, if_false]
    congr 1
    omega

theorem showInt_chars (z : Int) (c : Char) (hc : c ∈ showInt z) : c ≠ ',' ∧ c ≠ '\n' := by
  obtain ⟨_, hd, _⟩ := showNat_spec z.natAbs
  unfold showInt at hc
  split at hc
  · rcases List.mem_cons.1 hc with rfl | hc
    · exact ⟨by decide, by decide⟩
    · exact ⟨(isDigit_facts c (hd c hc)).1, (isDigit_facts c (hd c hc)).2.1⟩
  · exact ⟨(isDigit_facts c (hd c hc)).1, (isDigit_facts c (hd c hc)).2.1⟩

end Text

namespace Text

theorem round2_cases (r : ℚ) : round2 r = ⌊100 * r⌋ ∨ round2 r = ⌊100 * r⌋ + 1 := by
  unfold round2
  split_ifs <;> simp

theorem round2_sign (r : ℚ) : (r < 0 → round2 r ≤ 0) ∧ (¬ r < 0 → 0 ≤ round2 r) := by
  constructor
  · intro h
    have hq : 100 * r < 0 := by linarith
    have hf : ⌊100 * r⌋ < 0 := Int.floor_lt.2 (by simpa using hq)
    rcases round2_cases r with h1 | h1 <;> omega
  · intro h
    have hq : (0 : ℚ) ≤ 100 * r := by
      have : 0 ≤ r := not_lt.1 h
      linarith
    have hf : 0 ≤ ⌊100 * r⌋ := Int.floor_nonneg.2 hq
    rcases round2_cases r with h1 | h1 <;> omega

/-- A score that is a whole number of hundredths is its own value at 2-decimal precision. -/
theorem round2_hundredths (h : Int) : round2 ((h : ℚ) / 100) = h := by
  have e : 100 * ((h : ℚ) / 100) = (h : ℚ) := by ring
  unfold round2
  rw [e, Int.floor_intCast]
  simp

theorem showScore_body (r : ℚ) :
    (∀ c ∈ showNat ((round2 r).natAbs / 100), isDigit c = true) ∧
    isDigit (digitChar ((round2 r).natAbs % 100 / 10)) = true ∧
    isDigit (digitChar ((round2 r).natAbs % 10)) = true ∧
    natValue [digitChar ((round2 r).natAbs % 100 / 10), digitChar ((round2 r).natAbs % 10)] =
      (round2 r).natAbs % 100 := by
  obtain ⟨_, hd, _⟩ := showNat_spec ((round2 r).natAbs / 100)
  obtain ⟨a1, a2⟩ := digitChar_facts ((round2 r).natAbs % 100 / 10) (by omega)
  obtain ⟨b1, b2⟩ := digitChar_facts ((round2 r).natAbs % 10) (by omega)
  refine ⟨hd, a1, b1, ?_⟩
  simp only [natValue, List.foldl_cons, List.foldl_nil, a2, b2]
  omega

theorem magnitude_showScore (r : ℚ) :
    magnitude (showNat ((round2 r).natAbs / 100) ++
      ['.', digitChar ((round2 r).natAbs % 100 / 10), digitChar ((round2 r).natAbs % 10)]) =
      ((round2 r).natAbs : ℚ) / 100 := by
  obtain ⟨hd, a1, b1, hv⟩ := showScore_body r
  obtain ⟨hval, _, _⟩ := showNat_spec ((round2 r).natAbs / 100)
  have hdot : isDigit '.' = false := by decide
  obtain ⟨t1, t2⟩ := takeWhile_digits (showNat ((round2 r).natAbs / 100))
    ['.', digitChar ((round2 r).natAbs % 100 / 10), digitChar ((round2 r).natAbs % 10)] hd
    (by intro c t h; cases h; exact hdot)
  obtain ⟨u1, u2⟩ := takeWhile_all_digits
    [digitChar ((round2 r).natAbs % 100 / 10), digitChar ((round2 r).natAbs % 10)]
    (by
      intro c hc
      rcases List.mem_cons.1 hc with rfl | hc
      · exact a1
      · rw [List.mem_singleton] at hc
        rw [hc]; exact b1)
  unfold magnitude
  rw [t1, t2]
  simp only [fractionDigits, afterFraction, if_true, u1, u2, exponentOf, hv, hval]
  have hm : (round2 r).natAbs = 100 * ((round2 r).natAbs / 100) + (round2 r).natAbs % 100 :=
    (Nat.div_add_mod _ _).symm
  have hq : (((round2 r).natAbs : ℕ) : ℚ) =
      100 * (((round2 r).natAbs / 100 : ℕ) : ℚ) + (((round2 r).natAbs % 100 : ℕ) : ℚ) := by
    exact_mod_cast hm
  rw [hq]
  simp only [List.length_cons, List.length_nil, zpow_zero, mul_one]
  norm_num
  ring

/-- Reading back a written score gives its value at 2-decimal precision. -/
theorem stod_showScore (r : ℚ) : stod (showScore r) = some ((round2 r : ℚ) / 100) := by
  obtain ⟨hd, _, _, _⟩ := showScore_body r
  obtain ⟨_, _, hne⟩ := showNat_spec ((round2 r).natAbs / 100)
  have hdot : isDigit '.' = false := by decide
  obtain ⟨t1, _⟩ := takeWhile_digits (showNat ((round2 r).natAbs / 100))
    ['.', digitChar ((round2 r).natAbs % 100 / 10), digitChar ((round2 r).natAbs % 10)] hd
    (by intro c t h; cases h; exact hdot)
  have hbody_ne : (showNat ((round2 r).natAbs / 100) ++
      ['.', digitChar ((round2 r).natAbs % 100 / 10),
        digitChar ((round2 r).natAbs % 10)]).takeWhile isDigit ≠ [] := by
    rw [t1]; exact hne
  have hdigits : ∀ c ∈ (showNat ((round2 r).natAbs / 100) ++
      ['.', digitChar ((round2 r).natAbs % 100 / 10), digitChar ((round2 r).natAbs % 10)]),
      c ∈ showNat ((round2 r).natAbs / 100) ∨ c ∈ ['.',
        digitChar ((round2 r).natAbs % 100 / 10), digitChar ((round2 r).natAbs % 10)] :=
    fun c hc => List.mem_append.1 hc
  obtain ⟨x, xs, hx⟩ := List.exists_cons_of_ne_nil hne
  have hxd : isDigit x = true := hd x (by rw [hx]; exact List.mem_cons_self _ _)
  obtain ⟨_, _, hx3, hx4, _, hx6⟩ := isDigit_facts x hxd
  obtain ⟨hs1, hs2⟩ := round2_sign r
  by_cases hr : r < 0
  · have hbody : takeSign ((showScore r).dropWhile isSpace) =
        (true, showNat ((round2 r).natAbs / 100) ++
          ['.', digitChar ((round2 r).natAbs % 100 / 10),
            digitChar ((round2 r).natAbs % 10)]) := by
      rw [showScore, if_pos hr]
      simp [List.dropWhile, isSpace, takeSign]
    rw [stod, hbody]
    simp only
    rw [if_neg (fun h => hbody_ne h.1), magnitude_showScore]
    simp only [if_true]
    congr 1
    have : ((round2 r).natAbs : ℤ) = -round2 r := by
      have := hs1 hr
      omega
    have hq : (((round2 r).natAbs : ℕ) : ℚ) = -(round2 r : ℚ) := by
      rw [← Int.cast_natCast, this, Int.cast_neg]
    rw [hq]
    ring
  · have hbody : takeSign ((showScore r).dropWhile isSpace) =
        (false, showNat ((round2 r).natAbs / 100) ++
          ['.', digitChar ((round2 r).natAbs % 100 / 10),
            digitChar ((round2 r).natAbs % 10)]) := by
      rw [showScore, if_neg hr, hx]
      simp [List.dropWhile, hx6, takeSign, hx3, hx4]
    rw [stod, hbody]
    simp only
    rw [if_neg (fun h => hbody_ne h.1), magnitude_showScore]
    simp only [Bool.false_eq_true, if_false]
    congr 1
    have : ((round2 r).natAbs : ℤ) = round2 r := by
      have := hs2 hr
      omega
    have hq : (((round2 r).natAbs : ℕ) : ℚ) = (round2 r : ℚ) := by
      rw [← Int.cast_natCast, this]
    rw [hq]

theorem showScore_chars (r : ℚ) (c : Char) (hc : c ∈ showScore r) : c ≠ ',' ∧ c ≠ '\n' := by
  obtain ⟨hd, a1, b1, _⟩ := showScore_body r
  have hdig : ∀ x, isDigit x = true → x ≠ ',' ∧ x ≠ '\n' :=
    fun x hx => ⟨(isDigit_facts x hx).1, (isDigit_facts x hx).2.1⟩
  unfold showScore at hc
  rcases List.mem_append.1 hc with h1 | h1
  · split at h1
    · rw [List.mem_singleton] at h1
      rw [h1]; exact ⟨by decide, by decide⟩
    · cases h1
  · rcases List.mem_append.1 h1 with h2 | h2
    · exact hdig c (hd c h2)
    · rcases List.mem_cons.1 h2 with rfl | h3
      · exact ⟨by decide, by decide⟩
      · rcases List.mem_cons.1 h3 with rfl | h4
        · exact hdig _ a1
        · rw [List.mem_singleton] at h4
          rw [h4]; exact hdig _ b1

end Text

/-! ### Splitting text -/

namespace Text

theorem splitOn_cons_ne (d c : Char) (cs : List Char) (h : c ≠ d) :
    splitOn d (c :: cs) =
      match splitOn d cs with
      | [] => [[c]]
      | f :: fs => (c :: f) :: fs := by
  rw [splitOn, if_neg h]

theorem splitOn_append_delim (d : Char) (f rest : List Char) (hf : ∀ c ∈ f, c ≠ d) :
    splitOn d (f ++ d :: rest) = f :: splitOn d rest := by
  induction f with
  | nil => simp [splitOn]
  | cons c f ih =>
    have hc : c ≠ d := hf c (List.mem_cons_self _ _)
    have := ih (fun x hx => hf x (List.mem_cons_of_mem _ hx))
    rw [List.cons_append, splitOn_cons_ne d c _ hc, this]

theorem splitOn_single (d : Char) (f : List Char) (hf : ∀ c ∈ f, c ≠ d) (hne : f ≠ []) :
    splitOn d f = [f] := by
  induction f with
  | nil => exact absurd rfl hne
  | cons c f ih =>
    have hc : c ≠ d := hf c (List.mem_cons_self _ _)
    cases f with
    | nil => simp [splitOn, hc]
    | cons c2 f2 =>
      have := ih (fun x hx => hf x (List.mem_cons_of_mem _ hx)) (by simp)
      rw [splitOn_cons_ne d c _ hc, this]

theorem splitOn_mem (d : Char) (s : List Char) :
    ∀ f ∈ splitOn d s, (∀ c ∈ f, c ≠ d) ∧ ∀ c ∈ f, c ∈ s := by
  induction s with
  | nil => intro f hf; simp [splitOn] at hf
  | cons c cs ih =>
    intro f hf
    by_cases hc : c = d
    · simp only [splitOn, if_pos hc, List.mem_cons] at hf
      rcases hf with rfl | hf
      · exact ⟨by simp, by simp⟩
      · exact ⟨(ih f hf).1, fun x hx => List.mem_cons_of_mem _ ((ih f hf).2 x hx)⟩
    · rw [splitOn_cons_ne d c _ hc] at hf
      cases hsp : splitOn d cs with
      | nil =>
        rw [hsp] at hf
        simp only [List.mem_singleton] at hf
        subst hf
        constructor
        · intro x hx
          rw [List.mem_singleton] at hx
          rw [hx]; exact hc
        · intro x hx
          rw [List.mem_singleton] at hx
          rw [hx]; exact List.mem_cons_self _ _
      | cons g gs =>
        rw [hsp] at hf ih
        simp only [List.mem_cons] at hf
        rcases hf with rfl | hf
        · have hg := ih g (List.mem_cons_self _ _)
          constructor
          · intro x hx
            rcases List.mem_cons.1 hx with rfl | hx
            · exact hc
            · exact hg.1 x hx
          · intro x hx
            rcases List.mem_cons.1 hx with rfl | hx
            · exact List.mem_cons_self _ _
            · exact List.mem_cons_of_mem _ (hg.2 x hx)
        · have hg := ih f (List.mem_cons_of_mem _ hf)
          exact ⟨hg.1, fun x hx => List.mem_cons_of_mem _ (hg.2 x hx)⟩

end Text

/-! ### Writing the records and reading them back -/

namespace Vec

theorem string_mk_toList (t : String) : String.mk t.toList = t := by
  cases t; rfl

theorem parseCSVLine_recordLine (s : Student) (hc : Clean s)
    (hp : s.m_phone_number.toList ≠ []) :
    parseCSVLine (recordLine s) =
      [s.m_name.toList, s.m_surname.toList, s.m_email.toList, Text.showInt s.m_birth_year,
        Text.showInt s.m_birth_month, Text.showInt s.m_birth_day, s.m_group.toList,
        Text.showScore s.m_rating, s.m_phone_number.toList] := by
  obtain ⟨h0, h1, h2, h6, h8⟩ := hc
  unfold parseCSVLine recordLine
  rw [Text.splitOn_append_delim _ _ _ h0.1, Text.splitOn_append_delim _ _ _ h1.1,
    Text.splitOn_append_delim _ _ _ h2.1,
    Text.splitOn_append_delim _ _ _ (fun c hc => (Text.showInt_chars _ c hc).1),
    Text.splitOn_append_delim _ _ _ (fun c hc => (Text.showInt_chars _ c hc).1),
    Text.splitOn_append_delim _ _ _ (fun c hc => (Text.showInt_chars _ c hc).1),
    Text.splitOn_append_delim _ _ _ h6.1,
    Text.splitOn_append_delim _ _ _ (fun c hc => (Text.showScore_chars _ c hc).1),
    Text.splitOn_single _ _ h8.1 hp]

theorem parseRecord_recordLine (s : Student) :
    parseRecord [s.m_name.toList, s.m_surname.toList, s.m_email.toList,
        Text.showInt s.m_birth_year, Text.showInt s.m_birth_month,
        Text.showInt s.m_birth_day, s.m_group.toList, Text.showScore s.m_rating,
        s.m_phone_number.toList] = some (atTwoDecimals s) := by
  simp only [parseRecord, Text.stoi_showInt, Text.stod_showScore, string_mk_toList]
  rfl

theorem readRows_recordLines (out : List Student)
    (h : ∀ s ∈ out, Clean s ∧ s.m_phone_number.toList ≠ []) :
    readRows (out.map recordLine) = some (out.map atTwoDecimals) := by
  induction out with
  | nil => rfl
  | cons s rest ih =>
    obtain ⟨hc, hp⟩ := h s (List.mem_cons_self _ _)
    have hrest := ih (fun t ht => h t (List.mem_cons_of_mem _ ht))
    simp only [List.map_cons, readRows]
    rw [parseCSVLine_recordLine s hc hp, parseRecord_recordLine, hrest]
    simp

theorem recordLine_no_newline (s : Student) (hc : Clean s) :
    ∀ c ∈ recordLine s, c ≠ '\n' := by
  obtain ⟨h0, h1, h2, h6, h8⟩ := hc
  have hcomma : (',' : Char) ≠ '\n' := by decide
  intro c hmem
  unfold recordLine at hmem
  simp only [List.mem_append, List.mem_cons] at hmem
  rcases hmem with h | rfl | h | rfl | h | rfl | h | rfl | h | rfl | h | rfl | h | rfl | h | rfl | h
  · exact h0.2 c h
  · exact hcomma
  · exact h1.2 c h
  · exact hcomma
  · exact h2.2 c h
  · exact hcomma
  · exact (Text.showInt_chars _ c h).2
  · exact hcomma
  · exact (Text.showInt_chars _ c h).2
  · exact hcomma
  · exact (Text.showInt_chars _ c h).2
  · exact hcomma
  · exact h6.2 c h
  · exact hcomma
  · exact (Text.showScore_chars _ c h).2
  · exact hcomma
  · exact h8.2 c h

theorem splitOn_recordLines (out : List Student) (h : ∀ s ∈ out, Clean s) :
    Text.splitOn '\n' (recordLines out) = out.map recordLine := by
  induction out with
  | nil => rfl
  | cons s rest ih =>
    rw [recordLines, Text.splitOn_append_delim _ _ _
      (recordLine_no_newline s (h s (List.mem_cons_self _ _))),
      ih (fun t ht => h t (List.mem_cons_of_mem _ ht))]
    rfl

/-- Reading back what `saveToCSV` wrote gives every record with its score at 2-decimal
precision, in the same order. -/
theorem readCSVToVector_saveToCSV (out : List Student)
    (h : ∀ s ∈ out, Clean s ∧ s.m_phone_number.toList ≠ []) :
    readCSVToVector (saveToCSV out) = some (out.map atTwoDecimals) := by
  have hh : ∀ c ∈ headerLine, c ≠ '\n' := by decide
  unfold readCSVToVector saveToCSV
  rw [Text.splitOn_append_delim _ _ _ hh, splitOn_recordLines out (fun s hs => (h s hs).1)]
  exact readRows_recordLines out h

theorem atTwoDecimals_idem (s : Student) : atTwoDecimals (atTwoDecimals s) = atTwoDecimals s := by
  simp only [atTwoDecimals, Text.round2_hundredths]

end Vec

namespace Vec

theorem parseRecord_clean (fields : List (List Char)) (s : Student)
    (hf : ∀ f ∈ fields, CleanText f) (h : parseRecord fields = some s) : Clean s := by
  unfold parseRecord at h
  split at h
  · rename_i f0 f1 f2 f3 f4 f5 f6 f7 f8 rest
    split at h
    · cases h
    · split at h
      · cases h
      · split at h
        · cases h
        · split at h
          · cases h
          · simp only [Option.some.injEq] at h
            subst h
            refine ⟨hf f0 (by simp), hf f1 (by simp), hf f2 (by simp), hf f6 (by simp),
              hf f8 (by simp)⟩
  · cases h

theorem readRows_clean (lines : List (List Char)) :
    ∀ X : List Student, (∀ l ∈ lines, ∀ c ∈ l, c ≠ '\n') → readRows lines = some X →
      ∀ s ∈ X, Clean s := by
  induction lines with
  | nil =>
    intro X _ h s hs
    simp only [readRows, Option.some.injEq] at h
    subst h
    cases hs
  | cons line rest ih =>
    intro X hl h s hs
    have hrest : ∀ l ∈ rest, ∀ c ∈ l, c ≠ '\n' := fun l hl' => hl l (List.mem_cons_of_mem _ hl')
    have hfields : ∀ f ∈ parseCSVLine line, CleanText f := by
      intro f hf
      obtain ⟨h1, h2⟩ := Text.splitOn_mem ',' line f hf
      exact ⟨h1, fun c hc => hl line (List.mem_cons_self _ _) c (h2 c hc)⟩
    rw [readRows] at h
    split at h
    · cases hp : parseRecord (parseCSVLine line) with
      | none => rw [hp] at h; cases h
      | some st =>
        rw [hp] at h
        cases hr : readRows rest with
        | none => rw [hr] at h; cases h
        | some Y =>
          rw [hr] at h
          simp only [Option.some.injEq] at h
          subst h
          rcases List.mem_cons.1 hs with rfl | hs
          · exact parseRecord_clean _ _ hfields hp
          · exact ih Y hrest hr s hs
    · exact ih X hrest h s hs

/-- Every record read by `readCSVToVector` has text fields free of separators. -/
theorem readCSVToVector_clean (text : List Char) (X : List Student)
    (h : readCSVToVector text = some X) : ∀ s ∈ X, Clean s := by
  apply readRows_clean _ X _ h
  intro l hl c hc
  exact (Text.splitOn_mem '\n' text l (List.mem_of_mem_drop hl)).1 c hc

/-- C20 as stated fails: a file whose first data row has day 0 is read, sorted, saved and
read back as two copies of the second record; a file whose row has an empty ninth field
(and a tenth) is read as one record and read back as none. -/
theorem roundTrip_counterexample :
    (readCSVToVector zeroDayFile = some [ann 0 "555", bob (15 / 2)] ∧
      roundTrip [ann 0 "555", bob (15 / 2)] = some [bob (15 / 2), bob (15 / 2)] ∧
      ¬ List.Perm ([bob (15 / 2), bob (15 / 2)].map atTwoDecimals)
        ([ann 0 "555", bob (15 / 2)].map atTwoDecimals)) ∧
    (readCSVToVector emptyPhoneFile = some [ann 5 ""] ∧
      roundTrip [ann 5 ""] = some [] ∧
      ¬ List.Perm (([] : List Student).map atTwoDecimals) ([ann 5 ""].map atTwoDecimals)) := by
  decide!

/-- C20 amended: for every sequence X of records produced by `readCSVToVector` in which
every day is in [1,31], every month in [1,12] and every `m_phone_number` is non-empty,
sorting X with `radixSortByBirthday`, writing it with `saveToCSV` and reading the written
text back with `readCSVToVector` gives a sequence that, with scores taken at 2-decimal
precision, is a permutation of X field for field. -/
theorem roundTrip_in_range (text : List Char) (X : List Student)
    (hX : readCSVToVector text = some X) (hr : InRange X)
    (hp : ∀ s ∈ X, s.m_phone_number.toList ≠ []) :
    ∃ Y, roundTrip X = some Y ∧ Y.length = X.length ∧
      (Y.map atTwoDecimals).Perm (X.map atTwoDecimals) := by
  have hclean := readCSVToVector_clean text X hX
  have hsort := radixSortByBirthday_eq X hr
  have hperm := sorted_perm_of_inRange X hr
  obtain ⟨out, hout⟩ : ∃ out, out =
      gather (fun s => s.m_birth_month) (gather (fun s => s.m_birth_day) X 1 31) 1 12 :=
    ⟨_, rfl⟩
  rw [← hout] at hsort hperm
  refine ⟨out.map atTwoDecimals, ?_, ?_, ?_⟩
  · rw [roundTrip, hsort]
    exact readCSVToVector_saveToCSV _ (fun s hs =>
      ⟨hclean s (hperm.mem_iff.1 hs), hp s (hperm.mem_iff.1 hs)⟩)
  · rw [List.length_map, hperm.length_eq]
  · rw [List.map_map]
    have : (atTwoDecimals ∘ atTwoDecimals) = atTwoDecimals := by
      funext s
      exact atTwoDecimals_idem s
    rw [this]
    exact hperm.map _

/-- Witness of C20 amended: a file of two rows in range, the second with a score of three
decimals, comes back sorted with the score at two decimals. -/
theorem roundTrip_in_range_witness :
    readCSVToVector plainFile = some [ann 5 "555", bob (57 / 8)] ∧
    roundTrip [ann 5 "555", bob (57 / 8)] = some [bob (178 / 25), ann 5 "555"] ∧
    ∃ Y, roundTrip [ann 5 "555", bob (57 / 8)] = some Y ∧
      Y.length = [ann 5 "555", bob (57 / 8)].length ∧
      (Y.map atTwoDecimals).Perm ([ann 5 "555", bob (57 / 8)].map atTwoDecimals) :=
  ⟨by decide!, by decide!,
    roundTrip_in_range plainFile [ann 5 "555", bob (57 / 8)] (by decide!) (by decide)
      (by decide)⟩

end Vec

/-! ### Repeated queries -/

namespace OptimizedStudentDB

theorem query_frame (db : OptimizedStudentDB) :
    (if db.cacheValid = true then db else rebuildCache db).studentsByEmail = db.studentsByEmail ∧
    (if db.cacheValid = true then db else rebuildCache db).groupStats = db.groupStats ∧
    (if db.cacheValid = true then db else rebuildCache db).cacheValid = true := by
  by_cases hv : db.cacheValid = true
  · simp only [if_pos hv]
    exact ⟨trivial, trivial, hv⟩
  · simp only [if_neg hv]
    exact rebuildCache_frame db

theorem query_valid (d : OptimizedStudentDB) (hv : d.cacheValid = true) :
    findGroupWithMostStudents d = (d.cachedMaxCountGroup, d) ∧
    findGroupWithHighestRating d = (d.cachedMaxRatingGroup, d) := by
  simp [findGroupWithMostStudents, findGroupWithHighestRating, hv]

/-- C23: for every store state, `findGroupWithMostStudents()` and
`findGroupWithHighestRating()` leave `studentsByEmail` and `groupStats` unchanged and leave
`cacheValid` true; a second call of the same query right after the first returns the same
label and leaves every field as the first call left it. -/
theorem queries_read_only (db : OptimizedStudentDB) :
    ((findGroupWithMostStudents db).2.studentsByEmail = db.studentsByEmail ∧
      (findGroupWithMostStudents db).2.groupStats = db.groupStats ∧
      (findGroupWithMostStudents db).2.cacheValid = true) ∧
    ((findGroupWithHighestRating db).2.studentsByEmail = db.studentsByEmail ∧
      (findGroupWithHighestRating db).2.groupStats = db.groupStats ∧
      (findGroupWithHighestRating db).2.cacheValid = true) ∧
    findGroupWithMostStudents (findGroupWithMostStudents db).2 =
      ((findGroupWithMostStudents db).1, (findGroupWithMostStudents db).2) ∧
    findGroupWithHighestRating (findGroupWithHighestRating db).2 =
      ((findGroupWithHighestRating db).1, (findGroupWithHighestRating db).2) := by
  obtain ⟨h1, h2, h3, h4⟩ := query_state db
  obtain ⟨f1, f2, f3⟩ := query_frame db
  have v1 : (findGroupWithMostStudents db).2.cacheValid = true := by rw [h1]; exact f3
  have v2 : (findGroupWithHighestRating db).2.cacheValid = true := by rw [h2]; exact f3
  refine ⟨⟨by rw [h1]; exact f1, by rw [h1]; exact f2, v1⟩,
    ⟨by rw [h2]; exact f1, by rw [h2]; exact f2, v2⟩, ?_, ?_⟩
  · rw [(query_valid _ v1).1, ← h3]
  · rw [(query_valid _ v2).2, ← h4]

end OptimizedStudentDB

/-! ### The comparison sort as an oracle -/

namespace Hash

/-- C24: for every vector of students (any integer months and days), `quickSort(students,
0, n-1)` returns and leaves a permutation of the input that is ordered by `compare`:
for positions `i < j` the record at `j` is not strictly before the record at `i`, that is
the vector is ascending by `(m_birth_month, m_birth_day)`; for `n = 0` (called with
`high = -1`) it leaves the empty vector. -/
theorem quickSort_sorted_perm (v : List Student) :
    (∃ q, quickSort v 0 ((v.length : Int) - 1) = some q ∧ q.Perm v ∧ q.length = v.length ∧
      ∀ (i j : Nat) (hij : i < j) (hj : j < q.length),
        compare (q.get ⟨j, hj⟩) (q.get ⟨i, Nat.lt_trans hij hj⟩) = false ∧
        BirthdayLE (q.get ⟨i, Nat.lt_trans hij hj⟩) (q.get ⟨j, hj⟩)) ∧
    quickSort [] 0 (-1) = some [] := by
  refine ⟨?_, rfl⟩
  obtain ⟨q, hq, hperm, hsorted⟩ := quickSort_whole v
  refine ⟨q, hq, hperm, hperm.length_eq, ?_⟩
  intro i j hij hj
  have h := List.pairwise_iff_get.1 hsorted ⟨i, Nat.lt_trans hij hj⟩ ⟨j, hj⟩ hij
  exact ⟨h, (notAfter_iff _ _).1 h⟩

/-- Witness of C24 on the sorting scenario: the sorted vector and one ordered pair. -/
theorem quickSort_sorted_perm_witness :
    quickSort sortScenario 0 3 =
      some [mkStudent "fourth" 1 20 "G2" 7, mkStudent "second" 1 20 "G1" 4,
        mkStudent "third" 3 2 "G2" 9, mkStudent "first" 3 15 "G1" 8] ∧
    ∃ q, quickSort sortScenario 0 ((sortScenario.length : Int) - 1) = some q ∧
      q.Perm sortScenario ∧ q.length = sortScenario.length ∧
      ∀ (i j : Nat) (hij : i < j) (hj : j < q.length),
        compare (q.get ⟨j, hj⟩) (q.get ⟨i, Nat.lt_trans hij hj⟩) = false ∧
        BirthdayLE (q.get ⟨i, Nat.lt_trans hij hj⟩) (q.get ⟨j, hj⟩) :=
  ⟨by decide, (quickSort_sorted_perm sortScenario).1⟩

end Hash

/-! ### Bounds of the radix sort -/

theorem radixPass_steps (key : Student → Int) (nb : Nat) (l : List Student) (hnb : 1 ≤ nb)
    (h : ∀ s ∈ l, 0 ≤ key s ∧ key s < (nb : Int)) :
    ∃ b i, fillBuckets key (List.replicate nb []) l = some b ∧ b.length = nb ∧
      writeBuckets b 1 (nb - 1) l 0 = some (leftBy key nb l, i) ∧ i ≤ l.length ∧
      radixPass key nb l = some (leftBy key nb l) := by
  obtain ⟨b, hb, hlen, hget⟩ := fillBuckets_spec key l (List.replicate nb []) (by
    intro s hs
    simpa using h s hs)
  have hfun : (fun k => b.getD k []) = withKey key l := by
    funext k
    rw [hget k]
    simp [List.getD_eq_getElem?_getD, List.getElem?_replicate]
    split <;> rfl
  have hG : (List.range' 1 (nb - 1)).flatMap (fun k => b.getD k []) =
      gather key l 1 (nb - 1) := by
    rw [hfun]; rfl
  have hle := gather_length_le key l 1 (nb - 1)
  have hw := writeBuckets_spec b (nb - 1) 1 l 0 (by simp at hlen; omega) (by
    rw [hG]
    omega)
  rw [hG] at hw
  simp only [List.take_zero, List.nil_append, Nat.zero_add] at hw
  refine ⟨b, (gather key l 1 (nb - 1)).length, hb, by simpa using hlen, hw, hle, ?_⟩
  exact radixPass_eq key nb l hnb h

/-- C26: for every vector of `n` students with every day in [0,31] and every month in
[0,12], in both passes every `buckets[key]` access is inside the 32-slot or 13-slot bucket
array (the distribution returns), every `buckets[i]` read and every write
`students[index++]` is inside its vector (the write-back returns) and the final `index` is
at most `n`; so `radixSort` and `radixSortByBirthday` return. -/
theorem radixSort_in_bounds (students : List Student) (h : InBuckets students) :
    ∃ b1 s1 i1 b2 s2 i2,
      fillBuckets (fun s => s.m_birth_day) (List.replicate 32 []) students = some b1 ∧
      b1.length = 32 ∧
      writeBuckets b1 1 31 students 0 = some (s1, i1) ∧ i1 ≤ students.length ∧
      s1.length = students.length ∧
      fillBuckets (fun s => s.m_birth_month) (List.replicate 13 []) s1 = some b2 ∧
      b2.length = 13 ∧
      writeBuckets b2 1 12 s1 0 = some (s2, i2) ∧ i2 ≤ students.length ∧
      radixSort students = some s2 ∧ radixSortByBirthday students = some s2 := by
  obtain ⟨b1, i1, f1, l1, w1, hi1, _⟩ := radixPass_steps (fun s => s.m_birth_day) 32 students
    (by omega) (by
      intro s hs
      have := (h s hs).1
      push_cast
      omega)
  obtain ⟨b2, i2, f2, l2, w2, hi2, _⟩ := radixPass_steps (fun s => s.m_birth_month) 13
    (leftBy (fun s => s.m_birth_day) 32 students) (by omega) (by
      intro s hs
      have := (h s (mem_leftBy hs)).2
      push_cast
      omega)
  obtain ⟨r1, r2⟩ := radixSort_inBuckets students h
  rw [length_leftBy] at hi2
  exact ⟨b1, _, i1, b2, _, i2, f1, l1, w1, hi1, length_leftBy _ _ _, f2, l2, w2, hi2, r1, r2⟩

/-- Witness of C26: the input with a day 0. -/
theorem radixSort_in_bounds_witness :
    InBuckets zeroDayInput ∧
    ∃ b1 s1 i1 b2 s2 i2,
      fillBuckets (fun s => s.m_birth_day) (List.replicate 32 []) zeroDayInput = some b1 ∧
      b1.length = 32 ∧
      writeBuckets b1 1 31 zeroDayInput 0 = some (s1, i1) ∧ i1 ≤ zeroDayInput.length ∧
      s1.length = zeroDayInput.length ∧
      fillBuckets (fun s => s.m_birth_month) (List.replicate 13 []) s1 = some b2 ∧
      b2.length = 13 ∧
      writeBuckets b2 1 12 s1 0 = some (s2, i2) ∧ i2 ≤ zeroDayInput.length ∧
      radixSort zeroDayInput = some s2 ∧ radixSortByBirthday zeroDayInput = some s2 :=
  ⟨by decide, radixSort_in_bounds zeroDayInput (by decide)⟩

/-! ### The highest average with positive scores -/

namespace OptimizedStudentDB

theorem mem_update {V : Type} (d : V) (f : V → V) (m : List (String × V)) (k : String)
    (p : String × V) (h : p ∈ UMap.update d f m k) :
    p ∈ m ∨ (∃ v, (p.1, v) ∈ m ∧ p.1 = k ∧ p.2 = f v) ∨ p = (k, f d) := by
  induction m with
  | nil =>
    simp only [UMap.update, List.mem_singleton] at h
    exact Or.inr (Or.inr h)
  | cons q rest ih =>
    obtain ⟨a, v⟩ := q
    by_cases ha : a = k
    · simp only [UMap.update, if_pos ha, List.mem_cons] at h
      rcases h with rfl | h
      · exact Or.inr (Or.inl ⟨v, List.mem_cons_self _ _, ha, rfl⟩)
      · exact Or.inl (List.mem_cons_of_mem _ h)
    · simp only [UMap.update, if_neg ha, List.mem_cons] at h
      rcases h with rfl | h
      · exact Or.inl (List.mem_cons_self _ _)
      · rcases ih h with h1 | ⟨w, h2, h3, h4⟩ | h5
        · exact Or.inl (List.mem_cons_of_mem _ h1)
        · exact Or.inr (Or.inl ⟨w, List.mem_cons_of_mem _ h2, h3, h4⟩)
        · exact Or.inr (Or.inr h5)

theorem insertRecord_ratingsPositive (db : OptimizedStudentDB) (s : Student)
    (h : RatingsPositive db.studentsByEmail) (hs : 0 < s.m_rating) :
    RatingsPositive (insertRecord db s).studentsByEmail := by
  intro p hp
  rcases mem_update _ _ _ _ p hp with h1 | ⟨w, _, _, h4⟩ | h5
  · exact h p h1
  · rw [h4]; exact hs
  · rw [h5]; exact hs

theorem foldl_insert_ratingsPositive (recs : List Student) :
    ∀ db : OptimizedStudentDB, RatingsPositive db.studentsByEmail →
      (∀ r ∈ recs, 0 < r.m_rating) →
      RatingsPositive (recs.foldl insertRecord db).studentsByEmail := by
  induction recs with
  | nil => intro db h _; exact h
  | cons r rest ih =>
    intro db h hr
    exact ih _ (insertRecord_ratingsPositive db r h (hr r (List.mem_cons_self _ _)))
      (fun t ht => hr t (List.mem_cons_of_mem _ ht))

theorem changeGroupByEmail_ratingsPositive (db : OptimizedStudentDB) (email g : String)
    (h : RatingsPositive db.studentsByEmail) :
    RatingsPositive (changeGroupByEmail db email g).2.studentsByEmail := by
  cases hf : UMap.find db.studentsByEmail email with
  | none => rw [changeGroupByEmail_none db email g hf]; exact h
  | some st =>
    by_cases hg : st.m_group = g
    · rw [changeGroupByEmail_same db email g st hf hg]; exact h
    · rw [(changeGroupByEmail_move db email g st hf hg).2.2.1]
      intro p hp
      rcases mem_update _ _ _ _ p hp with h1 | ⟨w, h2, _, h4⟩ | h5
      · exact h p h1
      · rw [h4]; exact h _ h2
      · rw [h5]; exact h (email, st) (UMap.mem_of_find hf)

theorem step_store_of_query (db : OptimizedStudentDB) :
    (findGroupWithMostStudents db).2.studentsByEmail = db.studentsByEmail ∧
    (findGroupWithHighestRating db).2.studentsByEmail = db.studentsByEmail := by
  obtain ⟨h1, h2, _, _⟩ := query_state db
  rw [h1, h2]
  exact ⟨(query_frame db).1, (query_frame db).1⟩

theorem run_ratingsPositive (ops : List Op) :
    ∀ db : OptimizedStudentDB, (∀ o ∈ ops, o.isChangeOrQuery = true) →
      RatingsPositive db.studentsByEmail → RatingsPositive (run db ops).studentsByEmail := by
  induction ops with
  | nil => intro db _ h; exact h
  | cons o rest ih =>
    intro db ho h
    refine ih (step db o) (fun o' ho' => ho o' (List.mem_cons_of_mem _ ho')) ?_
    have hq := ho o (List.mem_cons_self _ _)
    cases o with
    | insert s => simp [Op.isChangeOrQuery] at hq
    | load file => simp [Op.isChangeOrQuery] at hq
    | rebuild => simp [Op.isChangeOrQuery] at hq
    | change e g => exact changeGroupByEmail_ratingsPositive db e g h
    | findMost =>
      show RatingsPositive (findGroupWithMostStudents db).2.studentsByEmail
      rw [(step_store_of_query db).1]; exact h
    | findHighest =>
      show RatingsPositive (findGroupWithHighestRating db).2.studentsByEmail
      rw [(step_store_of_query db).2]; exact h

theorem built_ratingsPositive (recs : List Student) (whole : Bool) (ops : List Op)
    (hpos : ∀ r ∈ recs, 0 < r.m_rating) (hops : ∀ o ∈ ops, o.isChangeOrQuery = true) :
    RatingsPositive (built recs whole ops).studentsByEmail := by
  have h0 : RatingsPositive (recs.foldl insertRecord empty).studentsByEmail :=
    foldl_insert_ratingsPositive recs empty (by intro p hp; cases hp) hpos
  unfold built
  apply run_ratingsPositive ops _ hops
  cases whole with
  | true =>
    simp only [if_true, loadFromCSV]
    rw [(rebuildCache_frame _).1]
    exact h0
  | false =>
    simp only [Bool.false_eq_true, if_false, run_map_insert]
    exact h0

theorem average_pos_of_ratingsPositive (m : List (String × Student))
    (h : RatingsPositive m) (hne : m ≠ []) : ∃ g0, 0 < averageInGroup m g0 := by
  obtain ⟨p0, hp0⟩ := List.exists_mem_of_ne_nil _ hne
  refine ⟨p0.2.m_group, ?_⟩
  have hmem : p0 ∈ membersOf m p0.2.m_group := by simp [membersOf, hp0]
  have hcnt : 0 < countInGroup m p0.2.m_group := by
    have := List.length_pos_of_mem hmem
    simp only [countInGroup]
    omega
  have hsum : 0 < ratingInGroup m p0.2.m_group := by
    apply List.sum_pos
    · intro x hx
      obtain ⟨q, hq, rfl⟩ := List.mem_map.1 hx
      exact h q (List.mem_filter.1 hq).1
    · intro hnil
      have := List.map_eq_nil_iff.1 hnil
      rw [this] at hmem
      cases hmem
  unfold averageInGroup
  exact div_pos hsum (by exact_mod_cast hcnt)

/-- C21: for every non-empty store built by ingesting records with pairwise distinct
e-mails and strictly positive scores (exact rationals) and then taken through any
`changeGroupByEmail` calls and extremum queries, the next `findGroupWithHighestRating()`
returns the label of an existing group (it has an entry and at least one member) whose
from-scratch average is greater than or equal to the average of every other group. -/
theorem findGroupWithHighestRating_positive (recs : List Student) (whole : Bool)
    (ops : List Op) (hd : (recs.map (fun r => r.m_email)).Nodup)
    (hpos : ∀ r ∈ recs, 0 < r.m_rating) (hops : ∀ o ∈ ops, o.isChangeOrQuery = true)
    (hne : (built recs whole ops).studentsByEmail ≠ []) :
    (∃ st, ((findGroupWithHighestRating (built recs whole ops)).1, st) ∈
      (built recs whole ops).groupStats) ∧
    1 ≤ countInGroup (built recs whole ops).studentsByEmail
      (findGroupWithHighestRating (built recs whole ops)).1 ∧
    ∀ g, 1 ≤ countInGroup (built recs whole ops).studentsByEmail g →
      averageInGroup (built recs whole ops).studentsByEmail g ≤
        averageInGroup (built recs whole ops).studentsByEmail
          (findGroupWithHighestRating (built recs whole ops)).1 := by
  obtain ⟨hwf, hex, hci⟩ := built_inv recs whole ops hd hops
  obtain ⟨q0, q1, q2, _, _, q5⟩ := query_inv _ hwf hex.pos hci
  have hwf2 : WF (findGroupWithMostStudents (built recs whole ops)).2 := by
    unfold WF; rw [q1, q2]; exact hwf
  have hex2 : Exact (findGroupWithMostStudents (built recs whole ops)).2 := by
    unfold Exact; rw [q1, q2]; exact hex
  have havg := average_pos_of_ratingsPositive _ (built_ratingsPositive recs whole ops hpos hops)
    hne
  have hmax := rating_label_max hwf2 hex2 q5 (by rw [q1]; exact havg)
  rw [q1, q0, ← (query_state _).2.2.2] at hmax
  refine ⟨?_, hmax.1, hmax.2⟩
  apply (exact_entries hwf hex _).1.2
  apply (count_ne_zero_iff _ _).1
  have := hmax.1
  omega

/-- Witness of C21: A in G1 (8.0), B in G1 (4.0), C in G2 (9.0) answers "G2"; after moving
B to G2 the highest average is in "G1" and the most students are in "G2". -/
theorem findGroupWithHighestRating_positive_witness :
    (findGroupWithHighestRating (built scenarioRecords false [])).1 = "G2" ∧
    (findGroupWithHighestRating (built scenarioRecords false [Op.change "B" "G2"])).1 = "G1" ∧
    (findGroupWithMostStudents (built scenarioRecords false [Op.change "B" "G2"])).1 = "G2" ∧
    (∃ st, ((findGroupWithHighestRating (built scenarioRecords false [Op.change "B" "G2"])).1,
        st) ∈ (built scenarioRecords false [Op.change "B" "G2"]).groupStats) ∧
    1 ≤ countInGroup (built scenarioRecords false [Op.change "B" "G2"]).studentsByEmail
      (findGroupWithHighestRating (built scenarioRecords false [Op.change "B" "G2"])).1 ∧
    ∀ g, 1 ≤ countInGroup (built scenarioRecords false [Op.change "B" "G2"]).studentsByEmail
        g →
      averageInGroup (built scenarioRecords false [Op.change "B" "G2"]).studentsByEmail g ≤
        averageInGroup (built scenarioRecords false [Op.change "B" "G2"]).studentsByEmail
          (findGroupWithHighestRating (built scenarioRecords false [Op.change "B" "G2"])).1 :=
  ⟨by decide!, by decide!, by decide!,
    findGroupWithHighestRating_positive scenarioRecords false [Op.change "B" "G2"]
      (by decide) (by decide!) (by decide) (by decide!)⟩

end OptimizedStudentDB

/-! ### Termination of the comparison sort -/

namespace Hash

theorem partitionLoop_congr (pivot : Student) (low high : Int) :
    ∀ (cnt : Nat) (v w : List Student) (i j : Int),
      0 ≤ low → high < (v.length : Int) → high < (w.length : Int) → low ≤ j →
      j + (cnt : Int) = high → low - 1 ≤ i → i < j →
      (∀ k, low ≤ k → k ≤ high → getAt w k = getAt v k) →
      ∀ v1 i1, partitionLoop pivot cnt v i j = some (v1, i1) →
        ∃ w1, partitionLoop pivot cnt w i j = some (w1, i1) ∧ w1.length = w.length ∧
          ∀ k, low ≤ k → k ≤ high → getAt w1 k = getAt v1 k := by
  intro cnt
  induction cnt with
  | zero =>
    intro v w i j _ _ _ _ _ _ _ hag v1 i1 hrun
    simp only [partitionLoop, Option.some.injEq, Prod.mk.injEq] at hrun
    obtain ⟨rfl, rfl⟩ := hrun
    exact ⟨w, rfl, rfl, hag⟩
  | succ cnt ih =>
    intro v w i j hlow hv hw hlj hj hi hij hag v1 i1 hrun
    have hjh : j < high := by push_cast at hj; omega
    obtain ⟨x, hx⟩ := getAt_of_bounds v j (by omega) (by omega)
    have hxw : getAt w j = some x := by rw [hag j hlj (by omega), hx]
    rw [partitionLoop, hx] at hrun
    simp only at hrun
    rw [partitionLoop, hxw]
    simp only
    by_cases hc : compare x pivot = true
    · rw [if_pos hc] at hrun ⊢
      obtain ⟨v2, hsv, hlv, _, hgv⟩ :=
        swapAt_spec v (i + 1) j (by omega) (by omega) (by omega) (by omega)
      obtain ⟨w2, hsw, hlw, _, hgw⟩ :=
        swapAt_spec w (i + 1) j (by omega) (by omega) (by omega) (by omega)
      rw [hsv] at hrun
      simp only at hrun
      rw [hsw]
      simp only
      have hag2 : ∀ k, low ≤ k → k ≤ high → getAt w2 k = getAt v2 k := by
        intro k hk1 hk2
        rw [hgw k, hgv k, hag (i + 1) (by omega) (by omega), hag j hlj (by omega),
          hag k hk1 hk2]
      obtain ⟨w1, h1, h2, h3⟩ := ih v2 w2 (i + 1) (j + 1) hlow (by rw [hlv]; exact hv)
        (by rw [hlw]; exact hw) (by omega) (by push_cast at hj ⊢; omega) (by omega) (by omega)
        hag2 v1 i1 hrun
      exact ⟨w1, h1, h2.trans hlw, h3⟩
    · rw [if_neg hc] at hrun ⊢
      exact ih v w i (j + 1) hlow hv hw (by omega) (by push_cast at hj ⊢; omega) hi (by omega)
        hag v1 i1 hrun

theorem partition_congr (v w : List Student) (low high : Int) (h0 : 0 ≤ low)
    (hlh : low ≤ high) (hv : high < (v.length : Int)) (hw : high < (w.length : Int))
    (hag : ∀ k, low ≤ k → k ≤ high → getAt w k = getAt v k)
    (v2 : List Student) (p : Int) (hrun : partition v low high = some (v2, p)) :
    ∃ w2, partition w low high = some (w2, p) ∧
      ∀ k, low ≤ k → k ≤ high → getAt w2 k = getAt v2 k := by
  obtain ⟨pivot, hpiv⟩ := getAt_of_bounds v high (by omega) hv
  have hpivw : getAt w high = some pivot := by rw [hag high hlh (le_refl _), hpiv]
  obtain ⟨v1, i1, hloop, hi1, hi2, hlen1, _, _, _, _, _⟩ :=
    partitionLoop_spec pivot low high (high - low).toNat v (low - 1) low h0 hv (le_refl _)
      (by omega) (le_refl _) (by omega)
      (by intro k a b; omega) (by intro k a b; omega)
  obtain ⟨w1, hloopw, hlenw, hag1⟩ :=
    partitionLoop_congr pivot low high (high - low).toNat v w (low - 1) low h0 hv hw
      (le_refl _) (by omega) (le_refl _) (by omega) hag v1 i1 hloop
  obtain ⟨v3, hsv, _, _, hgv⟩ :=
    swapAt_spec v1 (i1 + 1) high (by omega) (by omega) (by omega) (by omega)
  obtain ⟨w3, hsw, _, _, hgw⟩ :=
    swapAt_spec w1 (i1 + 1) high (by omega) (by omega) (by omega) (by omega)
  simp only [partition, hpiv, hloop, hsv, Option.some.injEq, Prod.mk.injEq] at hrun
  obtain ⟨rfl, rfl⟩ := hrun
  refine ⟨w3, by simp only [partition, hpivw, hloopw, hsw], ?_⟩
  intro k hk1 hk2
  rw [hgw k, hgv k, hag1 (i1 + 1) (by omega) (by omega), hag1 high hlh (le_refl _),
    hag1 k hk1 hk2]

theorem quickSortFuel_succ :
    ∀ (fuel : Nat) (v : List Student) (low high : Int) (r : List Student),
      quickSortFuel fuel v low high = some r → quickSortFuel (fuel + 1) v low high = some r := by
  intro fuel
  induction fuel with
  | zero =>
    intro v low high r h
    by_cases hlt : low < high
    · simp [quickSortFuel, hlt] at h
    · rw [quickSortFuel, if_neg hlt] at h
      rw [quickSortFuel, if_neg hlt]
      exact h
  | succ fuel ih =>
    intro v low high r h
    by_cases hlt : low < high
    · rw [quickSortFuel, if_pos hlt] at h
      rw [quickSortFuel, if_pos hlt]
      cases hp : partition v low high with
      | none => rw [hp] at h; cases h
      | some res =>
        obtain ⟨v1, p⟩ := res
        rw [hp] at h
        simp only at h ⊢
        cases hq : quickSortFuel fuel v1 low (p - 1) with
        | none => rw [hq] at h; cases h
        | some v2 =>
          rw [hq] at h
          simp only at h
          rw [ih v1 low (p - 1) v2 hq]
          simp only
          exact ih v2 (p + 1) high r h
    · rw [quickSortFuel, if_neg hlt] at h
      rw [quickSortFuel, if_neg hlt]
      exact h

theorem quickSortFuel_add (k : Nat) :
    ∀ (fuel : Nat) (v : List Student) (low high : Int) (r : List Student),
      quickSortFuel fuel v low high = some r → quickSortFuel (fuel + k) v low high = some r := by
  induction k with
  | zero => intro fuel v low high r h; exact h
  | succ k ih =>
    intro fuel v low high r h
    exact quickSortFuel_succ (fuel + k) v low high r (ih fuel v low high r h)

/-- C25: for every vector and every `0 ≤ low ≤ high < n`, `partition(students, low, high)`
returns an index `p` with `low ≤ p ≤ high`, leaves every position outside `[low, high]` as
it was, and depends on the positions `[low, high]` only (on a vector that agrees there it
returns the same `p` and leaves the same contents there); both recursive calls are on
strictly shorter ranges, and `quickSort` returns: every recursion-depth bound of at least
`high - low` gives the same result. -/
theorem quickSort_terminates (v : List Student) (low high : Int) (h0 : 0 ≤ low)
    (hlh : low ≤ high) (hh : high < (v.length : Int)) :
    (∃ v1 p, partition v low high = some (v1, p) ∧ low ≤ p ∧ p ≤ high ∧
      v1.length = v.length ∧
      (∀ k, (k < low ∨ high < k) → getAt v1 k = getAt v k) ∧
      (∀ w : List Student, high < (w.length : Int) →
        (∀ k, low ≤ k → k ≤ high → getAt w k = getAt v k) →
        ∃ w1, partition w low high = some (w1, p) ∧
          ∀ k, low ≤ k → k ≤ high → getAt w1 k = getAt v1 k) ∧
      (p - 1) - low < high - low ∧ high - (p + 1) < high - low) ∧
    ∃ r, quickSort v low high = some r ∧
      ∀ fuel : Nat, high - low ≤ (fuel : Int) → quickSortFuel fuel v low high = some r := by
  constructor
  · obtain ⟨v1, p, _, hpart, hp1, hp2, hr, _, _, _⟩ := partition_spec v low high h0 hlh hh
    refine ⟨v1, p, hpart, hp1, hp2, hr.1, hr.2.2.1, ?_, by omega, by omega⟩
    intro w hw hag
    exact partition_congr v w low high h0 hlh hh hw hag v1 p hpart
  · obtain ⟨r, hr, _, _⟩ := quickSortFuel_spec (high - low).toNat v low high
      (fun _ => ⟨h0, hh⟩) (by omega)
    refine ⟨r, hr, ?_⟩
    intro fuel hf
    have he : fuel = (high - low).toNat + (fuel - (high - low).toNat) := by omega
    rw [he]
    exact quickSortFuel_add _ _ v low high r hr

/-- Witness of C25 on the sorting scenario, over the whole vector. -/
theorem quickSort_terminates_witness :
    (∃ v1 p, partition sortScenario 0 3 = some (v1, p) ∧ (0 : Int) ≤ p ∧ p ≤ 3 ∧
      v1.length = sortScenario.length ∧
      (∀ k, (k < 0 ∨ 3 < k) → getAt v1 k = getAt sortScenario k) ∧
      (∀ w : List Student, (3 : Int) < (w.length : Int) →
        (∀ k, 0 ≤ k → k ≤ 3 → getAt w k = getAt sortScenario k) →
        ∃ w1, partition w 0 3 = some (w1, p) ∧
          ∀ k, 0 ≤ k → k ≤ 3 → getAt w1 k = getAt v1 k) ∧
      (p - 1) - 0 < (3 : Int) - 0 ∧ 3 - (p + 1) < (3 : Int) - 0) ∧
    ∃ r, quickSort sortScenario 0 3 = some r ∧
      ∀ fuel : Nat, (3 : Int) - 0 ≤ (fuel : Int) → quickSortFuel fuel sortScenario 0 3 = some r :=
  quickSort_terminates sortScenario 0 3 (by decide) (by decide) (by decide)

end Hash

/-! ### The tie-break of the vector `findGroupWithMostStudents` -/

namespace Vec

theorem countStep_eq (gc : List (String × Int)) (s : Student) :
    countStep gc s = UMap.update 0 (fun c => c + 1) gc s.m_group := by
  induction gc with
  | nil => simp [countStep, bumpCount, UMap.update]
  | cons p rest ih =>
    obtain ⟨k, c⟩ := p
    by_cases hk : k = s.m_group
    · simp [countStep, bumpCount, UMap.update, hk]
    · simp only [countStep, bumpCount, UMap.update, if_neg hk] at ih ⊢
      rw [← ih]
      by_cases hb : (bumpCount rest s.m_group).1 = true
      · simp [hb]
      · simp [hb]

theorem groupSize_append (P : List Student) (s : Student) (g : String) :
    groupSize (P ++ [s]) g = groupSize P g + (if s.m_group = g then 1 else 0) := by
  by_cases h : s.m_group = g <;> simp [groupSize, List.filter_append, List.filter_cons, h]

theorem firstOf_lt_iff (P : List Student) (g : String) :
    firstOf P g < P.length ↔ groupSize P g ≠ 0 := by
  unfold firstOf groupSize
  rw [List.findIdx_lt_length]
  constructor
  · rintro ⟨x, hx, hp⟩ h0
    have : x ∈ P.filter (fun s => decide (s.m_group = g)) := List.mem_filter.2 ⟨hx, hp⟩
    rw [List.length_eq_zero.1 h0] at this
    cases this
  · intro h
    cases hf : P.filter (fun s => decide (s.m_group = g)) with
    | nil => rw [hf] at h; exact absurd rfl h
    | cons x rest =>
      have hx : x ∈ P.filter (fun s => decide (s.m_group = g)) := by rw [hf]; simp
      exact ⟨x, (List.mem_filter.1 hx).1, (List.mem_filter.1 hx).2⟩

theorem firstOf_append (P : List Student) (s : Student) (g : String) :
    firstOf (P ++ [s]) g =
      if groupSize P g ≠ 0 then firstOf P g
      else if s.m_group = g then P.length else P.length + 1 := by
  have key := firstOf_lt_iff P g
  unfold firstOf at key ⊢
  rw [List.findIdx_append]
  by_cases h : groupSize P g ≠ 0
  · rw [if_pos (key.2 h), if_pos h]
  · rw [if_neg (fun hh => h (key.1 hh)), if_neg h]
    by_cases hs : s.m_group = g
    · simp [List.findIdx_cons, hs]
    · simp [List.findIdx_cons, hs, Nat.add_comm]

/-- The counting loop: after a prefix `P` of the vector the pairs hold each group of `P`
once, with its size, in the order of first occurrence. -/
theorem countLoop_spec (P : List Student) :
    (UMap.keys (P.foldl countStep [])).Nodup ∧
    (∀ g, UMap.find (P.foldl countStep []) g =
      if groupSize P g = 0 then none else some (groupSize P g : Int)) ∧
    (UMap.keys (P.foldl countStep [])).Pairwise (fun a b => firstOf P a < firstOf P b) := by
  induction P using List.reverseRecOn with
  | nil =>
    refine ⟨by simp [UMap.keys], ?_, by simp [UMap.keys]⟩
    intro g
    simp [UMap.find, groupSize]
  | append_singleton P s ih =>
    obtain ⟨hnd, hfind, hpw⟩ := ih
    rw [List.foldl_append, List.foldl_cons, List.foldl_nil, countStep_eq]
    have hkeys : ∀ a, a ∈ UMap.keys (P.foldl countStep []) ↔ groupSize P a ≠ 0 := by
      intro a
      constructor
      · intro ha h0
        have := hfind a
        rw [if_pos h0] at this
        exact (UMap.find_eq_none_iff _ a).1 this ha
      · intro ha
        by_contra hn
        have := hfind a
        rw [if_neg ha, (UMap.find_eq_none_iff _ a).2 hn] at this
        cases this
    refine ⟨UMap.nodup_update _ _ _ _ hnd, ?_, ?_⟩
    · intro g
      rw [UMap.find_update, groupSize_append]
      by_cases hg : s.m_group = g
      · subst hg
        rw [if_pos rfl, if_pos rfl, hfind]
        by_cases h0 : groupSize P s.m_group = 0
        · simp [h0]
        · simp [h0]
      · rw [if_neg hg, if_neg hg, Nat.add_zero]
        exact hfind g
    · rw [UMap.keys_update]
      have hold : (UMap.keys (P.foldl countStep [])).Pairwise
          (fun a b => firstOf (P ++ [s]) a < firstOf (P ++ [s]) b) := by
        refine List.Pairwise.imp_of_mem ?_ hpw
        intro a b ha hb hab
        rw [firstOf_append, firstOf_append, if_pos ((hkeys a).1 ha), if_pos ((hkeys b).1 hb)]
        exact hab
      split
      · exact hold
      · rename_i hk
        rw [List.pairwise_append]
        refine ⟨hold, List.pairwise_singleton _ _, ?_⟩
        intro a ha b hb
        rw [List.mem_singleton] at hb
        subst hb
        have hz : ¬ groupSize P s.m_group ≠ 0 := fun h => hk ((hkeys _).2 h)
        rw [firstOf_append, firstOf_append, if_pos ((hkeys a).1 ha), if_neg hz, if_pos rfl]
        exact (firstOf_lt_iff P a).2 ((hkeys a).1 ha)

/-- The selecting loop keeps the first pair that holds the largest count. -/
theorem scan_first :
    ∀ (l : List (String × Int)) (acc : String × Int),
      (l.foldl (fun (acc : String × Int) pair =>
          if pair.2 > acc.2 then (pair.1, pair.2) else acc) acc = acc ∧
        ∀ p ∈ l, p.2 ≤ acc.2) ∨
      ∃ A p B, l = A ++ p :: B ∧
        l.foldl (fun (acc : String × Int) pair =>
          if pair.2 > acc.2 then (pair.1, pair.2) else acc) acc = p ∧
        acc.2 < p.2 ∧ (∀ q ∈ A, q.2 < p.2) ∧ ∀ q ∈ B, q.2 ≤ p.2 := by
  intro l
  induction l with
  | nil => intro acc; left; simp
  | cons x rest ih =>
    intro acc
    rw [List.foldl_cons]
    by_cases hx : x.2 > acc.2
    · rw [if_pos hx]
      right
      rcases ih (x.1, x.2) with ⟨h1, h2⟩ | ⟨A, p, B, hl, hres, hlt, hA, hB⟩
      · exact ⟨[], x, rest, rfl, h1, hx, by simp, h2⟩
      · refine ⟨x :: A, p, B, by rw [hl]; rfl, hres, lt_trans hx hlt, ?_, hB⟩
        intro q hq
        rcases List.mem_cons.1 hq with rfl | hq
        · exact hlt
        · exact hA q hq
    · rw [if_neg hx]
      rcases ih acc with ⟨h1, h2⟩ | ⟨A, p, B, hl, hres, hlt, hA, hB⟩
      · left
        refine ⟨h1, ?_⟩
        intro q hq
        rcases List.mem_cons.1 hq with rfl | hq
        · exact not_lt.1 hx
        · exact h2 q hq
      · right
        refine ⟨x :: A, p, B, by rw [hl]; rfl, hres, hlt, ?_, hB⟩
        intro q hq
        rcases List.mem_cons.1 hq with rfl | hq
        · exact lt_of_le_of_lt (not_lt.1 hx) hlt
        · exact hA q hq

/-- C27: for every non-empty vector of students the vector `findGroupWithMostStudents`
returns a group of the vector whose number of students is maximal, and every other group
with as many students has its first student later in the vector than the first student of
the returned group. -/
theorem findGroupWithMostStudents_tie_break (students : List Student)
    (hne : students ≠ []) :
    0 < groupSize students (findGroupWithMostStudents students) ∧
    (∀ g, groupSize students g ≤ groupSize students (findGroupWithMostStudents students)) ∧
    ∀ g, g ≠ findGroupWithMostStudents students →
      groupSize students g = groupSize students (findGroupWithMostStudents students) →
      firstOf students (findGroupWithMostStudents students) < firstOf students g := by
  obtain ⟨hnd, hfind, hpw⟩ := countLoop_spec students
  have hmem : ∀ g, groupSize students g ≠ 0 →
      (g, (groupSize students g : Int)) ∈ students.foldl countStep [] := by
    intro g hg
    have := hfind g
    rw [if_neg hg] at this
    exact UMap.mem_of_find this
  have hval : ∀ q ∈ students.foldl countStep [], q.2 = (groupSize students q.1 : Int) ∧
      groupSize students q.1 ≠ 0 := by
    intro q hq
    have h1 := UMap.find_of_mem hnd (show (q.1, q.2) ∈ students.foldl countStep [] from hq)
    rw [hfind] at h1
    by_cases h0 : groupSize students q.1 = 0
    · rw [if_pos h0] at h1; cases h1
    · rw [if_neg h0] at h1
      exact ⟨(Option.some.inj h1).symm, h0⟩
  unfold findGroupWithMostStudents
  rcases scan_first (students.foldl countStep []) ("", 0) with
    ⟨_, h2⟩ | ⟨A, p, B, hl, hres, _, hA, hB⟩
  · exfalso
    cases students with
    | nil => exact hne rfl
    | cons s rest =>
      have hs : groupSize (s :: rest) s.m_group ≠ 0 := by simp [groupSize, List.filter_cons]
      have := h2 _ (hmem _ hs)
      simp only at this
      omega
  · rw [hres]
    have hp : p ∈ students.foldl countStep [] := by rw [hl]; simp
    obtain ⟨hpv, hp0⟩ := hval p hp
    refine ⟨Nat.pos_of_ne_zero hp0, ?_, ?_⟩
    · intro g
      by_cases hg : groupSize students g = 0
      · omega
      · have hgm := hmem g hg
        rw [hl] at hgm
        rcases List.mem_append.1 hgm with h | h
        · have := hA _ h
          simp only at this
          omega
        · rcases List.mem_cons.1 h with h | h
          · have h1 : g = p.1 := congrArg Prod.fst h
            rw [← h1]
          · have := hB _ h
            simp only at this
            omega
    · intro g hgp hsz
      have hg : groupSize students g ≠ 0 := by omega
      have hgm := hmem g hg
      rw [hl] at hgm hpw
      have hgB : (g, (groupSize students g : Int)) ∈ B := by
        rcases List.mem_append.1 hgm with h | h
        · have := hA _ h
          simp only at this
          omega
        · rcases List.mem_cons.1 h with h | h
          · exact absurd (congrArg Prod.fst h) hgp
          · exact h
      simp only [UMap.keys, List.map_append, List.map_cons] at hpw
      have h3 := (List.pairwise_append.1 hpw).2.1
      exact (List.pairwise_cons.1 h3).1 g (List.mem_map.2 ⟨_, hgB, rfl⟩)

/-- Witness of C27: the groups `G2` and `G3` tie with two students each, and the first
student of `G2` comes first. -/
theorem findGroupWithMostStudents_tie_break_witness :
    findGroupWithMostStudents tieScenario = "G2" ∧
    groupSize tieScenario "G3" = groupSize tieScenario "G2" ∧
    0 < groupSize tieScenario (findGroupWithMostStudents tieScenario) ∧
    (∀ g, groupSize tieScenario g ≤
      groupSize tieScenario (findGroupWithMostStudents tieScenario)) ∧
    ∀ g, g ≠ findGroupWithMostStudents tieScenario →
      groupSize tieScenario g = groupSize tieScenario (findGroupWithMostStudents tieScenario) →
      firstOf tieScenario (findGroupWithMostStudents tieScenario) < firstOf tieScenario g :=
  ⟨by decide, by decide,
    findGroupWithMostStudents_tie_break tieScenario (by decide)⟩

end Vec

/-! ### Moving a record away and back -/

theorem UMap.update_update_cancel {V : Type} (d1 d2 : V) (f1 f2 : V → V) (e : String) :
    ∀ (m : List (String × V)) (v : V), UMap.find m e = some v → f2 (f1 v) = v →
      UMap.update d2 f2 (UMap.update d1 f1 m e) e = m := by
  intro m
  induction m with
  | nil => intro v h _; simp [UMap.find] at h
  | cons p rest ih =>
    intro v h hv
    obtain ⟨a, w⟩ := p
    by_cases ha : a = e
    · simp only [UMap.find, if_pos ha, Option.some.injEq] at h
      subst h
      simp only [UMap.update, if_pos ha, hv]
    · simp only [UMap.find, if_neg ha] at h
      simp only [UMap.update, if_neg ha, ih v h hv]

theorem UMap.perm_of_find_eq {V : Type} {m1 m2 : List (String × V)}
    (h1 : (UMap.keys m1).Nodup) (h2 : (UMap.keys m2).Nodup)
    (h : ∀ k, UMap.find m1 k = UMap.find m2 k) : m1.Perm m2 := by
  apply (List.perm_ext_iff_of_nodup (List.Nodup.of_map _ h1) (List.Nodup.of_map _ h2)).2
  intro p
  obtain ⟨k, v⟩ := p
  constructor
  · intro hm
    exact UMap.mem_of_find (by rw [← h]; exact UMap.find_of_mem h1 hm)
  · intro hm
    exact UMap.mem_of_find (by rw [h]; exact UMap.find_of_mem h2 hm)

theorem rating_single {m : List (String × Student)} {e : String} {st : Student}
    (hf : UMap.find m e = some st) (hc : countInGroup m st.m_group = 1) :
    ratingInGroup m st.m_group = st.m_rating := by
  have hmem : (e, st) ∈ membersOf m st.m_group :=
    List.mem_filter.2 ⟨UMap.mem_of_find hf, by simp⟩
  unfold countInGroup at hc
  unfold ratingInGroup
  have hlen : (membersOf m st.m_group).length = 1 := by exact_mod_cast hc
  obtain ⟨x, hx⟩ := List.length_eq_one.1 hlen
  rw [hx] at hmem ⊢
  rw [List.mem_singleton] at hmem
  subst hmem
  simp

namespace OptimizedStudentDB

theorem empty_tight : Tight empty := by
  intro g st h
  simp [empty, UMap.find] at h

theorem entry_tight {db : OptimizedStudentDB} (hp : Pos db) (ht : Tight db) (g : String)
    (h : (entry db.groupStats g).studentCount = countInGroup db.studentsByEmail g) :
    (entry db.groupStats g).totalRating = ratingInGroup db.studentsByEmail g := by
  unfold entry at h ⊢
  cases hf : UMap.find db.groupStats g with
  | none =>
    rw [rating_eq_zero_of_count_eq_zero _ _ ((hp g).2 hf)]
    rfl
  | some x =>
    rw [hf] at h
    exact ht g x hf h

theorem insertRecord_store_change (db : OptimizedStudentDB) (s : Student) (g : String) :
    ∃ (cw : Int) (rw : ℚ), 0 ≤ cw ∧ (cw = 0 → rw = 0) ∧
      countInGroup (insertRecord db s).studentsByEmail g =
        countInGroup db.studentsByEmail g - cw + countWeight g s ∧
      ratingInGroup (insertRecord db s).studentsByEmail g =
        ratingInGroup db.studentsByEmail g - rw + ratingWeight g s := by
  show ∃ (cw : Int) (rw : ℚ), 0 ≤ cw ∧ (cw = 0 → rw = 0) ∧
      countInGroup (UMap.update s (fun _ => s) db.studentsByEmail s.m_email) g =
        countInGroup db.studentsByEmail g - cw + countWeight g s ∧
      ratingInGroup (UMap.update s (fun _ => s) db.studentsByEmail s.m_email) g =
        ratingInGroup db.studentsByEmail g - rw + ratingWeight g s
  cases hf : UMap.find db.studentsByEmail s.m_email with
  | none =>
    refine ⟨0, 0, le_refl _, fun _ => rfl, ?_, ?_⟩
    · rw [count_update_absent _ _ _ _ _ hf]; ring
    · rw [rating_update_absent _ _ _ _ _ hf]; ring
  | some st0 =>
    refine ⟨countWeight g st0, ratingWeight g st0, ?_, ?_,
      count_update_present _ _ _ _ _ _ hf, rating_update_present _ _ _ _ _ _ hf⟩
    · unfold countWeight; split <;> decide
    · unfold countWeight ratingWeight
      intro h
      split at h
      · cases h
      · rename_i hne; rw [if_neg hne]

theorem insertRecord_tight (db : OptimizedStudentDB) (s : Student) (hp : Pos db)
    (ht : Tight db) : Tight (insertRecord db s) := by
  intro g x hx hc
  obtain ⟨cw, rw0, hcw, hrw, hcount, hrating⟩ := insertRecord_store_change db s g
  rw [insertRecord_groupStats] at hx
  rw [hcount] at hc
  rw [hrating]
  by_cases hg : s.m_group = g
  · subst hg
    rw [if_pos rfl, Option.some.injEq] at hx
    subst hx
    rw [countWeight_self] at hc
    rw [ratingWeight_self]
    simp only at hc ⊢
    have hb := hp.entry_bounds s.m_group
    have h0 : cw = 0 := by omega
    have he : (entry db.groupStats s.m_group).studentCount =
        countInGroup db.studentsByEmail s.m_group := by omega
    rw [entry_tight hp ht _ he, hrw h0]
    ring
  · rw [if_neg hg] at hx
    rw [countWeight_ne hg] at hc
    rw [ratingWeight_ne hg]
    have hb := ((hp g).1 x hx).2
    have h0 : cw = 0 := by omega
    have he : x.studentCount = countInGroup db.studentsByEmail g := by omega
    rw [ht g x hx he, hrw h0]
    ring

theorem foldl_insert_tight (rows : List Student) :
    ∀ db : OptimizedStudentDB, Pos db → Tight db →
      Pos (rows.foldl insertRecord db) ∧ Tight (rows.foldl insertRecord db) := by
  induction rows with
  | nil => intro db hp ht; exact ⟨hp, ht⟩
  | cons r rest ih =>
    intro db hp ht
    exact ih _ (insertRecord_pos db r hp) (insertRecord_tight db r hp ht)

theorem tight_of_frame {d1 d2 : OptimizedStudentDB}
    (hs : d2.studentsByEmail = d1.studentsByEmail) (hg : d2.groupStats = d1.groupStats)
    (ht : Tight d1) : Tight d2 := by
  intro g x hx hc
  rw [hg] at hx
  rw [hs] at hc ⊢
  exact ht g x hx hc

theorem changeGroupByEmail_tight (db : OptimizedStudentDB) (email newGroup : String)
    (hp : Pos db) (ht : Tight db) : Tight (changeGroupByEmail db email newGroup).2 := by
  cases hf : UMap.find db.studentsByEmail email with
  | none => rw [changeGroupByEmail_none db email newGroup hf]; exact ht
  | some st =>
    by_cases hg : st.m_group = newGroup
    · rw [changeGroupByEmail_same db email newGroup st hf hg]; exact ht
    · obtain ⟨_, _, hs, _, _, _, _, hgs⟩ := changeGroupByEmail_move db email newGroup st hf hg
      intro g x hx hc
      rw [hgs g] at hx
      rw [hs, move_count db email newGroup st hf g] at hc
      rw [hs, move_rating db email newGroup st hf g]
      by_cases h1 : newGroup = g
      · subst h1
        rw [if_pos rfl, Option.some.injEq] at hx
        subst hx
        rw [if_pos rfl, countWeight_ne hg] at hc
        rw [if_pos rfl, ratingWeight_ne hg]
        simp only at hc ⊢
        have he : (entry db.groupStats newGroup).studentCount =
            countInGroup db.studentsByEmail newGroup := by omega
        rw [entry_tight hp ht _ he]
        ring
      · rw [if_neg h1] at hx hc
        rw [if_neg h1]
        by_cases h2 : st.m_group = g
        · subst h2
          rw [if_pos rfl] at hx
          rw [countWeight_self] at hc
          rw [ratingWeight_self]
          by_cases hz : (entry db.groupStats st.m_group).studentCount - 1 = 0
          · rw [if_pos hz] at hx; cases hx
          · rw [if_neg hz, Option.some.injEq] at hx
            subst hx
            simp only at hc ⊢
            have he : (entry db.groupStats st.m_group).studentCount =
                countInGroup db.studentsByEmail st.m_group := by omega
            rw [entry_tight hp ht _ he]
            ring
        · rw [if_neg h2] at hx
          rw [countWeight_ne h2] at hc
          rw [ratingWeight_ne h2]
          have he : x.studentCount = countInGroup db.studentsByEmail g := by omega
          rw [ht g x hx he]
          ring

theorem step_tight (db : OptimizedStudentDB) (o : Op) (hp : Pos db) (ht : Tight db) :
    Tight (step db o) := by
  cases o with
  | insert s => exact insertRecord_tight db s hp ht
  | load file =>
    cases file with
    | none => exact ht
    | some rows =>
      exact tight_of_frame (rebuildCache_frame _).1 (rebuildCache_frame _).2.1
        (foldl_insert_tight rows db hp ht).2
  | change e g => exact changeGroupByEmail_tight db e g hp ht
  | findMost =>
    show Tight (findGroupWithMostStudents db).2
    rw [(query_state db).1]
    split
    · exact ht
    · exact tight_of_frame (rebuildCache_frame _).1 (rebuildCache_frame _).2.1 ht
  | findHighest =>
    show Tight (findGroupWithHighestRating db).2
    rw [(query_state db).2.1]
    split
    · exact ht
    · exact tight_of_frame (rebuildCache_frame _).1 (rebuildCache_frame _).2.1 ht
  | rebuild => exact tight_of_frame (rebuildCache_frame _).1 (rebuildCache_frame _).2.1 ht

theorem run_tight (ops : List Op) :
    ∀ db : OptimizedStudentDB, Pos db → Tight db → Tight (run db ops) := by
  induction ops with
  | nil => intro db _ ht; exact ht
  | cons o rest ih => intro db hp ht; exact ih _ (step_pos db o hp) (step_tight db o hp ht)

/-- On a store whose index entries are positive and tight, moving a present record to
another group and back restores the record store and every lookup of the group index. -/
theorem moveAndBack_spec (db : OptimizedStudentDB) (hp : Pos db) (ht : Tight db)
    (email g2 : String) (st : Student)
    (hf : UMap.find db.studentsByEmail email = some st) :
    (moveAndBack db email st.m_group g2).studentsByEmail = db.studentsByEmail ∧
    ∀ g, UMap.find (moveAndBack db email st.m_group g2).groupStats g =
      UMap.find db.groupStats g := by
  unfold moveAndBack
  by_cases hg : st.m_group = g2
  · rw [changeGroupByEmail_same db email g2 st hf hg]
    simp only
    rw [changeGroupByEmail_same db email st.m_group st hf rfl]
    exact ⟨rfl, fun _ => rfl⟩
  · obtain ⟨_, _, hs1, _, _, _, _, hgs1⟩ := changeGroupByEmail_move db email g2 st hf hg
    have hf1 : UMap.find (changeGroupByEmail db email g2).2.studentsByEmail email =
        some { st with m_group := g2 } := by
      rw [hs1, UMap.find_update, if_pos rfl, hf]
      rfl
    have hg1 : ({ st with m_group := g2 } : Student).m_group ≠ st.m_group :=
      fun h => hg h.symm
    obtain ⟨_, _, hs2, _, _, _, _, hgs2⟩ :=
      changeGroupByEmail_move (changeGroupByEmail db email g2).2 email st.m_group
        { st with m_group := g2 } hf1 hg1
    constructor
    · rw [hs2, hs1]
      exact UMap.update_update_cancel _ _ _ _ email _ st hf (by cases st; rfl)
    · intro g
      rw [hgs2 g]
      simp only
      have he1 : entry (changeGroupByEmail db email g2).2.groupStats st.m_group =
          if (entry db.groupStats st.m_group).studentCount - 1 = 0 then {}
          else { studentCount := (entry db.groupStats st.m_group).studentCount - 1,
                 totalRating := (entry db.groupStats st.m_group).totalRating - st.m_rating } := by
        have h := hgs1 st.m_group
        rw [if_neg (fun h => hg h.symm), if_pos rfl] at h
        by_cases hz : (entry db.groupStats st.m_group).studentCount - 1 = 0
        · rw [if_pos hz] at h ⊢
          exact entry_of_find_none h
        · rw [if_neg hz] at h ⊢
          exact entry_of_find_some h
      have he2 : entry (changeGroupByEmail db email g2).2.groupStats g2 =
          { studentCount := (entry db.groupStats g2).studentCount + 1,
            totalRating := (entry db.groupStats g2).totalRating + st.m_rating } := by
        have h := hgs1 g2
        rw [if_pos rfl] at h
        exact entry_of_find_some h
      rw [he1, he2]
      have hcount := count_pos_of_find hf
      by_cases h1 : st.m_group = g
      · subst h1
        rw [if_pos rfl]
        cases hfg : UMap.find db.groupStats st.m_group with
        | none =>
          have := (hp st.m_group).2 hfg
          omega
        | some x =>
          have hx := (hp st.m_group).1 x hfg
          have hex : entry db.groupStats st.m_group = x := entry_of_find_some hfg
          rw [hex]
          by_cases hz : x.studentCount - 1 = 0
          · rw [if_pos hz]
            have hc1 : countInGroup db.studentsByEmail st.m_group = 1 := by omega
            have hxc : x.studentCount = countInGroup db.studentsByEmail st.m_group := by omega
            have hxt := ht st.m_group x hfg hxc
            rw [rating_single hf hc1] at hxt
            have hx1 : x.studentCount = 1 := by omega
            cases x
            simp only at hxt hx1
            subst hxt hx1
            simp
          · rw [if_neg hz]
            cases x
            simp
      · rw [if_neg h1]
        by_cases h2 : g2 = g
        · subst h2
          rw [if_pos rfl]
          simp only
          cases hfg : UMap.find db.groupStats g2 with
          | none =>
            have hex : entry db.groupStats g2 = {} := entry_of_find_none hfg
            rw [hex]
            simp
          | some x =>
            have hx := (hp g2).1 x hfg
            have hex : entry db.groupStats g2 = x := entry_of_find_some hfg
            rw [hex]
            have hz : ¬ x.studentCount + 1 - 1 = 0 := by omega
            rw [if_neg hz]
            cases x
            simp
        · rw [if_neg h2, hgs1 g, if_neg h2, if_neg h1]

/-- C22: for every store state reached from an empty store by any sequence of operations
(in particular by insert steps and `changeGroupByEmail` calls), every present e-mail whose
record is in group `g1` and every label `g2`, the calls `changeGroupByEmail(email, g2)` and
then `changeGroupByEmail(email, g1)` leave `studentsByEmail` as it was and leave
`groupStats` with the same labels, each with the `studentCount` and `totalRating` it had:
every lookup gives what it gave before, and the entries are a rearrangement of the old
ones. -/
theorem move_away_and_back (ops : List Op) (email g2 : String) (st : Student)
    (hf : UMap.find (run empty ops).studentsByEmail email = some st) :
    (moveAndBack (run empty ops) email st.m_group g2).studentsByEmail =
      (run empty ops).studentsByEmail ∧
    (∀ g, UMap.find (moveAndBack (run empty ops) email st.m_group g2).groupStats g =
      UMap.find (run empty ops).groupStats g) ∧
    (moveAndBack (run empty ops) email st.m_group g2).groupStats.Perm
      (run empty ops).groupStats := by
  have hwf := run_wf ops empty empty_wf
  have hp := run_pos ops empty empty_exact.pos
  have ht := run_tight ops empty empty_exact.pos empty_tight
  obtain ⟨h1, h2⟩ := moveAndBack_spec (run empty ops) hp ht email g2 st hf
  refine ⟨h1, h2, UMap.perm_of_find_eq ?_ hwf.2 h2⟩
  exact (changeGroupByEmail_wf _ email st.m_group (changeGroupByEmail_wf _ email g2 hwf)).2

/-- Witness of C22: after insert steps with a repeated identifier and a move, the record
`A` (in `G3`) is moved to the label `G1`, which still has an entry, and back. -/
theorem move_away_and_back_witness :
    UMap.find (run empty repeatedIdOps).studentsByEmail "A" =
      some (mkStudent "A" 1 1 "G3" 8) ∧
    (moveAndBack (run empty repeatedIdOps) "A" (mkStudent "A" 1 1 "G3" 8).m_group
        "G1").studentsByEmail = (run empty repeatedIdOps).studentsByEmail ∧
    (∀ g, UMap.find (moveAndBack (run empty repeatedIdOps) "A"
        (mkStudent "A" 1 1 "G3" 8).m_group "G1").groupStats g =
      UMap.find (run empty repeatedIdOps).groupStats g) ∧
    (moveAndBack (run empty repeatedIdOps) "A" (mkStudent "A" 1 1 "G3" 8).m_group
        "G1").groupStats.Perm (run empty repeatedIdOps).groupStats :=
  ⟨by decide!, move_away_and_back repeatedIdOps "A" "G1" (mkStudent "A" 1 1 "G3" 8)
    (by decide!)⟩

end OptimizedStudentDB

end StudentManager
